import Mathlib

/-
Verification of the type-variable substitution store (`Subs`) of
src/compiler/types/src/subs.rs.

The data model and the operations below are a shallow embedding of that file:
machine integers become `Nat`/`Int` (with an explicit `% 2 ^ 16` exactly where
the source performs an `as u16` truncating cast), the `Vec<T>` arenas become
`List`s, panics become `Except`/`Option` failures, and the recursive graph
traversals take an explicit fuel argument (the Rust recursion is unbounded; a
result is only reported when the fuel did not run out, so every theorem about a
produced result speaks about the run the Rust code performs).

The unification table itself lives in the vendored `ven_ena` crate, which is
not part of the sources under verification; everything about it is modelled
from the specification (section 4.1): a table of nodes (root descriptor or
redirect), mutation logging for snapshots, and `unify_roots` installing the
descriptor at the surviving root, oriented so that `Subs::union`'s *right*
argument's root survives, as section 4.1 states.  Path compression (a pure
optimisation that the spec declares transparent to callers) is not modelled:
root resolution is read-only here.
-/

namespace RocSubs

/-- Variables are dense 32-bit identifiers; modelled as naturals.
Variable 0 is `NULL`, the sentinel used by `OptVariable::NONE`. -/
abbrev Var := Nat

/-- Truncating `as u16` cast of the source. -/
def u16cast (n : Nat) : Nat := n % 65536

/-- Rank is a `u32`: `NONE = 0`, `toplevel = 1`, `import = 2`. -/
abbrev Rank := Nat

def Rank.NONE : Rank := 0

def Rank.toplevel : Rank := 1

def Rank.importRank : Rank := 2

/-- The `u32::MAX` rank used as the redirect sentinel by serialization. -/
def rankU32MAX : Rank := 4294967295

/-- Mark is an `i32`: `GET_VAR_NAMES = 0`, `OCCURS = 1`, `NONE = 2`. -/
abbrev Mark := Int

def Mark.GET_VAR_NAMES : Mark := 0

def Mark.OCCURS : Mark := 1

def Mark.NONE : Mark := 2

/-- The `i32::MAX` mark used as the redirect sentinel by serialization. -/
def markI32MAX : Mark := 2147483647

/-- Lowercase / Uppercase identifier names are interned byte strings;
modelled as lists of bytes. -/
abbrev Name := List Nat

/-- Symbols are opaque interner handles. -/
abbrev Symbol := Nat

/-- A `TagName` is either a global tag (an uppercase name) or a closure tag
(a symbol). -/
inductive TagName
  | tag (name : Name)
  | closure (symbol : Symbol)
deriving DecidableEq

/-- The payload-free record-field kind stored in the `record_fields` arena
(`RecordField<()>`). -/
inductive RecordFieldKind
  | demanded
  | required
  | optionalField
deriving DecidableEq

/-- An untyped `SubsSlice<T>`: a `(start, length)` range into one of the
arenas.  The source stores `start : u32` and `length : u16`. -/
structure SubsSliceN where
  start : Nat
  length : Nat
deriving DecidableEq

/-- Index range of a slice, as `SubsSlice::indices`. -/
def SubsSliceN.indicesList (s : SubsSliceN) : List Nat :=
  (List.range s.length).map (fun k => s.start + k)

/-- `UnionTags`: three parallel equal-length runs into the `tag_names` and
`variable_slices` arenas. -/
structure UnionTags where
  length : Nat
  tag_names_start : Nat
  variables_start : Nat
deriving DecidableEq

/-- `RecordFields`: four parallel equal-length runs. -/
structure RecordFields where
  length : Nat
  field_names_start : Nat
  variables_start : Nat
  field_types_start : Nat
deriving DecidableEq

/-- `AliasVariables`: one run into the `variables` arena, of which the first
`type_variables_len` entries are the named type arguments. -/
structure AliasVariables where
  variables_start : Nat
  all_variables_len : Nat
  type_variables_len : Nat
deriving DecidableEq

/-- Alias kinds: structural or opaque wrappers. -/
inductive AliasKind
  | structural
  | opaqueKind
deriving DecidableEq

/-- The structural shapes (`FlatType`). -/
inductive FlatType
  | apply (symbol : Symbol) (args : SubsSliceN)
  | func (args : SubsSliceN) (closureVar : Var) (retVar : Var)
  | record (fields : RecordFields) (ext : Var)
  | tagUnion (tags : UnionTags) (ext : Var)
  | functionOrTagUnion (tagName : Nat) (symbol : Symbol) (ext : Var)
  | recursiveTagUnion (recVar : Var) (tags : UnionTags) (ext : Var)
  | erroneous (problem : Nat)
  | emptyRecord
  | emptyTagUnion
deriving DecidableEq

/-- The content of a type variable.  Name fields are `SubsIndex<Lowercase>`
indices into the `field_names` arena, modelled as plain naturals. -/
inductive Content
  | flexVar (optName : Option Nat)
  | rigidVar (name : Nat)
  | flexAbleVar (optName : Option Nat) (ability : Symbol)
  | rigidAbleVar (name : Nat) (ability : Symbol)
  | recursionVar (struct : Var) (optName : Option Nat)
  | struct (flatType : FlatType)
  | alias (symbol : Symbol) (args : AliasVariables) (realVar : Var) (kind : AliasKind)
  | rangedNumber (typ : Var) (rangeVars : SubsSliceN)
  | error
deriving DecidableEq

/-- A descriptor: content, rank, mark and the scratch `copy` pointer.
`copy` is the raw `OptVariable` (a `u32` where 0 encodes `None`), exactly as
in the source. -/
structure Descriptor where
  content : Content
  rank : Rank
  mark : Mark
  copy : Nat
deriving DecidableEq

/-- `Content::FlexVar(None)`, the content of a fresh unnamed variable. -/
def unnamed_flex_var : Content := Content.flexVar none

/-- `Descriptor::from(content)`: rank `NONE`, mark `NONE`, no copy. -/
def Descriptor.fromContent (content : Content) : Descriptor :=
  { content := content, rank := Rank.NONE, mark := Mark.NONE, copy := 0 }

/-- The default descriptor of a freshly allocated key. -/
def flex_var_descriptor : Descriptor := Descriptor.fromContent unnamed_flex_var

/-- Modelled from the spec: a node of `ven_ena`'s in-place unification table
(not part of src/): either a root carrying the descriptor, or a redirect to
another key. -/
inductive UFNode
  | root (desc : Descriptor)
  | redirect (toKey : Var)
deriving DecidableEq

/-- Modelled from the spec: one entry of the table's mutation log; undoing it
restores the previous state (section 4.1 requires logging of all descriptor
writes and new keys since a snapshot, with rollback to the logged state). -/
inductive UndoAction
  | setNode (i : Nat) (old : UFNode)
  | popKey
deriving DecidableEq

/-- Modelled from the spec: the unification table is a dense array of nodes
together with the mutation log.  A `Snapshot` is a position in the log. -/
structure UnificationTable where
  nodes : List UFNode
  log : List UndoAction
deriving DecidableEq

namespace UnificationTable

def len (t : UnificationTable) : Nat := t.nodes.length

/-- Node lookup.  Out-of-range access panics in Rust; it is modelled as the
default fresh node so that all in-range reasoning is unaffected. -/
def getNode (t : UnificationTable) (i : Nat) : UFNode :=
  t.nodes.getD i (UFNode.root flex_var_descriptor)

def isRedirect (t : UnificationTable) (i : Nat) : Bool :=
  match t.getNode i with
  | UFNode.redirect _ => true
  | UFNode.root _ => false

def isRoot (t : UnificationTable) (i : Nat) : Bool :=
  match t.getNode i with
  | UFNode.redirect _ => false
  | UFNode.root _ => true

/-- Follow redirects for at most `fuel` steps. -/
def rootAux (t : UnificationTable) : Nat → Var → Var
  | 0, v => v
  | fuel + 1, v =>
    match t.getNode v with
    | UFNode.root _ => v
    | UFNode.redirect w => t.rootAux fuel w

/-- `get_root_key_without_compacting`: follow redirects to the representative.
The fuel `t.len` suffices whenever the chain reaches a root at all. -/
def rootOf (t : UnificationTable) (v : Var) : Var :=
  t.rootAux t.len v

/-- `probe_value_without_compacting`: the descriptor at the representative. -/
def probe (t : UnificationTable) (v : Var) : Descriptor :=
  match t.getNode (t.rootOf v) with
  | UFNode.root d => d
  | UFNode.redirect _ => flex_var_descriptor

/-- `new_key`: append a fresh root node, logging the allocation. -/
def newKey (t : UnificationTable) (d : Descriptor) : UnificationTable :=
  { nodes := t.nodes ++ [UFNode.root d], log := UndoAction.popKey :: t.log }

/-- Write node `i` (in range only, as in the source), logging the old node. -/
def setNodeLogged (t : UnificationTable) (i : Nat) (n : UFNode) : UnificationTable :=
  if i < t.nodes.length then
    { nodes := t.nodes.set i n, log := UndoAction.setNode i (t.getNode i) :: t.log }
  else t

/-- `update_value` at a key expected to be a root: replace its descriptor. -/
def updateRoot (t : UnificationTable) (i : Nat) (d : Descriptor) : UnificationTable :=
  match t.getNode i with
  | UFNode.root _ => t.setNodeLogged i (UFNode.root d)
  | UFNode.redirect _ => t

/-- Modelled from the spec: `unify_roots key_a key_b desc` merges the two
root classes, installing `desc` at the surviving root.  `Subs::union l r`
passes `(r_root, l_root)`, and section 4.1 fixes that the right root of
`union` survives, so `key_a` is the survivor here. -/
def unifyRoots (t : UnificationTable) (keyA keyB : Var) (d : Descriptor) :
    UnificationTable :=
  if keyA = keyB then
    t.setNodeLogged keyA (UFNode.root d)
  else
    (t.setNodeLogged keyB (UFNode.redirect keyA)).setNodeLogged keyA (UFNode.root d)

/-- `snapshot`: remember the current log position. -/
def snapshot (t : UnificationTable) : Nat := t.log.length

/-- Undo a single logged action. -/
def applyUndo (nodes : List UFNode) : UndoAction → List UFNode
  | UndoAction.setNode i old => nodes.set i old
  | UndoAction.popKey => nodes.dropLast

def rollbackAux : Nat → UnificationTable → UnificationTable
  | 0, t => t
  | k + 1, t =>
    match t.log with
    | [] => t
    | a :: rest => rollbackAux k { nodes := applyUndo t.nodes a, log := rest }

/-- `rollback_to`: undo every logged action performed since the snapshot. -/
def rollbackTo (t : UnificationTable) (snap : Nat) : UnificationTable :=
  if snap ≤ t.log.length then rollbackAux (t.log.length - snap) t else t

end UnificationTable

/-- The substitution store.  The five arenas are `variables`,
`variable_slices`, `tag_names`, `field_names` and `record_fields`; `problems`
is the diagnostics list.  (The source struct also carries a `tag_name_cache`
lookup cache, which no operation verified here consults.) -/
structure Subs where
  utable : UnificationTable
  «variables» : List Var
  variable_slices : List SubsSliceN
  tag_names : List TagName
  field_names : List Name
  record_fields : List RecordFieldKind
  problems : List Nat
deriving DecidableEq

namespace Subs

def len (s : Subs) : Nat := s.utable.len

/-- `get_root_key_without_compacting`. -/
def get_root_key (s : Subs) (v : Var) : Var := s.utable.rootOf v

/-- `get_without_compacting`: the resolved descriptor. -/
def getDesc (s : Subs) (v : Var) : Descriptor := s.utable.probe v

/-- `get_content_without_compacting`. -/
def getContent (s : Subs) (v : Var) : Content := (s.getDesc v).content

/-- `fresh`: allocate a new key with the given descriptor; the new variable
is the table length before the allocation. -/
def fresh (s : Subs) (d : Descriptor) : Var × Subs :=
  (s.utable.len, { s with utable := s.utable.newKey d })

/-- `fresh_unnamed_flex_var`. -/
def fresh_unnamed_flex_var (s : Subs) : Var × Subs :=
  s.fresh (Descriptor.fromContent unnamed_flex_var)

/-- `set`: install a whole descriptor at the root of `key`. -/
def set (s : Subs) (key : Var) (d : Descriptor) : Subs :=
  { s with utable := s.utable.updateRoot (s.get_root_key key) d }

/-- `set_content`. -/
def set_content (s : Subs) (key : Var) (c : Content) : Subs :=
  let r := s.get_root_key key
  { s with utable := s.utable.updateRoot r { s.utable.probe key with content := c } }

/-- `set_rank`. -/
def set_rank (s : Subs) (key : Var) (rank : Rank) : Subs :=
  let r := s.get_root_key key
  { s with utable := s.utable.updateRoot r { s.utable.probe key with rank := rank } }

/-- `set_mark`. -/
def set_mark (s : Subs) (key : Var) (mark : Mark) : Subs :=
  let r := s.get_root_key key
  { s with utable := s.utable.updateRoot r { s.utable.probe key with mark := mark } }

/-- `union`: resolve both arguments to their roots, then merge.  The argument
swap when calling `unify_roots` mirrors the source (the NOTE there says the
swap is intentional so that the merge is oriented the way the rest of the
type checker expects). -/
def union (s : Subs) (left right : Var) (d : Descriptor) : Subs :=
  let lRoot := s.get_root_key left
  let rRoot := s.get_root_key right
  { s with utable := s.utable.unifyRoots rRoot lRoot d }

/-- `rigid_var`: push the name into the `field_names` arena and install a
`RigidVar` descriptor at the variable. -/
def rigid_var (s : Subs) (var : Var) (name : Name) : Subs :=
  let nameIndex := s.field_names.length
  let s1 := { s with field_names := s.field_names ++ [name] }
  let content := Content.rigidVar nameIndex
  s1.set var (Descriptor.fromContent content)

/-- `rigid_able_var`. -/
def rigid_able_var (s : Subs) (var : Var) (name : Name) (ability : Symbol) : Subs :=
  let nameIndex := s.field_names.length
  let s1 := { s with field_names := s.field_names ++ [name] }
  let content := Content.rigidAbleVar nameIndex ability
  s1.set var (Descriptor.fromContent content)

/-- `snapshot` delegates to the table. -/
def snapshot (s : Subs) : Nat := s.utable.snapshot

/-- `rollback_to` delegates to the table; the arenas are untouched. -/
def rollback_to (s : Subs) (snap : Nat) : Subs :=
  { s with utable := s.utable.rollbackTo snap }

end Subs

/-- `VariableSubsSlice::insert_into_subs`: append the input variables to the
`variables` arena and return the slice spanning them. -/
def VariableSubsSlice.insert_into_subs (s : Subs) (input : List Var) : SubsSliceN × Subs :=
  let start := s.«variables».length
  let s1 := { s with «variables» := s.«variables» ++ input }
  let length := u16cast (s1.«variables».length - start)
  (⟨start, length⟩, s1)

/-- `VariableSubsSlice::reserve_into_subs`: append `length` `NULL` placeholder
variables and return the slice for in-place filling. -/
def VariableSubsSlice.reserve_into_subs (s : Subs) (length : Nat) : SubsSliceN × Subs :=
  let start := s.«variables».length
  let s1 := { s with «variables» := s.«variables» ++ List.replicate length 0 }
  (⟨start, u16cast length⟩, s1)

/-- `SubsSlice::<VariableSubsSlice>::reserve_variable_slices`: append `length`
default (empty) slices to the `variable_slices` arena. -/
def SubsSliceN.reserve_variable_slices (s : Subs) (length : Nat) : SubsSliceN × Subs :=
  let start := s.variable_slices.length
  let s1 := { s with variable_slices := s.variable_slices ++ List.replicate length ⟨0, 0⟩ }
  (⟨start, u16cast length⟩, s1)

/-- `UnionTags::from_slices` (the debug-only length assertion is omitted). -/
def UnionTags.from_slices (tag_names : SubsSliceN) (variablesSlice : SubsSliceN) : UnionTags :=
  { length := u16cast tag_names.length,
    tag_names_start := tag_names.start,
    variables_start := variablesSlice.start }

/-- `UnionTags::tag_names`. -/
def UnionTags.tagNamesSlice (t : UnionTags) : SubsSliceN := ⟨t.tag_names_start, t.length⟩

/-- `UnionTags::variables`. -/
def UnionTags.variablesSlice (t : UnionTags) : SubsSliceN := ⟨t.variables_start, t.length⟩

/-- `get_subs_slice` of a variable slice: the variables it denotes. -/
def Subs.getSubsSliceVars (s : Subs) (sl : SubsSliceN) : List Var :=
  sl.indicesList.map (fun i => s.«variables».getD i 0)

/-- The payload slices denoted by `tags.variables()`. -/
def Subs.tagsPayloadSlices (s : Subs) (tags : UnionTags) : List SubsSliceN :=
  (UnionTags.variablesSlice tags).indicesList.map (fun i => s.variable_slices.getD i ⟨0, 0⟩)

/-- All payload variables of a tag union, in traversal order. -/
def Subs.unionTagsPayloadVars (s : Subs) (tags : UnionTags) : List Var :=
  ((s.tagsPayloadSlices tags).map s.getSubsSliceVars).flatten

/-- `AliasVariables::insert_into_subs`: extend the `variables` arena with the
named type arguments, then with the unnamed (lambda-set) arguments, measuring
both runs with truncating `u16` casts, then panic when the measured
`type_variables_len` is exactly 3.  A panic is modelled as `Except.error`
carrying the store at the moment of the panic (the arena extension has
already happened). -/
def AliasVariables.insert_into_subs (s : Subs) (type_arguments unnamed_arguments : List Var) :
    Except Subs (Subs × AliasVariables) :=
  let variables_start := s.«variables».length
  let vars1 := s.«variables» ++ type_arguments
  let type_variables_len := u16cast (vars1.length - variables_start)
  let vars2 := vars1 ++ unnamed_arguments
  let all_variables_len := u16cast (vars2.length - variables_start)
  let s1 := { s with «variables» := vars2 }
  if type_variables_len = 3 then
    Except.error s1
  else
    Except.ok (s1,
      { variables_start := variables_start,
        all_variables_len := all_variables_len,
        type_variables_len := type_variables_len })

/-- Result of the occurs check: `Ok(())`, `Err((culprit, path))`, or fuel
exhaustion (which the unbounded Rust recursion never reports). -/
inductive ORes
  | ok
  | err (culprit : Var) (path : List Var)
  | out
deriving DecidableEq

/-- `short_circuit_help`: run the occurs check on `var` and push `root_key`
onto the reported path on failure. -/
def short_circuit_help (occ : List Var → Var → ORes) (root_key : Var)
    (seen : List Var) (var : Var) : ORes :=
  match occ seen var with
  | ORes.err v vec => ORes.err v (vec ++ [root_key])
  | r => r

/-- `short_circuit`: check every variable of the iterator in order, stopping
at the first failure. -/
def short_circuit (occ : List Var → Var → ORes) (root_key : Var) (seen : List Var) :
    List Var → ORes
  | [] => ORes.ok
  | v :: vs =>
    match short_circuit_help occ root_key seen v with
    | ORes.ok => short_circuit occ root_key seen vs
    | r => r

/-- The free function `occurs`: walk the structural graph rooted at
`input_var`, tracking the path of visited roots in `seen`. -/
def occursHelp (s : Subs) : Nat → List Var → Var → Bool → ORes
  | 0, _, _, _ => ORes.out
  | fuel + 1, seen, input_var, include_recursion_var =>
    let occ := fun sn v => occursHelp s fuel sn v include_recursion_var
    let root_var := s.get_root_key input_var
    if seen.contains root_var then ORes.err root_var []
    else
      match s.getContent root_var with
      | Content.flexVar _ => ORes.ok
      | Content.rigidVar _ => ORes.ok
      | Content.flexAbleVar _ _ => ORes.ok
      | Content.rigidAbleVar _ _ => ORes.ok
      | Content.recursionVar _ _ => ORes.ok
      | Content.error => ORes.ok
      | Content.struct flat_type =>
        let new_seen := seen ++ [root_var]
        match flat_type with
        | FlatType.apply _ args =>
            short_circuit occ root_var new_seen (s.getSubsSliceVars args)
        | FlatType.func args closure_var ret_var =>
            short_circuit occ root_var new_seen
              ([ret_var, closure_var] ++ s.getSubsSliceVars args)
        | FlatType.record fields ext_var =>
            short_circuit occ root_var new_seen
              ([ext_var] ++ s.getSubsSliceVars ⟨fields.variables_start, fields.length⟩)
        | FlatType.tagUnion tags ext_var =>
            short_circuit occ root_var new_seen (s.unionTagsPayloadVars tags ++ [ext_var])
        | FlatType.functionOrTagUnion _ _ ext_var =>
            short_circuit occ root_var new_seen [ext_var]
        | FlatType.recursiveTagUnion rec_var tags ext_var =>
            let new_seen2 :=
              if include_recursion_var then new_seen ++ [s.get_root_key rec_var] else new_seen
            short_circuit occ root_var new_seen2 (s.unionTagsPayloadVars tags ++ [ext_var])
        | FlatType.erroneous _ => ORes.ok
        | FlatType.emptyRecord => ORes.ok
        | FlatType.emptyTagUnion => ORes.ok
      | Content.alias _ args _ _ =>
        let new_seen := seen ++ [root_var]
        short_circuit occ root_var new_seen
          (s.getSubsSliceVars ⟨args.variables_start, args.all_variables_len⟩)
      | Content.rangedNumber typ _ =>
        let new_seen := seen ++ [root_var]
        short_circuit occ root_var new_seen [typ]

/-- `Subs::occurs`: the public occurs check.  It takes the store immutably
(here: it is a pure function of the store).  The recursion depth is bounded
by the number of distinct roots plus one, so fuel `len + 2` is enough for
every run the Rust code performs. -/
def Subs.occurs (s : Subs) (var : Var) : ORes :=
  occursHelp s (s.len + 2) [] var false

/-- `Subs::occurs_including_recursion_vars`. -/
def Subs.occurs_including_recursion_vars (s : Subs) (var : Var) : ORes :=
  occursHelp s (s.len + 2) [] var true

/-- The structural children of a (root) variable, exactly as `occurs` visits
them with `include_recursion_var = false`: recursion-variable back edges,
alias real types and ranged-number range variables are not walked. -/
def occursChildren (s : Subs) (r : Var) : List Var :=
  match s.getContent r with
  | Content.struct flat_type =>
    match flat_type with
    | FlatType.apply _ args => s.getSubsSliceVars args
    | FlatType.func args closure_var ret_var =>
        [ret_var, closure_var] ++ s.getSubsSliceVars args
    | FlatType.record fields ext_var =>
        [ext_var] ++ s.getSubsSliceVars ⟨fields.variables_start, fields.length⟩
    | FlatType.tagUnion tags ext_var => s.unionTagsPayloadVars tags ++ [ext_var]
    | FlatType.functionOrTagUnion _ _ ext_var => [ext_var]
    | FlatType.recursiveTagUnion _ tags ext_var => s.unionTagsPayloadVars tags ++ [ext_var]
    | FlatType.erroneous _ => []
    | FlatType.emptyRecord => []
    | FlatType.emptyTagUnion => []
  | Content.alias _ args _ _ =>
      s.getSubsSliceVars ⟨args.variables_start, args.all_variables_len⟩
  | Content.rangedNumber typ _ => [typ]
  | _ => []

/-- A descendant path of length `n` in the structural graph: every step goes
from a root to the root of one of its `occursChildren`. -/
inductive ReachN (s : Subs) : Nat → Var → Var → Prop
  | refl (v : Var) : ReachN s 0 v v
  | step {u c x : Var} {n : Nat} :
      c ∈ occursChildren s u → ReachN s n (s.get_root_key c) x → ReachN s (n + 1) u x

/-- The free function `explicit_substitute`, in state-passing style: the
result is the replacement variable together with the mutated store and the
mutated seen set; `none` is fuel exhaustion. -/
def esSliceInPlace (es : Subs → List Var → Var → Option (Var × Subs × List Var)) :
    Subs → List Var → List Nat → Option (Subs × List Var)
  | s, seen, [] => some (s, seen)
  | s, seen, i :: is => do
    let var := s.«variables».getD i 0
    let (answer, s1, seen1) ← es s seen var
    let s2 := { s1 with «variables» := s1.«variables».set i answer }
    esSliceInPlace es s2 seen1 is

/-- Inner loop of the tag-union cases of `explicit_substitute`: substitute
each payload variable of one slice, collecting the results in order (the
results are appended to the `variables` arena afterwards). -/
def esVarsCollect (es : Subs → List Var → Var → Option (Var × Subs × List Var)) :
    Subs → List Var → List Nat → Option (List Var × Subs × List Var)
  | s, seen, [] => some ([], s, seen)
  | s, seen, i :: is => do
    let var := s.«variables».getD i 0
    let (new_var, s1, seen1) ← es s seen var
    let (rest, s2, seen2) ← esVarsCollect es s1 seen1 is
    some (new_var :: rest, s2, seen2)

/-- Outer loop of the tag-union cases of `explicit_substitute`: build the
fresh backing storage for every payload slice, and return the new slices. -/
def esSlicesLoop (es : Subs → List Var → Var → Option (Var × Subs × List Var)) :
    Subs → List Var → List Nat → Option (List SubsSliceN × Subs × List Var)
  | s, seen, [] => some ([], s, seen)
  | s, seen, si :: sis => do
    let slice := s.variable_slices.getD si ⟨0, 0⟩
    let (new_variables, s1, seen1) ← esVarsCollect es s seen slice.indicesList
    let start := s1.«variables».length
    let length := u16cast new_variables.length
    let s2 := { s1 with «variables» := s1.«variables» ++ new_variables }
    let (rest, s3, seen3) ← esSlicesLoop es s2 seen1 sis
    some (SubsSliceN.mk start length :: rest, s3, seen3)

def explicitSubstituteHelp (from_ to_ : Var) : Nat → Subs → Var → List Var →
    Option (Var × Subs × List Var)
  | 0, _, _, _ => none
  | fuel + 1, s, in_var, seen =>
    let es := fun s1 sn v => explicitSubstituteHelp from_ to_ fuel s1 v sn
    let in_root := s.get_root_key in_var
    if seen.contains in_root then some (in_var, s, seen)
    else
      let seen1 := seen ++ [in_root]
      if s.get_root_key from_ = s.get_root_key in_var then some (to_, s, seen1)
      else
        match s.getContent in_var with
        | Content.flexVar _ => some (in_var, s, seen1)
        | Content.rigidVar _ => some (in_var, s, seen1)
        | Content.flexAbleVar _ _ => some (in_var, s, seen1)
        | Content.rigidAbleVar _ _ => some (in_var, s, seen1)
        | Content.recursionVar _ _ => some (in_var, s, seen1)
        | Content.error => some (in_var, s, seen1)
        | Content.struct flat_type =>
          match flat_type with
          | FlatType.apply symbol args => do
            let (s1, seen2) ← esSliceInPlace es s seen1 args.indicesList
            let s2 := s1.set_content in_var (Content.struct (FlatType.apply symbol args))
            some (in_var, s2, seen2)
          | FlatType.func arg_vars closure_var ret_var => do
            let (s1, seen2) ← esSliceInPlace es s seen1 arg_vars.indicesList
            let (new_ret_var, s2, seen3) ← es s1 seen2 ret_var
            let (new_closure_var, s3, seen4) ← es s2 seen3 closure_var
            let s4 := s3.set_content in_var
              (Content.struct (FlatType.func arg_vars new_closure_var new_ret_var))
            some (in_var, s4, seen4)
          | FlatType.tagUnion tags ext_var => do
            let (new_ext_var, s1, seen2) ← es s seen1 ext_var
            let (new_slices, s2, seen3) ←
              esSlicesLoop es s1 seen2 (UnionTags.variablesSlice tags).indicesList
            let start := s2.variable_slices.length
            let s3 := { s2 with variable_slices := s2.variable_slices ++ new_slices }
            let union_tags := { tags with variables_start := start }
            let s4 := s3.set_content in_var
              (Content.struct (FlatType.tagUnion union_tags new_ext_var))
            some (in_var, s4, seen3)
          | FlatType.functionOrTagUnion tag_name symbol ext_var => do
            let (new_ext_var, s1, seen2) ← es s seen1 ext_var
            let s2 := s1.set_content in_var
              (Content.struct (FlatType.functionOrTagUnion tag_name symbol new_ext_var))
            some (in_var, s2, seen2)
          | FlatType.recursiveTagUnion rec_var tags ext_var => do
            let (new_ext_var, s1, seen2) ← es s seen1 ext_var
            let (new_slices, s2, seen3) ←
              esSlicesLoop es s1 seen2 (UnionTags.variablesSlice tags).indicesList
            let start := s2.variable_slices.length
            let s3 := { s2 with variable_slices := s2.variable_slices ++ new_slices }
            let union_tags := { tags with variables_start := start }
            let s4 := s3.set_content in_var
              (Content.struct (FlatType.recursiveTagUnion rec_var union_tags new_ext_var))
            some (in_var, s4, seen3)
          | FlatType.record vars_by_field ext_var => do
            let (new_ext_var, s1, seen2) ← es s seen1 ext_var
            let (s2, seen3) ← esSliceInPlace es s1 seen2
              (SubsSliceN.mk vars_by_field.variables_start vars_by_field.length).indicesList
            let s3 := s2.set_content in_var
              (Content.struct (FlatType.record vars_by_field new_ext_var))
            some (in_var, s3, seen3)
          | FlatType.erroneous _ => some (in_var, s, seen1)
          | FlatType.emptyRecord => some (in_var, s, seen1)
          | FlatType.emptyTagUnion => some (in_var, s, seen1)
        | Content.alias symbol args actual kind => do
          let (s1, seen2) ← esSliceInPlace es s seen1
            (SubsSliceN.mk args.variables_start args.all_variables_len).indicesList
          let (new_actual, s2, seen3) ← es s1 seen2 actual
          let s3 := s2.set_content in_var (Content.alias symbol args new_actual kind)
          some (in_var, s3, seen3)
        | Content.rangedNumber typ vars => do
          let (s1, seen2) ← esSliceInPlace es s seen1 vars.indicesList
          let (new_typ, s2, seen3) ← es s1 seen2 typ
          let s3 := s2.set_content in_var (Content.rangedNumber new_typ vars)
          some (in_var, s3, seen3)

/-- `Subs::explicit_substitute`: resolve the three arguments to roots, start
with an empty seen set, and run the substitution.  The recursion depth is
bounded by the number of distinct roots plus one. -/
def Subs.explicit_substitute (s : Subs) (from_ to_ in_var : Var) : Option (Var × Subs) := do
  let x := s.get_root_key from_
  let y := s.get_root_key to_
  let z := s.get_root_key in_var
  let (answer, s1, _) ← explicitSubstituteHelp x y (s.len + 2) s z []
  some (answer, s1)

/-- Inner loop of `mark_tag_union_recursive`: for one payload slice, fill the
freshly reserved backing storage with the substituted payload variables. -/
def mturInnerLoop (recursive rec_var : Var) :
    Subs → Nat → Nat → Nat → Option Subs
  | s, _, _, 0 => some s
  | s, target_index, var_index, n + 1 => do
    let var := s.«variables».getD var_index 0
    let (answer, s1) ← s.explicit_substitute recursive rec_var var
    let s2 := { s1 with «variables» := s1.«variables».set target_index answer }
    mturInnerLoop recursive rec_var s2 (target_index + 1) (var_index + 1) n

/-- Outer loop of `mark_tag_union_recursive` over the tag payload slices. -/
def mturOuterLoop (recursive rec_var : Var) :
    Subs → Nat → Nat → Nat → Option Subs
  | s, _, _, 0 => some s
  | s, variable_slice_index, slice_index, n + 1 => do
    let slice := s.variable_slices.getD slice_index ⟨0, 0⟩
    let (new_variables, s1) := VariableSubsSlice.reserve_into_subs s slice.length
    let s2 ← mturInnerLoop recursive rec_var s1 new_variables.start slice.start slice.length
    let s3 := { s2 with variable_slices := s2.variable_slices.set variable_slice_index new_variables }
    mturOuterLoop recursive rec_var s3 (variable_slice_index + 1) (slice_index + 1) n

/-- `Subs::mark_tag_union_recursive`. -/
def Subs.mark_tag_union_recursive (s : Subs) (recursive : Var) (tags : UnionTags)
    (ext_var : Var) : Option Subs := do
  let description := s.getDesc recursive
  let (rec_var, s1) := s.fresh_unnamed_flex_var
  let s2 := s1.set_rank rec_var description.rank
  let s3 := s2.set_content rec_var (Content.recursionVar recursive none)
  let (new_variable_slices, s4) := SubsSliceN.reserve_variable_slices s3 tags.length
  let s5 ← mturOuterLoop recursive rec_var s4 new_variable_slices.start tags.variables_start
    tags.length
  let (new_ext_var, s6) ← s5.explicit_substitute recursive rec_var ext_var
  let new_tags := UnionTags.from_slices (UnionTags.tagNamesSlice tags) new_variable_slices
  let flat_type := FlatType.recursiveTagUnion rec_var new_tags new_ext_var
  some (s6.set_content recursive (Content.struct flat_type))

/-- One store operation of the interface of section 4.1, for the snapshot
claim: everything the facade exposes that mutates the store. -/
inductive StoreOp
  | freshOp (d : Descriptor)
  | setOp (v : Var) (d : Descriptor)
  | setContentOp (v : Var) (c : Content)
  | setRankOp (v : Var) (r : Rank)
  | setMarkOp (v : Var) (m : Mark)
  | unionOp (l r : Var) (d : Descriptor)
  | rigidVarOp (v : Var) (name : Name)
  | rigidAbleVarOp (v : Var) (name : Name) (ability : Symbol)
deriving DecidableEq

def applyOp (s : Subs) : StoreOp → Subs
  | StoreOp.freshOp d => (s.fresh d).2
  | StoreOp.setOp v d => s.set v d
  | StoreOp.setContentOp v c => s.set_content v c
  | StoreOp.setRankOp v r => s.set_rank v r
  | StoreOp.setMarkOp v m => s.set_mark v m
  | StoreOp.unionOp l r d => s.union l r d
  | StoreOp.rigidVarOp v name => s.rigid_var v name
  | StoreOp.rigidAbleVarOp v name ability => s.rigid_able_var v name ability

def applyOps (s : Subs) (ops : List StoreOp) : Subs := ops.foldl applyOp s

/-- A root node with a plain content (rank `NONE`, mark `NONE`, no copy). -/
def rootNode (c : Content) : UFNode := UFNode.root (Descriptor.fromContent c)

/-- The empty store (no reserved variables are needed by the scenarios). -/
def emptySubs : Subs :=
  { utable := { nodes := [], log := [] },
    «variables» := [],
    variable_slices := [],
    tag_names := [],
    field_names := [],
    record_fields := [],
    problems := [] }

/-- Scenario store for the occurs self-loop (S4): starting from a one-variable
store, create a fresh flex variable `v`, insert `[v]` into the `variables`
arena, and set `v`'s content to `Structure(Apply(7, [v]))`. -/
def occursSelfStore : Subs :=
  let p := Subs.fresh_unnamed_flex_var
    { emptySubs with utable := { nodes := [rootNode unnamed_flex_var], log := [] } }
  let q := VariableSubsSlice.insert_into_subs p.2 [p.1]
  Subs.set_content q.2 p.1 (Content.struct (FlatType.apply 7 q.1))

/-- The fresh variable of the self-loop scenario. -/
def occursSelfVar : Var := 1

/-- A two-variable cycle 1 → 2 → 1 through `Apply` arguments, for the shape
of the reported occurs path. -/
def occursCycle2Store : Subs :=
  { emptySubs with
    utable := { nodes :=
      [rootNode unnamed_flex_var,
       rootNode (Content.struct (FlatType.apply 7 ⟨0, 1⟩)),
       rootNode (Content.struct (FlatType.apply 7 ⟨1, 1⟩))], log := [] },
    «variables» := [2, 1] }

/-- A store on which the occurs check succeeds: a function `a -> a`. -/
def occursOkStore : Subs :=
  { emptySubs with
    utable := { nodes :=
      [rootNode unnamed_flex_var,
       rootNode (Content.struct (FlatType.func ⟨0, 1⟩ 0 2)),
       rootNode unnamed_flex_var], log := [] },
    «variables» := [2] }

/-- Scenario store for S3: `T = [ Cons U T, Nil ]` about to be marked
recursive.  Variable 0 is the empty tag union (the `ext`), variable 1 is `T`
(still flex), variable 2 is `U` (flex).  The `Cons` payload slice is
`variables[0..2] = [U, T]` and the `Nil` payload slice is empty. -/
def s3Store : Subs :=
  { emptySubs with
    utable := { nodes :=
      [rootNode (Content.struct FlatType.emptyTagUnion),
       rootNode unnamed_flex_var,
       rootNode unnamed_flex_var], log := [] },
    «variables» := [2, 1],
    variable_slices := [⟨0, 2⟩, ⟨2, 0⟩],
    tag_names := [TagName.tag [67, 111, 110, 115], TagName.tag [78, 105, 108]] }

/-- The tags of the S3 scenario: `Cons` with payload `[U, T]`, `Nil` with no
payload. -/
def s3Tags : UnionTags := { length := 2, tag_names_start := 0, variables_start := 0 }

/-- A store in which the single tag's payload slice is aliased by the payload
variable's own `Apply` arguments: variable 2 has content `Apply(9, slice)`
where `slice` is the very payload slice `[2, 1]` of the tag union rooted at
variable 1. -/
def aliasedPayloadStore : Subs :=
  { emptySubs with
    utable := { nodes :=
      [rootNode (Content.struct FlatType.emptyTagUnion),
       rootNode unnamed_flex_var,
       rootNode (Content.struct (FlatType.apply 9 ⟨0, 2⟩))], log := [] },
    «variables» := [2, 1],
    variable_slices := [⟨0, 2⟩],
    tag_names := [TagName.tag [67]] }

def aliasedPayloadTags : UnionTags := { length := 1, tag_names_start := 0, variables_start := 0 }

/-- A one-variable store: a single unnamed flex variable. -/
def oneFlexStore : Subs :=
  { emptySubs with utable := { nodes := [rootNode unnamed_flex_var], log := [] } }

/-- The store of either outcome of `AliasVariables::insert_into_subs` (on a
panic, the store at the moment of the panic). -/
def insertResultSubs (r : Except Subs (Subs × AliasVariables)) : Subs :=
  match r with
  | Except.error s => s
  | Except.ok (s, _) => s

/-- A redirect chain of length `k` from `v` to its representative root. -/
inductive RedirectChain (t : UnificationTable) : Var → Var → Nat → Prop
  | root {v : Var} : t.isRoot v = true → RedirectChain t v v 0
  | step {v w r : Var} {k : Nat} :
      t.getNode v = UFNode.redirect w → RedirectChain t w r k → RedirectChain t v r (k + 1)

/-- Undo a list of log entries, most recent first. -/
def undoList : List UndoAction → List UFNode → List UFNode
  | [], ns => ns
  | a :: rest, ns => undoList rest (UnificationTable.applyUndo ns a)

/-- The mutation-log soundness relation: `t` was obtained from `t0` by logged
mutations only, so unwinding the extra log entries restores `t0`'s nodes. -/
def unwindOk (t0 t : UnificationTable) : Prop :=
  ∃ extra, t.log = extra ++ t0.log ∧ undoList extra t.nodes = t0.nodes

/-- A two-root store used to exercise `union`. -/
def twoFlexStore : Subs :=
  { emptySubs with
    utable := { nodes := [rootNode unnamed_flex_var, rootNode unnamed_flex_var], log := [] } }

/-- The redirect target of a table node (`none` for roots).  Explicit
substitution never changes this: it only rewrites root descriptors. -/
def redirectTargetOf (t : UnificationTable) (i : Nat) : Option Var :=
  match t.getNode i with
  | UFNode.redirect w => some w
  | UFNode.root _ => none

/-- Contents that `explicit_substitute` neither matches structurally nor ever
writes: the descriptors of variables with these contents are untouched. -/
def contentInert : Content → Bool
  | Content.flexVar _ => true
  | Content.rigidVar _ => true
  | Content.flexAbleVar _ _ => true
  | Content.rigidAbleVar _ _ => true
  | Content.recursionVar _ _ => true
  | Content.error => true
  | Content.struct _ => false
  | Content.alias _ _ _ _ => false
  | Content.rangedNumber _ _ => false

/-- What a run of `explicit_substitute` (and of the surrounding loops of
`mark_tag_union_recursive`) can do to the union-find table: extend it, and
rewrite root descriptors of non-inert variables in place.  Redirect edges are
untouched and inert root descriptors are preserved in both directions. -/
def esPreserves (s s' : Subs) : Prop :=
  s.utable.nodes.length ≤ s'.utable.nodes.length
  ∧ (∀ i, i < s.utable.nodes.length →
      redirectTargetOf s'.utable i = redirectTargetOf s.utable i)
  ∧ (∀ i d, i < s.utable.nodes.length → s.utable.getNode i = UFNode.root d →
      contentInert d.content = true → s'.utable.getNode i = UFNode.root d)
  ∧ (∀ i d, i < s.utable.nodes.length → s'.utable.getNode i = UFNode.root d →
      contentInert d.content = true → s.utable.getNode i = UFNode.root d)

/-- `esPreserves` plus the fact that `explicit_substitute` allocates no new
keys: the table length is unchanged. -/
def esPreservesEq (s s' : Subs) : Prop :=
  esPreserves s s' ∧ s'.utable.nodes.length = s.utable.nodes.length

/-- The S3 scenario run: `mark_tag_union_recursive(T, {Cons:[U,T], Nil:[]},
EMPTY_TAG_UNION)` on the S3 store. -/
def s3Result : Option Subs := Subs.mark_tag_union_recursive s3Store 1 s3Tags 0

/-- The concrete store produced by the S3 scenario. -/
def s3Marked : Subs := s3Result.getD emptySubs

/-! ### Error-type projection: `var_to_err_type`, `content_to_err_type`,
`flat_type_to_err_type` (subs.rs:3312-3646). -/

/-- `ErrorTypeContext`. -/
inductive ErrorTypeContext
  | none
  | expandRanges
deriving DecidableEq

/-- `ErrorTypeState` (subs.rs:60).  Problems are opaque in this embedding
(the store's `problems` arena holds plain naturals). -/
structure ETState where
  taken : List Name
  letters_used : Nat
  problems : List Nat
  context : ErrorTypeContext
  recursive_tag_unions_seen : List Var
deriving DecidableEq

/-- Modelled from the spec: `name_type_var` (crate::types, not under `src/`)
yields the next fresh lowercase name derived from the letter counter, skipping
names already taken; the lettering scheme is abstracted into an injective
function of the counter. -/
def genNameAux : Nat → Nat → List Name → Name × Nat
  | 0, letters, _ => ([97, letters], letters + 1)
  | f + 1, letters, taken =>
    if taken.contains [97, letters] then genNameAux f (letters + 1) taken
    else ([97, letters], letters + 1)

/-- `get_fresh_var_name` (subs.rs:3635): draw a fresh name, advance the
letter counter, and add the name to the taken set. -/
def getFreshVarName (st : ETState) : Name × ETState :=
  match genNameAux (st.taken.length + 1) st.letters_used st.taken with
  | (name, newIndex) =>
    (name, { st with letters_used := newIndex, taken := st.taken ++ [name] })

/-- `TypeExt` of an error type. -/
inductive TypeExt
  | closed
  | flexOpen (name : Name)
  | rigidOpen (name : Name)
deriving DecidableEq

/-- `ErrorType` (crate::types).  `RecordField(ErrorType)` is represented as a
kind tag paired with the payload; the `SendMap`s are association lists in
insertion order. -/
inductive ErrorType
  | infinite
  | «type» (symbol : Symbol) (args : List ErrorType)
  | flexVar (name : Name)
  | rigidVar (name : Name)
  | flexAbleVar (name : Name) (ability : Symbol)
  | rigidAbleVar (name : Name) (ability : Symbol)
  | record (fields : List (Name × RecordFieldKind × ErrorType)) (ext : TypeExt)
  | tagUnion (tags : List (TagName × List ErrorType)) (ext : TypeExt)
  | recursiveTagUnion (recType : ErrorType) (tags : List (TagName × List ErrorType))
      (ext : TypeExt)
  | «alias» (symbol : Symbol) (args : List ErrorType) (real : ErrorType) (kind : AliasKind)
  | function (args : List ErrorType) (closure : ErrorType) (ret : ErrorType)
  | range (typ : ErrorType) (types : List ErrorType)
  | error

/-- Failure modes of the fueled projection: a source `panic!` on a malformed
extension, or running out of fuel. -/
inductive PFail
  | panicked
  | fuelOut
deriving DecidableEq

/-- Modelled from the spec: `ErrorType::unwrap_structural_alias` (crate::types,
not under `src/`) peels structural alias wrappers off a projected extension. -/
def unwrapStructuralAlias : ErrorType → ErrorType
  | ErrorType.«alias» _ _ real AliasKind.structural => unwrapStructuralAlias real
  | e => e

/-- Left-biased association-list union, modelling `SendMap::union` (entries of
the left operand win on duplicate keys). -/
def unionAssoc {α β : Type} [DecidableEq α] (l r : List (α × β)) : List (α × β) :=
  l ++ r.filter (fun p => !(l.any (fun q => q.1 == p.1)))

/-- The shared `None` branch of the name resolution: draw a fresh name, push
it onto the `field_names` arena, and overwrite the variable's content with
`FlexVar(Some(name_index))` so later occurrences reuse the name. -/
def persistFreshName (s : Subs) (st : ETState) (v : Var) : Name × Nat × Subs × ETState :=
  match getFreshVarName st with
  | (name, st1) =>
    let ni := s.field_names.length
    let s1 := { s with field_names := s.field_names ++ [name] }
    (name, ni, s1.set_content v (Content.flexVar (some ni)), st1)

/-- Loop over a run of variable indices: `subs[index]` then `var_to_err_type`
on each. -/
def etVarsLoop (vt : Subs → ETState → Var → Except PFail (ErrorType × Subs × ETState)) :
    Subs → ETState → List Nat → Except PFail (List ErrorType × Subs × ETState)
  | s, st, [] => Except.ok ([], s, st)
  | s, st, i :: rest => do
    let (et, s1, st1) ← vt s st (s.«variables».getD i 0)
    let (ets, s2, st2) ← etVarsLoop vt s1 st1 rest
    Except.ok (et :: ets, s2, st2)

/-- The `Record` field loop of `flat_type_to_err_type`: read label, variable
and field kind from the three parallel runs, project the variable, rebuild
the error field. -/
def etFieldsLoop (vt : Subs → ETState → Var → Except PFail (ErrorType × Subs × ETState)) :
    Subs → ETState → Nat → Nat → Nat → Nat →
    Except PFail (List (Name × RecordFieldKind × ErrorType) × Subs × ETState)
  | s, st, _, _, _, 0 => Except.ok ([], s, st)
  | s, st, i1, i2, i3, n + 1 => do
    let label := s.field_names.getD i1 []
    let var := s.«variables».getD i2 0
    let rfield := s.record_fields.getD i3 RecordFieldKind.required
    let (et, s1, st1) ← vt s st var
    let (rest, s2, st2) ← etFieldsLoop vt s1 st1 (i1 + 1) (i2 + 1) (i3 + 1) n
    Except.ok ((label, rfield, et) :: rest, s2, st2)

/-- The tag loop of the tag-union cases: for each tag, project the payload
slice's variables, then read the tag name. -/
def etTagsLoop (vt : Subs → ETState → Var → Except PFail (ErrorType × Subs × ETState)) :
    Subs → ETState → Nat → Nat → Nat →
    Except PFail (List (TagName × List ErrorType) × Subs × ETState)
  | s, st, _, _, 0 => Except.ok ([], s, st)
  | s, st, ni, si, n + 1 => do
    let slice := s.variable_slices.getD si ⟨0, 0⟩
    let (ets, s1, st1) ← etVarsLoop vt s st slice.indicesList
    let tag := s1.tag_names.getD ni (TagName.tag [])
    let (rest, s2, st2) ← etTagsLoop vt s1 st1 (ni + 1) (si + 1) n
    Except.ok ((tag, ets) :: rest, s2, st2)

/-- `flat_type_to_err_type` (subs.rs:3440), with the recursive
`var_to_err_type` call passed in as `vt`. -/
def flatTypeToErrType (vt : Subs → ETState → Var → Except PFail (ErrorType × Subs × ETState))
    (s : Subs) (st : ETState) : FlatType → Except PFail (ErrorType × Subs × ETState)
  | FlatType.apply symbol args => do
    let (argTypes, s1, st1) ← etVarsLoop vt s st args.indicesList
    Except.ok (ErrorType.«type» symbol argTypes, s1, st1)
  | FlatType.func args closureVar retVar => do
    let (argTypes, s1, st1) ← etVarsLoop vt s st args.indicesList
    let (ret, s2, st2) ← vt s1 st1 retVar
    let (closure, s3, st3) ← vt s2 st2 closureVar
    Except.ok (ErrorType.function argTypes closure ret, s3, st3)
  | FlatType.emptyRecord => Except.ok (ErrorType.record [] TypeExt.closed, s, st)
  | FlatType.emptyTagUnion => Except.ok (ErrorType.tagUnion [] TypeExt.closed, s, st)
  | FlatType.record fields ext => do
    let (errFields, s1, st1) ← etFieldsLoop vt s st fields.field_names_start
      fields.variables_start fields.field_types_start fields.length
    let (extType, s2, st2) ← vt s1 st1 ext
    match unwrapStructuralAlias extType with
    | ErrorType.record subFields subExt =>
      Except.ok (ErrorType.record (unionAssoc subFields errFields) subExt, s2, st2)
    | ErrorType.flexVar n =>
      Except.ok (ErrorType.record errFields (TypeExt.flexOpen n), s2, st2)
    | ErrorType.rigidVar n =>
      Except.ok (ErrorType.record errFields (TypeExt.rigidOpen n), s2, st2)
    | _ => Except.error PFail.panicked
  | FlatType.tagUnion tags ext => do
    let (errTags, s1, st1) ← etTagsLoop vt s st tags.tag_names_start tags.variables_start
      tags.length
    let (extType, s2, st2) ← vt s1 st1 ext
    match unwrapStructuralAlias extType with
    | ErrorType.tagUnion subTags subExt =>
      Except.ok (ErrorType.tagUnion (unionAssoc subTags errTags) subExt, s2, st2)
    | ErrorType.recursiveTagUnion _ subTags subExt =>
      Except.ok (ErrorType.tagUnion (unionAssoc subTags errTags) subExt, s2, st2)
    | ErrorType.flexVar n =>
      Except.ok (ErrorType.tagUnion errTags (TypeExt.flexOpen n), s2, st2)
    | ErrorType.rigidVar n =>
      Except.ok (ErrorType.tagUnion errTags (TypeExt.rigidOpen n), s2, st2)
    | _ => Except.error PFail.panicked
  | FlatType.functionOrTagUnion tagNameIdx _ ext => do
    let tag := s.tag_names.getD tagNameIdx (TagName.tag [])
    let errTags := [(tag, ([] : List ErrorType))]
    let (extType, s1, st1) ← vt s st ext
    match unwrapStructuralAlias extType with
    | ErrorType.tagUnion subTags subExt =>
      Except.ok (ErrorType.tagUnion (unionAssoc subTags errTags) subExt, s1, st1)
    | ErrorType.recursiveTagUnion _ subTags subExt =>
      Except.ok (ErrorType.tagUnion (unionAssoc subTags errTags) subExt, s1, st1)
    | ErrorType.flexVar n =>
      Except.ok (ErrorType.tagUnion errTags (TypeExt.flexOpen n), s1, st1)
    | ErrorType.rigidVar n =>
      Except.ok (ErrorType.tagUnion errTags (TypeExt.rigidOpen n), s1, st1)
    | _ => Except.error PFail.panicked
  | FlatType.recursiveTagUnion recVar tags ext => do
    let st0 := { st with recursive_tag_unions_seen := st.recursive_tag_unions_seen ++ [recVar] }
    let (errTags, s1, st1) ← etTagsLoop vt s st0 tags.tag_names_start tags.variables_start
      tags.length
    let (recType, s2, st2) ← vt s1 st1 recVar
    let (extType, s3, st3) ← vt s2 st2 ext
    match unwrapStructuralAlias extType with
    | ErrorType.recursiveTagUnion _ subTags subExt =>
      Except.ok (ErrorType.recursiveTagUnion recType (unionAssoc subTags errTags) subExt,
        s3, st3)
    | ErrorType.tagUnion subTags subExt =>
      Except.ok (ErrorType.recursiveTagUnion recType (unionAssoc subTags errTags) subExt,
        s3, st3)
    | ErrorType.flexVar n =>
      Except.ok (ErrorType.recursiveTagUnion recType errTags (TypeExt.flexOpen n), s3, st3)
    | ErrorType.rigidVar n =>
      Except.ok (ErrorType.recursiveTagUnion recType errTags (TypeExt.rigidOpen n), s3, st3)
    | _ => Except.error PFail.panicked
  | FlatType.erroneous problemIdx =>
    Except.ok (ErrorType.error, s,
      { st with problems := st.problems ++ [s.problems.getD problemIdx 0] })

/-- `content_to_err_type` (subs.rs:3329), with the recursive
`var_to_err_type` call passed in as `vt`. -/
def contentToErrType (vt : Subs → ETState → Var → Except PFail (ErrorType × Subs × ETState))
    (s : Subs) (st : ETState) (v : Var) :
    Content → Except PFail (ErrorType × Subs × ETState)
  | Content.struct flatType => flatTypeToErrType vt s st flatType
  | Content.flexVar (some ni) =>
    Except.ok (ErrorType.flexVar (s.field_names.getD ni []), s, st)
  | Content.flexVar none =>
    match persistFreshName s st v with
    | (name, _, s2, st1) => Except.ok (ErrorType.flexVar name, s2, st1)
  | Content.rigidVar ni =>
    Except.ok (ErrorType.rigidVar (s.field_names.getD ni []), s, st)
  | Content.flexAbleVar (some ni) ability =>
    Except.ok (ErrorType.flexAbleVar (s.field_names.getD ni []) ability, s, st)
  | Content.flexAbleVar none ability =>
    match persistFreshName s st v with
    | (name, _, s2, st1) => Except.ok (ErrorType.flexAbleVar name ability, s2, st1)
  | Content.rigidAbleVar ni ability =>
    Except.ok (ErrorType.rigidAbleVar (s.field_names.getD ni []) ability, s, st)
  | Content.recursionVar structVar optName =>
    match (match optName with
           | some ni => (s.field_names.getD ni [], s, st)
           | none =>
             match persistFreshName s st v with
             | (name, _, s2, st1) => (name, s2, st1)) with
    | (name, s2, st1) =>
      if st1.recursive_tag_unions_seen.contains v then
        Except.ok (ErrorType.flexVar name, s2, st1)
      else vt s2 st1 structVar
  | Content.«alias» symbol args realVar kind => do
    let (et, s1, st1) ← vt s st realVar
    let (errArgs, s2, st2) ← etVarsLoop vt s1 st1
      (SubsSliceN.indicesList ⟨args.variables_start, args.all_variables_len⟩)
    Except.ok (ErrorType.«alias» symbol errArgs et kind, s2, st2)
  | Content.rangedNumber typ rangeVars => do
    let (et, s1, st1) ← vt s st typ
    if st1.context = ErrorTypeContext.expandRanges then do
      let (types, s2, st2) ← etVarsLoop vt s1 st1 rangeVars.indicesList
      Except.ok (ErrorType.range et types, s2, st2)
    else Except.ok (et, s1, st1)
  | Content.error => Except.ok (ErrorType.error, s, st)

/-- `var_to_err_type` (subs.rs:3312): mark the variable `OCCURS` for cycle
detection, project its content, then restore the original mark. -/
def varToErrType : Nat → Subs → ETState → Var → Except PFail (ErrorType × Subs × ETState)
  | 0, _, _, _ => Except.error PFail.fuelOut
  | fuel + 1, s, st, v =>
    let desc := s.getDesc v
    if desc.mark = Mark.OCCURS then Except.ok (ErrorType.infinite, s, st)
    else
      match contentToErrType (varToErrType fuel) (s.set_mark v Mark.OCCURS) st v
          desc.content with
      | Except.ok (et, s2, st2) => Except.ok (et, s2.set_mark v desc.mark, st2)
      | Except.error e => Except.error e

/-- The initial error-type state of `var_to_error_type_contextual` (the taken
set is seeded by `get_var_names`, universally quantified in the theorems). -/
def etInitState : ETState :=
  { taken := [], letters_used := 0, problems := [], context := ErrorTypeContext.none,
    recursive_tag_unions_seen := [] }

/-- A store with one unnamed flex-able variable (ability symbol 5). -/
def ableStore : Subs :=
  { emptySubs with utable := { nodes := [rootNode (Content.flexAbleVar none 5)], log := [] } }

/-- A store with an unnamed recursion variable (variable 0) whose structure
(variable 1) is an empty tag union. -/
def recVarStore : Subs :=
  { emptySubs with utable := { nodes :=
      [rootNode (Content.recursionVar 1 none),
       rootNode (Content.struct FlatType.emptyTagUnion)], log := [] } }

/-- What one `var_to_err_type` run can do to the store: no new keys, no
redirect changes, `FlexVar(Some _)` root contents preserved (marks may
change), and the `field_names` arena only appended to. -/
def namePreserves (s s' : Subs) : Prop :=
  s'.utable.nodes.length = s.utable.nodes.length
  ∧ (∀ i, redirectTargetOf s'.utable i = redirectTargetOf s.utable i)
  ∧ (∀ i d n, s.utable.getNode i = UFNode.root d →
      d.content = Content.flexVar (some n) →
      ∃ d', s'.utable.getNode i = UFNode.root d' ∧ d'.content = Content.flexVar (some n))
  ∧ ∃ ext, s'.field_names = s.field_names ++ ext

/-- The outcome of projecting the flex-able scenario variable. -/
def ableRes : ErrorType × Subs × ETState :=
  match varToErrType 2 ableStore etInitState 0 with
  | Except.ok x => x
  | Except.error _ => (ErrorType.error, ableStore, etInitState)

/-- The outcome of projecting the recursion-variable scenario variable. -/
def recRes : ErrorType × Subs × ETState :=
  match varToErrType 3 recVarStore etInitState 0 with
  | Except.ok x => x
  | Except.error _ => (ErrorType.error, recVarStore, etInitState)

/-! ### Import copying: `copy_import_to_help` and `is_registered`
(subs.rs:4396-4829). -/

/-- `is_registered` (subs.rs:4466): is this content registered in the current
pool by `type_to_variable`? -/
def is_registered : Content → Bool
  | Content.flexVar _ => false
  | Content.rigidVar _ => false
  | Content.flexAbleVar _ _ => false
  | Content.rigidAbleVar _ _ => false
  | Content.struct FlatType.emptyRecord => false
  | Content.struct FlatType.emptyTagUnion => false
  | Content.struct _ => true
  | Content.recursionVar _ _ => true
  | Content.«alias» _ _ _ _ => true
  | Content.rangedNumber _ _ => true
  | Content.error => true

/-- Spec-side restatement of the claim's classification, for comparison with
`is_registered`: registered iff the content is neither a flex/rigid
(able) variable nor an empty record or empty tag union structure. -/
def registeredSpec (c : Content) : Bool :=
  !(match c with
    | Content.flexVar _ => true
    | Content.rigidVar _ => true
    | Content.flexAbleVar _ _ => true
    | Content.rigidAbleVar _ _ => true
    | _ => false)
  && !(c == Content.struct FlatType.emptyRecord)
  && !(c == Content.struct FlatType.emptyTagUnion)

/-- `CopyImportEnv` (variables tracked during `copy_import_to`). -/
structure CIEnv where
  source : Subs
  target : Subs
  visited : List Var
  flex : List Var
  rigid : List Var
  flex_able : List Var
  rigid_able : List Var
  translations : List (Var × Var)
  registered : List Var
deriving DecidableEq

/-- The `make_descriptor` closure of `copy_import_to_help`: the given content
at the copy rank, no mark, no copy. -/
def makeCIDescriptor (max_rank : Rank) (c : Content) : Descriptor :=
  { content := c, rank := max_rank, mark := Mark.NONE, copy := 0 }

/-- Read `length` entries of an arena starting at `start` (the `&arena[slice]`
reads of the copy loops). -/
def arenaSlice {α : Type} (l : List α) (start length : Nat) (dflt : α) : List α :=
  (SubsSliceN.indicesList ⟨start, length⟩).map (fun i => l.getD i dflt)

/-- The per-variable copy loop shared by the structural cases: read
`env.source[var_index]`, copy it, write the copy into the reserved target
storage. -/
def ciVarsLoop (ci : CIEnv → Var → Option (Var × CIEnv)) :
    CIEnv → Nat → Nat → Nat → Option CIEnv
  | env, _, _, 0 => some env
  | env, ti, si, n + 1 => do
    let v := env.source.«variables».getD si 0
    let (copy_var, env1) ← ci env v
    let env2 := { env1 with target := ({ env1.target with
      «variables» := env1.target.«variables».set ti copy_var }) }
    ciVarsLoop ci env2 (ti + 1) (si + 1) n

/-- The per-tag copy loop of the tag-union cases: reserve backing storage for
each payload slice, copy the payload variables, install the new slice. -/
def ciTagsLoop (ci : CIEnv → Var → Option (Var × CIEnv)) :
    CIEnv → Nat → Nat → Nat → Option CIEnv
  | env, _, _, 0 => some env
  | env, ti, si, n + 1 => do
    let slice := env.source.variable_slices.getD si ⟨0, 0⟩
    let (new_variables, t1) := VariableSubsSlice.reserve_into_subs env.target slice.length
    let env1 ← ciVarsLoop ci { env with target := t1 } new_variables.start slice.start
      slice.length
    let env2 := { env1 with target := ({ env1.target with
      variable_slices := env1.target.variable_slices.set ti new_variables }) }
    ciTagsLoop ci env2 (ti + 1) (si + 1) n

/-- The per-content body of `copy_import_to_help` after the fresh copy has
been allocated and linked, with the recursive call passed in as `ci`. -/
def ciCopyContent (ci : CIEnv → Var → Option (Var × CIEnv)) (max_rank : Rank)
    (env : CIEnv) (var copy : Var) : Content → Option (Var × CIEnv)
  | Content.struct ft =>
    match ft with
    | FlatType.erroneous _ =>
      some (copy, { env with
        target := env.target.set copy (makeCIDescriptor max_rank (Content.flexVar none)) })
    | FlatType.apply symbol arguments => do
      let (new_arguments, t1) := VariableSubsSlice.reserve_into_subs env.target
        arguments.length
      let env1 ← ciVarsLoop ci { env with target := t1 } new_arguments.start
        arguments.start arguments.length
      some (copy, { env1 with target := (env1.target.set copy
        (makeCIDescriptor max_rank (Content.struct (FlatType.apply symbol new_arguments)))) })
    | FlatType.func arguments closureVar retVar => do
      let (new_ret, env1) ← ci env retVar
      let (new_closure, env2) ← ci env1 closureVar
      let (new_arguments, t3) := VariableSubsSlice.reserve_into_subs env2.target
        arguments.length
      let env3 ← ciVarsLoop ci { env2 with target := t3 } new_arguments.start
        arguments.start arguments.length
      some (copy, { env3 with target := (env3.target.set copy
        (makeCIDescriptor max_rank
          (Content.struct (FlatType.func new_arguments new_closure new_ret)))) })
    | FlatType.emptyRecord =>
      some (copy, { env with target := (env.target.set copy
        (makeCIDescriptor max_rank (Content.struct FlatType.emptyRecord))) })
    | FlatType.emptyTagUnion =>
      some (copy, { env with target := (env.target.set copy
        (makeCIDescriptor max_rank (Content.struct FlatType.emptyTagUnion))) })
    | FlatType.record fields ext => do
      let (new_variables, t1) := VariableSubsSlice.reserve_into_subs env.target
        fields.length
      let env1 ← ciVarsLoop ci { env with target := t1 } new_variables.start
        fields.variables_start fields.length
      let field_names_start := env1.target.field_names.length
      let field_types_start := env1.target.record_fields.length
      let t2 := { env1.target with
        field_names := (env1.target.field_names
          ++ arenaSlice env1.source.field_names fields.field_names_start fields.length []),
        record_fields := (env1.target.record_fields
          ++ arenaSlice env1.source.record_fields fields.field_types_start fields.length
            RecordFieldKind.required) }
      let rf : RecordFields :=
        { length := fields.length, field_names_start := field_names_start,
          variables_start := new_variables.start, field_types_start := field_types_start }
      let (new_ext, env3) ← ci { env1 with target := t2 } ext
      some (copy, { env3 with target := (env3.target.set copy
        (makeCIDescriptor max_rank (Content.struct (FlatType.record rf new_ext)))) })
    | FlatType.tagUnion tags ext => do
      let (new_ext, env1) ← ci env ext
      let (new_variable_slices, t2) := SubsSliceN.reserve_variable_slices env1.target
        tags.length
      let env2 ← ciTagsLoop ci { env1 with target := t2 } new_variable_slices.start
        tags.variables_start tags.length
      let start := env2.target.tag_names.length
      let t3 := { env2.target with tag_names := (env2.target.tag_names
        ++ arenaSlice env2.source.tag_names tags.tag_names_start tags.length
          (TagName.tag [])) }
      let ut := UnionTags.from_slices ⟨start, u16cast tags.length⟩ new_variable_slices
      some (copy, { env2 with target := (t3.set copy
        (makeCIDescriptor max_rank (Content.struct (FlatType.tagUnion ut new_ext)))) })
    | FlatType.functionOrTagUnion tn symbol ext => do
      let new_tag_name := env.target.tag_names.length
      let t1 := { env.target with tag_names := (env.target.tag_names
        ++ [env.source.tag_names.getD tn (TagName.tag [])]) }
      let (new_ext, env2) ← ci { env with target := t1 } ext
      some (copy, { env2 with target := (env2.target.set copy
        (makeCIDescriptor max_rank
          (Content.struct (FlatType.functionOrTagUnion new_tag_name symbol new_ext)))) })
    | FlatType.recursiveTagUnion recVar tags ext => do
      let (new_variable_slices, t1) := SubsSliceN.reserve_variable_slices env.target
        tags.length
      let env1 ← ciTagsLoop ci { env with target := t1 } new_variable_slices.start
        tags.variables_start tags.length
      let start := env1.target.tag_names.length
      let t2 := { env1.target with tag_names := (env1.target.tag_names
        ++ arenaSlice env1.source.tag_names tags.tag_names_start tags.length
          (TagName.tag [])) }
      let ut := UnionTags.from_slices ⟨start, u16cast tags.length⟩ new_variable_slices
      let (new_ext, env3) ← ci { env1 with target := t2 } ext
      let (new_rec, env4) ← ci env3 recVar
      some (copy, { env4 with target := (env4.target.set copy
        (makeCIDescriptor max_rank
          (Content.struct (FlatType.recursiveTagUnion new_rec ut new_ext)))) })
  | Content.flexVar optName =>
    match optName with
    | some ni =>
      let name := env.source.field_names.getD ni []
      let new_ni := env.target.field_names.length
      let t1 := { env.target with field_names := env.target.field_names ++ [name] }
      let t2 := t1.set_content copy (Content.flexVar (some new_ni))
      some (copy, { env with target := t2, flex := env.flex ++ [copy] })
    | none => some (copy, { env with flex := env.flex ++ [copy] })
  | Content.flexAbleVar optName ability =>
    match optName with
    | some ni =>
      let name := env.source.field_names.getD ni []
      let new_ni := env.target.field_names.length
      let t1 := { env.target with field_names := env.target.field_names ++ [name] }
      let t2 := t1.set_content copy (Content.flexAbleVar (some new_ni) ability)
      some (copy, { env with target := t2, flex_able := env.flex_able ++ [copy] })
    | none => some (copy, { env with flex_able := env.flex_able ++ [copy] })
  | Content.error =>
    some (copy, { env with
      target := (env.target.set copy (makeCIDescriptor max_rank Content.error)) })
  | Content.rigidVar ni =>
    let name := env.source.field_names.getD ni []
    let new_ni := env.target.field_names.length
    let t1 := { env.target with field_names := env.target.field_names ++ [name] }
    let t2 := t1.set copy (makeCIDescriptor max_rank (Content.rigidVar new_ni))
    some (copy,
      { env with
        target := t2, rigid := env.rigid ++ [copy],
        translations := env.translations ++ [(var, copy)] })
  | Content.rigidAbleVar ni ability =>
    let name := env.source.field_names.getD ni []
    let new_ni := env.target.field_names.length
    let t1 := { env.target with field_names := env.target.field_names ++ [name] }
    let t2 := t1.set copy (makeCIDescriptor max_rank (Content.rigidAbleVar new_ni ability))
    some (copy,
      { env with
        target := t2, rigid_able := env.rigid_able ++ [copy],
        translations := env.translations ++ [(var, copy)] })
  | Content.recursionVar structVar optName => do
    let (new_structure, env1) ← ci env structVar
    some (copy, { env1 with target := (env1.target.set copy
      (makeCIDescriptor max_rank (Content.recursionVar new_structure optName))) })
  | Content.«alias» symbol arguments realVar kind => do
    let (new_variables, t1) := VariableSubsSlice.reserve_into_subs env.target
      arguments.all_variables_len
    let env1 ← ciVarsLoop ci { env with target := t1 } new_variables.start
      arguments.variables_start arguments.all_variables_len
    let new_arguments := { arguments with variables_start := new_variables.start }
    let (new_real, env2) ← ci env1 realVar
    some (copy, { env2 with target := (env2.target.set copy
      (makeCIDescriptor max_rank (Content.«alias» symbol new_arguments new_real kind))) })
  | Content.rangedNumber typ vars => do
    let (new_typ, env1) ← ci env typ
    let (new_vars, t2) := VariableSubsSlice.reserve_into_subs env1.target vars.length
    let env2 ← ciVarsLoop ci { env1 with target := t2 } new_vars.start vars.start
      vars.length
    some (copy, { env2 with target := (env2.target.set copy
      (makeCIDescriptor max_rank (Content.rangedNumber new_typ new_vars))) })

/-- `copy_import_to_help` (subs.rs:4482): return the cached copy if set,
otherwise allocate a fresh unnamed flex variable in the target, register it
when the source content calls for it, link the source variable to the copy,
and copy the content structurally. -/
def copyImportToHelp : Nat → Rank → CIEnv → Var → Option (Var × CIEnv)
  | 0, _, _, _ => none
  | fuel + 1, max_rank, env, var =>
    let desc := env.source.getDesc var
    if desc.copy ≠ 0 then some (desc.copy, env)
    else
      let env0 := { env with visited := env.visited ++ [var] }
      match env0.target.fresh (makeCIDescriptor max_rank unnamed_flex_var) with
      | (copy, t1) =>
        let registered1 := (if is_registered desc.content then env0.registered ++ [copy]
          else env0.registered)
        let source1 := env0.source.set var { desc with mark := Mark.NONE, copy := copy }
        let env1 :=
          { env0 with target := t1, registered := registered1, source := source1 }
        ciCopyContent (copyImportToHelp fuel max_rank) max_rank env1 var copy desc.content

/-- A one-variable import scenario: copy the unnamed flex variable `0` of
`oneFlexStore` into an empty target. -/
def ciScenarioEnv : CIEnv :=
  { source := oneFlexStore, target := emptySubs, visited := [], flex := [], rigid := [],
    flex_able := [], rigid_able := [], translations := [], registered := [] }

/-- The outcome of the one-variable import scenario. -/
def ciScenarioRes : Var × CIEnv :=
  (copyImportToHelp 2 Rank.importRank ciScenarioEnv 0).getD (0, ciScenarioEnv)


/-- The `registered` list only ever grows during an import copy. -/
def RegExt (env env2 : CIEnv) : Prop :=
  ∃ l, env2.registered = env.registered ++ l

/-! ### Serialization (subs.rs:122-377).  The byte encoding is modelled at item
level: each `serialize_slice` call becomes a typed list, and the name pooling
of `serialize_field_names` / `serialize_tag_names` is modelled explicitly
(slices into a flattened byte pool). -/

/-- `SerializedTagName`. -/
inductive SerializedTagName
  | global (slice : SubsSliceN)
  | closure (symbol : Symbol)
deriving DecidableEq

/-- The item-level serialized form of a store (one field per
`serialize_slice` call, in stream order). -/
structure SerializedSubs where
  descs : List Descriptor
  «variables» : List Var
  tag_name_slices : List SerializedTagName
  tag_name_pool : List Nat
  field_name_slices : List SubsSliceN
  field_name_pool : List Nat
  record_fields : List RecordFieldKind
  variable_slices : List SubsSliceN
  exposed : List (Symbol × Var)
deriving DecidableEq

/-- The redirect sentinel descriptor written by
`serialize_unification_table`: content `Error`, rank `u32::MAX`, mark
`i32::MAX`, the root stored in `copy`. -/
def sentinelDesc (root : Var) : Descriptor :=
  { content := Content.error, rank := rankU32MAX, mark := markI32MAX, copy := root }

/-- `serialize_unification_table`: one descriptor per key; redirects become
sentinels pointing at their root. -/
def serializeUTable (t : UnificationTable) : List Descriptor :=
  (List.range t.len).map (fun i =>
    if t.isRedirect i then sentinelDesc (t.rootOf i) else t.probe i)

/-- `serialize_field_names`: names are flattened into one pool, with one
slice per name (`SubsSlice::extend_new`); `offset` is the current pool
length. -/
def serializeFieldNamesFrom (offset : Nat) : List Name → List SubsSliceN × List Nat
  | [] => ([], [])
  | name :: rest =>
    let slice : SubsSliceN := ⟨offset, u16cast name.length⟩
    match serializeFieldNamesFrom (offset + name.length) rest with
    | (slices, pool) => (slice :: slices, name ++ pool)

/-- `serialize_tag_names`: global tags pool their names; closure tags carry
their symbol inline. -/
def serializeTagNamesFrom (offset : Nat) : List TagName → List SerializedTagName × List Nat
  | [] => ([], [])
  | TagName.tag name :: rest =>
    match serializeTagNamesFrom (offset + name.length) rest with
    | (slices, pool) =>
      (SerializedTagName.global ⟨offset, u16cast name.length⟩ :: slices, name ++ pool)
  | TagName.closure symbol :: rest =>
    match serializeTagNamesFrom offset rest with
    | (slices, pool) => (SerializedTagName.closure symbol :: slices, pool)

/-- `Subs::serialize` at item level. -/
def serializeSubs (s : Subs) (exposed : List (Symbol × Var)) : SerializedSubs :=
  { descs := serializeUTable s.utable,
    «variables» := s.«variables»,
    tag_name_slices := (serializeTagNamesFrom 0 s.tag_names).1,
    tag_name_pool := (serializeTagNamesFrom 0 s.tag_names).2,
    field_name_slices := (serializeFieldNamesFrom 0 s.field_names).1,
    field_name_pool := (serializeFieldNamesFrom 0 s.field_names).2,
    record_fields := s.record_fields,
    variable_slices := s.variable_slices,
    exposed := exposed }

/-- `deserialize_field_names`: re-read each name from the pool. -/
def deserializeFieldNames (slices : List SubsSliceN) (pool : List Nat) : List Name :=
  slices.map (fun sl => arenaSlice pool sl.start sl.length 0)

/-- `deserialize_tag_names`. -/
def deserializeTagNames (slices : List SerializedTagName) (pool : List Nat) : List TagName :=
  slices.map (fun stn =>
    match stn with
    | SerializedTagName.global sl => TagName.tag (arenaSlice pool sl.start sl.length 0)
    | SerializedTagName.closure symbol => TagName.closure symbol)

/-- First pass of `deserialize_unification_table`: append every descriptor as
a fresh key, collecting `(var, copy)` for every sentinel (rank `u32::MAX`
and mark `i32::MAX`) descriptor; `copy.into_variable().unwrap()` panics
(`none`) when `copy` is the null variable. -/
def dutFirstPass : List Descriptor → UnificationTable → Nat →
    Option (UnificationTable × List (Var × Var))
  | [], t, _ => some (t, [])
  | d :: rest, t, i =>
    let t1 := t.newKey d
    if d.rank = rankU32MAX ∧ d.mark = markI32MAX then
      if d.copy = 0 then none
      else
        match dutFirstPass rest t1 (i + 1) with
        | none => none
        | some (t2, roots) => some (t2, (i, d.copy) :: roots)
    else
      match dutFirstPass rest t1 (i + 1) with
      | none => none
      | some (t2, roots) => some (t2, roots)

/-- Second pass of `deserialize_unification_table`: re-union each collected
redirect with its stored root (`unify_roots(var, root, probe(root))`). -/
def dutSecondPass (roots : List (Var × Var)) (t : UnificationTable) : UnificationTable :=
  roots.foldl (fun t vr => t.unifyRoots vr.1 vr.2 (t.probe vr.2)) t

/-- `deserialize_unification_table`. -/
def deserializeUTable (descs : List Descriptor) : Option UnificationTable :=
  match dutFirstPass descs { nodes := [], log := [] } 0 with
  | none => none
  | some (t1, roots) => some (dutSecondPass roots t1)

/-- `Subs::deserialize` at item level (`problems` comes back empty; the
`tag_name_cache` is not modelled). -/
def deserializeSubs (ser : SerializedSubs) : Option (Subs × List (Symbol × Var)) :=
  match deserializeUTable ser.descs with
  | none => none
  | some ut =>
    some ({ utable := ut,
            «variables» := ser.«variables»,
            variable_slices := ser.variable_slices,
            tag_names := deserializeTagNames ser.tag_name_slices ser.tag_name_pool,
            field_names := deserializeFieldNames ser.field_name_slices ser.field_name_pool,
            record_fields := ser.record_fields,
            problems := [] }, ser.exposed)

/-- The sentinel pairs the first pass collects for a store without fake
sentinels: one pair per redirect, carrying its root. -/
def sentinelPairs (s : Subs) : List (Var × Var) :=
  ((List.range s.len).filter (fun i => s.utable.isRedirect i)).map
    (fun i => (i, s.utable.rootOf i))

/-- A store with a redirect whose root is variable 0 (the null variable). -/
def redirectToZeroStore : Subs :=
  { emptySubs with
    utable := { nodes := [rootNode unnamed_flex_var, UFNode.redirect 0], log := [] } }

/-- A store with a redirect whose root is nonzero: variable 2 redirects to
variable 1. -/
def redirectToOneStore : Subs :=
  { emptySubs with
    utable := { nodes :=
      [rootNode (Content.struct FlatType.emptyRecord),
       rootNode unnamed_flex_var,
       UFNode.redirect 1], log := [] },
    «variables» := [1, 2],
    field_names := [[97]],
    tag_names := [TagName.tag [67], TagName.closure 9] }

/-- The round-trip outcome for the `redirectToOneStore` scenario. -/
def rtOneRes : Subs × List (Symbol × Var) :=
  (deserializeSubs (serializeSubs redirectToOneStore [(5, 1)])).getD (emptySubs, [])


/-- A tag name whose pooled byte run is below the `u16` slice-length limit. -/
def tagNameShort : TagName → Prop
  | TagName.tag name => name.length < 65536
  | TagName.closure _ => True

/-- The pairs the first deserialization pass collects, by position. -/
def expectedPairs (i : Nat) : List Descriptor → List (Var × Var)
  | [] => []
  | d :: rest =>
    if d.rank = rankU32MAX ∧ d.mark = markI32MAX then
      (i, d.copy) :: expectedPairs (i + 1) rest
    else expectedPairs (i + 1) rest

/-! ### Deep copy into another store (subs.rs:4002-4360). -/

/-- `DeepCopyVarToEnv` (the constant `max_rank` field is passed alongside,
exactly as `copy_import_to_help`'s rank is). -/
structure DCEnv where
  visited : List Var
  source : Subs
  target : Subs
deriving DecidableEq

/-- The `make_descriptor` closure of `deep_copy_var_to_help`: the given
content at the captured `max_rank`, no mark, no copy. -/
def makeDCDescriptor (max_rank : Rank) (c : Content) : Descriptor :=
  { content := c, rank := max_rank, mark := Mark.NONE, copy := 0 }

/-- The per-variable copy loop shared by the structural cases of
`deep_copy_var_to_help`: read `env.source[var_index]`, copy it, write the
copy into the reserved target storage. -/
def dcVarsLoop (dc : DCEnv → Var → Option (Var × DCEnv)) :
    DCEnv → Nat → Nat → Nat → Option DCEnv
  | env, _, _, 0 => some env
  | env, ti, si, n + 1 => do
    let v := env.source.«variables».getD si 0
    let (copy_var, env1) ← dc env v
    let env2 := { env1 with target := ({ env1.target with
      «variables» := env1.target.«variables».set ti copy_var }) }
    dcVarsLoop dc env2 (ti + 1) (si + 1) n

/-- The per-tag copy loop of the tag-union cases of `deep_copy_var_to_help`:
reserve backing storage for each payload slice, copy the payload variables,
install the new slice. -/
def dcTagsLoop (dc : DCEnv → Var → Option (Var × DCEnv)) :
    DCEnv → Nat → Nat → Nat → Option DCEnv
  | env, _, _, 0 => some env
  | env, ti, si, n + 1 => do
    let slice := env.source.variable_slices.getD si ⟨0, 0⟩
    let (new_variables, t1) := VariableSubsSlice.reserve_into_subs env.target slice.length
    let env1 ← dcVarsLoop dc { env with target := t1 } new_variables.start slice.start
      slice.length
    let env2 := { env1 with target := ({ env1.target with
      variable_slices := env1.target.variable_slices.set ti new_variables }) }
    dcTagsLoop dc env2 (ti + 1) (si + 1) n

/-- The per-content body of `deep_copy_var_to_help` after the fresh copy has
been allocated and linked, with the recursive call passed in as `dc`.  The
structural cases build the new flat type and install it with one `set` at the
end, as in the source; `FlexVar(None)` and `Error` leave the fresh unnamed
flex copy untouched. -/
def dcCopyContent (dc : DCEnv → Var → Option (Var × DCEnv)) (max_rank : Rank)
    (env : DCEnv) (copy : Var) : Content → Option (Var × DCEnv)
  | Content.struct ft => do
    let (new_flat_type, envf) ← (match ft with
      | FlatType.apply symbol arguments => do
        let (new_arguments, t1) := VariableSubsSlice.reserve_into_subs env.target
          arguments.length
        let env1 ← dcVarsLoop dc { env with target := t1 } new_arguments.start
          arguments.start arguments.length
        some (FlatType.apply symbol new_arguments, env1)
      | FlatType.func arguments closureVar retVar => do
        let (new_ret, env1) ← dc env retVar
        let (new_closure, env2) ← dc env1 closureVar
        let (new_arguments, t3) := VariableSubsSlice.reserve_into_subs env2.target
          arguments.length
        let env3 ← dcVarsLoop dc { env2 with target := t3 } new_arguments.start
          arguments.start arguments.length
        some (FlatType.func new_arguments new_closure new_ret, env3)
      | FlatType.emptyRecord => some (FlatType.emptyRecord, env)
      | FlatType.emptyTagUnion => some (FlatType.emptyTagUnion, env)
      | FlatType.erroneous p => some (FlatType.erroneous p, env)
      | FlatType.record fields ext => do
        let (new_variables, t1) := VariableSubsSlice.reserve_into_subs env.target
          fields.length
        let env1 ← dcVarsLoop dc { env with target := t1 } new_variables.start
          fields.variables_start fields.length
        let field_names_start := env1.target.field_names.length
        let field_types_start := env1.target.record_fields.length
        let t2 := { env1.target with
          field_names := (env1.target.field_names
            ++ arenaSlice env1.source.field_names fields.field_names_start fields.length []),
          record_fields := (env1.target.record_fields
            ++ arenaSlice env1.source.record_fields fields.field_types_start fields.length
              RecordFieldKind.required) }
        let rf : RecordFields :=
          { length := fields.length, field_names_start := field_names_start,
            variables_start := new_variables.start, field_types_start := field_types_start }
        let (new_ext, env3) ← dc { env1 with target := t2 } ext
        some (FlatType.record rf new_ext, env3)
      | FlatType.tagUnion tags ext => do
        let (new_ext, env1) ← dc env ext
        let (new_variable_slices, t2) := SubsSliceN.reserve_variable_slices env1.target
          tags.length
        let env2 ← dcTagsLoop dc { env1 with target := t2 } new_variable_slices.start
          tags.variables_start tags.length
        let start := env2.target.tag_names.length
        let t3 := { env2.target with tag_names := (env2.target.tag_names
          ++ arenaSlice env2.source.tag_names tags.tag_names_start tags.length
            (TagName.tag [])) }
        let ut := UnionTags.from_slices ⟨start, u16cast tags.length⟩ new_variable_slices
        some (FlatType.tagUnion ut new_ext, { env2 with target := t3 })
      | FlatType.functionOrTagUnion tn symbol ext => do
        let new_tag_name := env.target.tag_names.length
        let t1 := { env.target with tag_names := (env.target.tag_names
          ++ [env.source.tag_names.getD tn (TagName.tag [])]) }
        let (new_ext, env2) ← dc { env with target := t1 } ext
        some (FlatType.functionOrTagUnion new_tag_name symbol new_ext, env2)
      | FlatType.recursiveTagUnion recVar tags ext => do
        let (new_variable_slices, t1) := SubsSliceN.reserve_variable_slices env.target
          tags.length
        let env1 ← dcTagsLoop dc { env with target := t1 } new_variable_slices.start
          tags.variables_start tags.length
        let start := env1.target.tag_names.length
        let t2 := { env1.target with tag_names := (env1.target.tag_names
          ++ arenaSlice env1.source.tag_names tags.tag_names_start tags.length
            (TagName.tag [])) }
        let ut := UnionTags.from_slices ⟨start, u16cast tags.length⟩ new_variable_slices
        let (new_ext, env3) ← dc { env1 with target := t2 } ext
        let (new_rec, env4) ← dc env3 recVar
        some (FlatType.recursiveTagUnion new_rec ut new_ext, env4))
    some (copy, { envf with target := (envf.target.set copy
      (makeDCDescriptor max_rank (Content.struct new_flat_type))) })
  | Content.flexVar optName =>
    match optName with
    | some ni =>
      let name := env.source.field_names.getD ni []
      let new_ni := env.target.field_names.length
      let t1 := { env.target with field_names := env.target.field_names ++ [name] }
      let t2 := t1.set_content copy (Content.flexVar (some new_ni))
      some (copy, { env with target := t2 })
    | none => some (copy, env)
  | Content.error => some (copy, env)
  | Content.recursionVar structVar optName => do
    let (new_structure, env1) ← dc env structVar
    some (copy, { env1 with target := (env1.target.set copy
      (makeDCDescriptor max_rank (Content.recursionVar new_structure optName))) })
  | Content.rigidVar ni =>
    let name := env.source.field_names.getD ni []
    let new_ni := env.target.field_names.length
    let t1 := { env.target with field_names := env.target.field_names ++ [name] }
    some (copy, { env with target := (t1.set copy
      (makeDCDescriptor max_rank (Content.flexVar (some new_ni)))) })
  | Content.flexAbleVar optName ability =>
    match optName with
    | some ni =>
      let name := env.source.field_names.getD ni []
      let new_ni := env.target.field_names.length
      let t1 := { env.target with field_names := env.target.field_names ++ [name] }
      let t2 := t1.set_content copy (Content.flexAbleVar (some new_ni) ability)
      some (copy, { env with target := t2 })
    | none =>
      let t2 := env.target.set_content copy (Content.flexAbleVar none ability)
      some (copy, { env with target := t2 })
  | Content.rigidAbleVar ni ability =>
    let name := env.source.field_names.getD ni []
    let new_ni := env.target.field_names.length
    let t1 := { env.target with field_names := env.target.field_names ++ [name] }
    some (copy, { env with target := (t1.set copy
      (makeDCDescriptor max_rank (Content.flexAbleVar (some new_ni) ability))) })
  | Content.«alias» symbol arguments realVar kind => do
    let (new_variables, t1) := VariableSubsSlice.reserve_into_subs env.target
      arguments.all_variables_len
    let env1 ← dcVarsLoop dc { env with target := t1 } new_variables.start
      arguments.variables_start arguments.all_variables_len
    let new_arguments := { arguments with variables_start := new_variables.start }
    let (new_real, env2) ← dc env1 realVar
    some (copy, { env2 with target := (env2.target.set copy
      (makeDCDescriptor max_rank (Content.«alias» symbol new_arguments new_real kind))) })
  | Content.rangedNumber typ vars => do
    let (new_typ, env1) ← dc env typ
    let (new_vars, t2) := VariableSubsSlice.reserve_into_subs env1.target vars.length
    let env2 ← dcVarsLoop dc { env1 with target := t2 } new_vars.start vars.start
      vars.length
    some (copy, { env2 with target := (env2.target.set copy
      (makeDCDescriptor max_rank (Content.rangedNumber new_typ new_vars))) })

/-- `deep_copy_var_to_help` (subs.rs:4051): return the cached copy if set
(`OptVariable` 0 is `None`), otherwise record the variable as visited,
allocate a fresh unnamed flex variable in the target, link the source
variable to the copy (clearing its mark), and copy the content. -/
def deepCopyVarToHelp : Nat → Rank → DCEnv → Var → Option (Var × DCEnv)
  | 0, _, _, _ => none
  | fuel + 1, max_rank, env, var =>
    let desc := env.source.getDesc var
    if desc.copy ≠ 0 then some (desc.copy, env)
    else
      let env0 := { env with visited := env.visited ++ [var] }
      match env0.target.fresh_unnamed_flex_var with
      | (copy, t1) =>
        let source1 := env0.source.set var { desc with mark := Mark.NONE, copy := copy }
        let env1 := { env0 with target := t1, source := source1 }
        dcCopyContent (deepCopyVarToHelp fuel max_rank) max_rank env1 copy desc.content

/-- The cleanup pass of `deep_copy_var_to` (subs.rs:4025-4033): for every
visited variable whose copy field is set, reset rank, mark and copy to
`NONE`. -/
def dcCleanup : Subs → List Var → Subs
  | s, [] => s
  | s, v :: rest =>
    let desc := s.getDesc v
    let s1 := if desc.copy ≠ 0 then
        s.set v { desc with rank := Rank.NONE, mark := Mark.NONE, copy := 0 }
      else s
    dcCleanup s1 rest

/-- `deep_copy_var_to` (subs.rs:4002): copy `var` from `source` into `target`
at rank `toplevel`, then clear the copy scratch fields of the visited source
variables. -/
def deep_copy_var_to (fuel : Nat) (source target : Subs) (var : Var) :
    Option (Var × Subs × Subs) := do
  let env : DCEnv := { visited := [], source := source, target := target }
  let (copy, env2) ← deepCopyVarToHelp fuel Rank.toplevel env var
  some (copy, dcCleanup env2.source env2.visited, env2.target)

/-- Scenario store for `deep_copy_var_to`: the function type `a -> a` with a
rigid type variable `a`.  Variable 0 is `Func([1], 2, 1)` (argument and
result are the *same* variable 1), variable 1 is `RigidVar("a")`, variable 2
is the closure variable (unnamed flex). -/
def dcShareStore : Subs :=
  { emptySubs with
    utable := { nodes :=
      [UFNode.root { content := Content.struct (FlatType.func ⟨0, 1⟩ 2 1),
                     rank := Rank.toplevel, mark := Mark.NONE, copy := 0 },
       UFNode.root { content := Content.rigidVar 0,
                     rank := Rank.toplevel, mark := Mark.NONE, copy := 0 },
       UFNode.root { content := unnamed_flex_var,
                     rank := Rank.toplevel, mark := Mark.NONE, copy := 0 }], log := [] },
    «variables» := [1],
    field_names := [[97]] }

/-- The outcome of deep-copying the `a -> a` scenario into an empty target. -/
def dcShareRes : Var × Subs × Subs :=
  (deep_copy_var_to 3 dcShareStore emptySubs 0).getD (0, dcShareStore, emptySubs)

/-- A one-variable store whose variable has `Content::Error`. -/
def dcErrorStore : Subs :=
  { emptySubs with
    utable := { nodes :=
      [UFNode.root { content := Content.error, rank := Rank.toplevel,
                     mark := Mark.NONE, copy := 0 }], log := [] } }

/-- The outcome of deep-copying the error variable into an empty target. -/
def dcErrorRes : Var × Subs × Subs :=
  (deep_copy_var_to 1 dcErrorStore emptySubs 0).getD (0, dcErrorStore, emptySubs)

/-- A variable whose redirect chain resolves to a genuine in-range root node
(true of every variable of a well-formed store). -/
def resolves (s : Subs) (v : Var) : Prop :=
  s.utable.isRoot (s.utable.rootOf v) = true ∧ s.utable.rootOf v < s.utable.nodes.length

/-- Nonzero `copy` scratch fields of the source survive a deep-copy pass with
their values: the pass writes a copy field only while it is still `None`. -/
def dcSrcCopies (env env2 : DCEnv) : Prop :=
  ∀ w, (env.source.getDesc w).copy ≠ 0 →
    (env2.source.getDesc w).copy = (env.source.getDesc w).copy

/-- The deep-copy pass only appends to the target store: every existing
union-find node and every pooled field name is untouched. -/
def tgtExt (t t2 : Subs) : Prop :=
  t.utable.nodes.length ≤ t2.utable.nodes.length
  ∧ (∀ i, i < t.utable.nodes.length → t2.utable.getNode i = t.utable.getNode i)
  ∧ t.field_names.length ≤ t2.field_names.length
  ∧ (∀ j, j < t.field_names.length → t2.field_names.getD j [] = t.field_names.getD j [])

/-- As `tgtExt`, but the node of the freshly allocated copy itself may be
rewritten (it receives the copied content at the end of its case). -/
def tgtExtExcept (c : Var) (t t2 : Subs) : Prop :=
  t.utable.nodes.length ≤ t2.utable.nodes.length
  ∧ (∀ i, i < t.utable.nodes.length → i ≠ c → t2.utable.getNode i = t.utable.getNode i)
  ∧ t.field_names.length ≤ t2.field_names.length
  ∧ (∀ j, j < t.field_names.length → t2.field_names.getD j [] = t.field_names.getD j [])

/-- The shape `deep_copy_var_to_help` installs at the fresh copy for each
source content: structural contents are copied constructor-for-constructor
(same symbol, ability, alias kind, record/tag-union arity modulo the `u16`
slice-length cast, all at the pass rank); `RigidVar`/`RigidAbleVar` are
downgraded to `FlexVar`/`FlexAbleVar` with the same pooled name;
`FlexVar(None)` and `Error` leave the fresh unnamed flex descriptor in
place (`Error` content is lost). -/
def dcShape (mr : Rank) (src tgt : Subs) (copy : Var) : Content → Prop
  | Content.flexVar optName =>
    match optName with
    | some ni => ∃ m, tgt.getDesc copy
          = { flex_var_descriptor with content := Content.flexVar (some m) }
        ∧ tgt.field_names.getD m [] = src.field_names.getD ni []
    | none => tgt.getDesc copy = flex_var_descriptor
  | Content.rigidVar ni => ∃ m, tgt.getDesc copy
        = makeDCDescriptor mr (Content.flexVar (some m))
      ∧ tgt.field_names.getD m [] = src.field_names.getD ni []
  | Content.flexAbleVar optName ability =>
    match optName with
    | some ni => ∃ m, tgt.getDesc copy
          = { flex_var_descriptor with content := Content.flexAbleVar (some m) ability }
        ∧ tgt.field_names.getD m [] = src.field_names.getD ni []
    | none => tgt.getDesc copy
        = { flex_var_descriptor with content := Content.flexAbleVar none ability }
  | Content.rigidAbleVar ni ability => ∃ m, tgt.getDesc copy
        = makeDCDescriptor mr (Content.flexAbleVar (some m) ability)
      ∧ tgt.field_names.getD m [] = src.field_names.getD ni []
  | Content.recursionVar _ optName => ∃ ns, tgt.getDesc copy
      = makeDCDescriptor mr (Content.recursionVar ns optName)
  | Content.error => tgt.getDesc copy = flex_var_descriptor
  | Content.«alias» symbol args _ kind => ∃ st nrv, tgt.getDesc copy
      = makeDCDescriptor mr (Content.«alias» symbol { args with variables_start := st } nrv kind)
  | Content.rangedNumber _ vars => ∃ st ntyp, tgt.getDesc copy
      = makeDCDescriptor mr (Content.rangedNumber ntyp ⟨st, u16cast vars.length⟩)
  | Content.struct ft =>
    match ft with
    | FlatType.apply symbol args => ∃ st, tgt.getDesc copy
        = makeDCDescriptor mr (Content.struct (FlatType.apply symbol ⟨st, u16cast args.length⟩))
    | FlatType.func args _ _ => ∃ st ncv nrv, tgt.getDesc copy
        = makeDCDescriptor mr
            (Content.struct (FlatType.func ⟨st, u16cast args.length⟩ ncv nrv))
    | FlatType.emptyRecord => tgt.getDesc copy
        = makeDCDescriptor mr (Content.struct FlatType.emptyRecord)
    | FlatType.emptyTagUnion => tgt.getDesc copy
        = makeDCDescriptor mr (Content.struct FlatType.emptyTagUnion)
    | FlatType.erroneous p => tgt.getDesc copy
        = makeDCDescriptor mr (Content.struct (FlatType.erroneous p))
    | FlatType.record fields _ => ∃ rf : RecordFields, rf.length = fields.length
        ∧ ∃ next, tgt.getDesc copy
            = makeDCDescriptor mr (Content.struct (FlatType.record rf next))
    | FlatType.tagUnion tags _ => ∃ ut : UnionTags, ut.length = u16cast tags.length
        ∧ ∃ next, tgt.getDesc copy
            = makeDCDescriptor mr (Content.struct (FlatType.tagUnion ut next))
    | FlatType.functionOrTagUnion _ symbol _ => ∃ ntn next, tgt.getDesc copy
        = makeDCDescriptor mr (Content.struct (FlatType.functionOrTagUnion ntn symbol next))
    | FlatType.recursiveTagUnion _ tags _ => ∃ nrec ut next,
        (ut : UnionTags).length = u16cast tags.length
        ∧ tgt.getDesc copy
            = makeDCDescriptor mr (Content.struct (FlatType.recursiveTagUnion nrec ut next))

/-- A one-variable deep-copy scenario into a nonempty target (so the fresh
copy is not the `NULL` variable `0`). -/
def c3ScenEnv : DCEnv :=
  { visited := [], source := oneFlexStore, target := oneFlexStore }

/-- The outcome of the one-variable deep-copy scenario. -/
def c3ScenRes : Var × DCEnv :=
  (deepCopyVarToHelp 1 Rank.toplevel c3ScenEnv 0).getD (0, c3ScenEnv)

/-- The end of the `variables`-arena run that `explicit_substitute` rewrites
in place for a content (the argument run of `Apply`/`Func`, the field run of
`Record`, the argument run of `Alias`, the range run of `RangedNumber`;
every other content is rewritten into fresh storage or not at all). -/
def inPlaceEnd : Content → Nat
  | Content.struct (FlatType.apply _ args) => args.start + args.length
  | Content.struct (FlatType.func args _ _) => args.start + args.length
  | Content.struct (FlatType.record fields _) => fields.variables_start + fields.length
  | Content.«alias» _ args _ _ => args.variables_start + args.all_variables_len
  | Content.rangedNumber _ vars => vars.start + vars.length
  | _ => 0

/-- Every content of the store keeps its in-place-rewritten run within the
first `N` entries of the `variables` arena (in the source, an out-of-bounds
run would make the in-place writes of `explicit_substitute` panic). -/
def contentsBounded (N : Nat) (s : Subs) : Prop :=
  ∀ v, inPlaceEnd (s.getContent v) ≤ N

/-- Node-level version of the in-place bound, for deciding it on a concrete
store. -/
def nodeInPlaceEnd (t : UnificationTable) (i : Nat) : Nat :=
  match t.getNode i with
  | UFNode.root d => inPlaceEnd d.content
  | UFNode.redirect _ => 0

/-- What a substitution pass does to the two variable arenas: entries of the
`variables` arena at positions `≥ N` are untouched (in-place writes stay
below `N`), and existing `variable_slices` entries are untouched (new slices
are only appended). -/
def esFrozen (N : Nat) (s s' : Subs) : Prop :=
  s.«variables».length ≤ s'.«variables».length
  ∧ (∀ p, N ≤ p → p < s.«variables».length →
      s'.«variables».getD p 0 = s.«variables».getD p 0)
  ∧ s.variable_slices.length ≤ s'.variable_slices.length
  ∧ (∀ q, q < s.variable_slices.length →
      s'.variable_slices.getD q ⟨0, 0⟩ = s.variable_slices.getD q ⟨0, 0⟩)

/-- An entry written by the substitution passes of `mark_tag_union_recursive`:
either the fresh recursion variable, or a variable resolving to a root other
than `recursive`'s. -/
def mturP (recursive rec_var : Var) (s : Subs) (e : Var) : Prop :=
  e = rec_var ∨ s.get_root_key e ≠ s.get_root_key (s.get_root_key recursive)

/-! ## Theorems.

First, soundness of the mutation log: unwinding the log entries pushed by any
store operation restores the union-find table. -/

theorem undoList_append (e2 e1 : List UndoAction) (ns : List UFNode) :
    undoList (e2 ++ e1) ns = undoList e1 (undoList e2 ns) := by
  induction e2 generalizing ns with
  | nil => rfl
  | cons a rest ih => simp [undoList, ih]

theorem unwindOk_refl (t : UnificationTable) : unwindOk t t := ⟨[], rfl, rfl⟩

theorem unwindOk_trans {t0 t1 t2 : UnificationTable} (h1 : unwindOk t0 t1)
    (h2 : unwindOk t1 t2) : unwindOk t0 t2 := by
  obtain ⟨e1, hl1, hn1⟩ := h1
  obtain ⟨e2, hl2, hn2⟩ := h2
  exact ⟨e2 ++ e1, by simp [hl2, hl1], by rw [undoList_append, hn2, hn1]⟩

theorem list_set_getD_self (l : List UFNode) (i : Nat) (d : UFNode) (h : i < l.length) :
    l.set i (l.getD i d) = l := by
  induction l generalizing i with
  | nil => simp at h
  | cons a t ih =>
    cases i with
    | zero => simp [List.getD]
    | succ j =>
      simp only [List.getD_cons_succ, List.set_cons_succ, List.cons.injEq, true_and]
      exact ih j (by simpa using h)

theorem unwindOk_newKey (t : UnificationTable) (d : Descriptor) : unwindOk t (t.newKey d) := by
  refine ⟨[UndoAction.popKey], rfl, ?_⟩
  simp [undoList, UnificationTable.applyUndo, UnificationTable.newKey]

theorem unwindOk_setNodeLogged (t : UnificationTable) (i : Nat) (n : UFNode) :
    unwindOk t (t.setNodeLogged i n) := by
  unfold UnificationTable.setNodeLogged
  by_cases h : i < t.nodes.length
  · rw [if_pos h]
    refine ⟨[UndoAction.setNode i (t.getNode i)], rfl, ?_⟩
    simp only [undoList, UnificationTable.applyUndo, UnificationTable.getNode]
    rw [List.set_set]
    exact list_set_getD_self _ _ _ h
  · rw [if_neg h]
    exact unwindOk_refl t

theorem unwindOk_updateRoot (t : UnificationTable) (i : Nat) (d : Descriptor) :
    unwindOk t (t.updateRoot i d) := by
  unfold UnificationTable.updateRoot
  cases h : t.getNode i with
  | root _ => exact unwindOk_setNodeLogged t i _
  | redirect _ => exact unwindOk_refl t

theorem unwindOk_unifyRoots (t : UnificationTable) (a b : Var) (d : Descriptor) :
    unwindOk t (t.unifyRoots a b d) := by
  unfold UnificationTable.unifyRoots
  by_cases h : a = b
  · rw [if_pos h]
    exact unwindOk_setNodeLogged t a _
  · rw [if_neg h]
    exact unwindOk_trans (unwindOk_setNodeLogged t b _) (unwindOk_setNodeLogged _ a _)

theorem unwindOk_applyOp (s : Subs) (op : StoreOp) :
    unwindOk s.utable (applyOp s op).utable := by
  cases op with
  | freshOp d => exact unwindOk_newKey s.utable d
  | setOp v d => exact unwindOk_updateRoot s.utable _ d
  | setContentOp v c => exact unwindOk_updateRoot s.utable _ _
  | setRankOp v r => exact unwindOk_updateRoot s.utable _ _
  | setMarkOp v m => exact unwindOk_updateRoot s.utable _ _
  | unionOp l r d => exact unwindOk_unifyRoots s.utable _ _ d
  | rigidVarOp v name => exact unwindOk_updateRoot s.utable _ _
  | rigidAbleVarOp v name ability => exact unwindOk_updateRoot s.utable _ _

theorem unwindOk_applyOps (s : Subs) (ops : List StoreOp) :
    unwindOk s.utable (applyOps s ops).utable := by
  induction ops generalizing s with
  | nil => exact unwindOk_refl _
  | cons op rest ih =>
    have hstep : applyOps s (op :: rest) = applyOps (applyOp s op) rest := rfl
    rw [hstep]
    exact unwindOk_trans (unwindOk_applyOp s op) (ih (applyOp s op))

theorem rollbackAux_spec (extra : List UndoAction) :
    ∀ (ns : List UFNode) (rest : List UndoAction),
      UnificationTable.rollbackAux extra.length { nodes := ns, log := extra ++ rest }
        = { nodes := undoList extra ns, log := rest } := by
  induction extra with
  | nil => intro ns rest; rfl
  | cons a e ih =>
    intro ns rest
    simp only [List.length_cons, List.cons_append, UnificationTable.rollbackAux, undoList]
    exact ih _ rest

theorem rollbackTo_unwind {t0 t : UnificationTable} (h : unwindOk t0 t) :
    t.rollbackTo t0.log.length = t0 := by
  obtain ⟨extra, hl, hn⟩ := h
  obtain ⟨ns, log⟩ := t
  obtain ⟨ns0, log0⟩ := t0
  simp only at hl hn
  subst hl
  unfold UnificationTable.rollbackTo
  rw [if_pos (by simp)]
  have hlen : (extra ++ log0).length - log0.length = extra.length := by simp
  rw [hlen, rollbackAux_spec extra ns log0, hn]

theorem applyOp_arenas (s : Subs) (op : StoreOp) :
    (applyOp s op).«variables» = s.«variables»
    ∧ (applyOp s op).variable_slices = s.variable_slices
    ∧ (applyOp s op).tag_names = s.tag_names
    ∧ (applyOp s op).record_fields = s.record_fields
    ∧ s.field_names <+: (applyOp s op).field_names := by
  cases op with
  | freshOp d => exact ⟨rfl, rfl, rfl, rfl, List.prefix_refl _⟩
  | setOp v d => exact ⟨rfl, rfl, rfl, rfl, List.prefix_refl _⟩
  | setContentOp v c => exact ⟨rfl, rfl, rfl, rfl, List.prefix_refl _⟩
  | setRankOp v r => exact ⟨rfl, rfl, rfl, rfl, List.prefix_refl _⟩
  | setMarkOp v m => exact ⟨rfl, rfl, rfl, rfl, List.prefix_refl _⟩
  | unionOp l r d => exact ⟨rfl, rfl, rfl, rfl, List.prefix_refl _⟩
  | rigidVarOp v name => exact ⟨rfl, rfl, rfl, rfl, List.prefix_append _ _⟩
  | rigidAbleVarOp v name ability => exact ⟨rfl, rfl, rfl, rfl, List.prefix_append _ _⟩

theorem applyOps_arenas (s : Subs) (ops : List StoreOp) :
    (applyOps s ops).«variables» = s.«variables»
    ∧ (applyOps s ops).variable_slices = s.variable_slices
    ∧ (applyOps s ops).tag_names = s.tag_names
    ∧ (applyOps s ops).record_fields = s.record_fields
    ∧ s.field_names <+: (applyOps s ops).field_names := by
  induction ops generalizing s with
  | nil => exact ⟨rfl, rfl, rfl, rfl, List.prefix_refl _⟩
  | cons op rest ih =>
    have hstep : applyOps s (op :: rest) = applyOps (applyOp s op) rest := rfl
    obtain ⟨h1, h2, h3, h4, h5⟩ := applyOp_arenas s op
    obtain ⟨g1, g2, g3, g4, g5⟩ := ih (applyOp s op)
    rw [hstep]
    exact ⟨g1.trans h1, g2.trans h2, g3.trans h3, g4.trans h4, h5.trans g5⟩

/-- The snapshot position equals the log length of the starting store. -/
theorem snapshot_log_length (s : Subs) : Subs.snapshot s = s.utable.log.length := rfl

/-! Root resolution lemmas for `union`. -/

theorem isRoot_iff (t : UnificationTable) (v : Var) :
    t.isRoot v = true ↔ ∃ d, t.getNode v = UFNode.root d := by
  unfold UnificationTable.isRoot
  cases t.getNode v <;> simp

theorem chain_root_isRoot {t : UnificationTable} {v r : Var} {k : Nat}
    (h : RedirectChain t v r k) : t.isRoot r = true := by
  induction h with
  | root h0 => exact h0
  | step _ _ ih => exact ih

theorem rootAux_succ (t : UnificationTable) (fuel : Nat) (v : Var) :
    t.rootAux (fuel + 1) v
      = match t.getNode v with
        | UFNode.root _ => v
        | UFNode.redirect w => t.rootAux fuel w := rfl

theorem rootAux_of_chain {t : UnificationTable} {v r : Var} {k : Nat}
    (h : RedirectChain t v r k) : ∀ fuel, k ≤ fuel → t.rootAux fuel v = r := by
  induction h with
  | root h0 =>
    intro fuel _
    obtain ⟨d, hd⟩ := (isRoot_iff t _).mp h0
    cases fuel with
    | zero => rfl
    | succ f => rw [rootAux_succ, hd]
  | step hred _ ih =>
    intro fuel hk
    cases fuel with
    | zero => omega
    | succ f =>
      rw [rootAux_succ, hred]
      exact ih f (by omega)

theorem setNodeLogged_length (t : UnificationTable) (i : Nat) (n : UFNode) :
    (t.setNodeLogged i n).nodes.length = t.nodes.length := by
  unfold UnificationTable.setNodeLogged
  by_cases h : i < t.nodes.length
  · rw [if_pos h]
    simp
  · rw [if_neg h]

theorem getNode_setNodeLogged_same (t : UnificationTable) (i : Nat) (n : UFNode)
    (h : i < t.nodes.length) : (t.setNodeLogged i n).getNode i = n := by
  unfold UnificationTable.setNodeLogged UnificationTable.getNode
  rw [if_pos h]
  simp only [List.getD_eq_getElem?_getD]
  rw [List.getElem?_set_self (by simpa using h)]
  rfl

theorem getNode_setNodeLogged_other (t : UnificationTable) (i j : Nat) (n : UFNode)
    (h : j ≠ i) : (t.setNodeLogged i n).getNode j = t.getNode j := by
  unfold UnificationTable.setNodeLogged UnificationTable.getNode
  by_cases hi : i < t.nodes.length
  · rw [if_pos hi]
    simp only [List.getD_eq_getElem?_getD]
    rw [List.getElem?_set_ne (by omega)]
  · rw [if_neg hi]

theorem chain_preserved {t t2 : UnificationTable}
    (hmod : ∀ i, t2.getNode i ≠ t.getNode i → t.isRoot i = true) :
    ∀ {v r : Var} {k : Nat}, RedirectChain t v r k → t2.isRoot r = true →
      RedirectChain t2 v r k := by
  intro v r k h hr
  induction h with
  | root _ => exact RedirectChain.root hr
  | @step v w rr kk hred hch ih =>
    have heq : t2.getNode v = t.getNode v := by
      by_contra hne
      have hroot := hmod v hne
      rw [isRoot_iff] at hroot
      obtain ⟨d, hd⟩ := hroot
      rw [hd] at hred
      exact UFNode.noConfusion hred
    exact RedirectChain.step (by rw [heq, hred]) (ih hr)

theorem chain_extend {t t2 : UnificationTable}
    (hmod : ∀ i, t2.getNode i ≠ t.getNode i → t.isRoot i = true) :
    ∀ {v r : Var} {k : Nat}, RedirectChain t v r k → ∀ {u : Var},
      t2.getNode r = UFNode.redirect u → t2.isRoot u = true →
      RedirectChain t2 v u (k + 1) := by
  intro v r k h
  induction h with
  | root _ =>
    intro u hred hu
    exact RedirectChain.step hred (RedirectChain.root hu)
  | @step v w rr kk hred hch ih =>
    intro u hredu hu
    have heq : t2.getNode v = t.getNode v := by
      by_contra hne
      have hroot := hmod v hne
      rw [isRoot_iff] at hroot
      obtain ⟨d, hd⟩ := hroot
      rw [hd] at hred
      exact UFNode.noConfusion hred
    exact RedirectChain.step (by rw [heq, hred]) (ih hredu hu)

/-- C7: `union(l, r, desc)` resolves both arguments to their roots and
installs `desc` at the surviving root, and the surviving representative is
the root of the right argument `r`.  The hypotheses say that `l` and `r`
resolve through redirect chains of bounded length to in-range roots, which
holds in every well-formed table. -/
theorem c7_union_installs_at_right_root (s : Subs) (l r lr rr : Var) (kl kr : Nat)
    (d : Descriptor)
    (hcl : RedirectChain s.utable l lr kl) (hcr : RedirectChain s.utable r rr kr)
    (hkl : kl + 1 ≤ s.len) (hkr : kr ≤ s.len)
    (hlr : lr < s.len) (hrr : rr < s.len) :
    (s.union l r d).get_root_key l = rr
    ∧ (s.union l r d).get_root_key r = rr
    ∧ (s.union l r d).getDesc l = d
    ∧ (s.union l r d).getDesc r = d
    ∧ s.get_root_key r = rr := by
  have hLL : UnificationTable.len s.utable = s.len := rfl
  have hL : s.utable.rootOf l = lr := rootAux_of_chain hcl _ (by omega)
  have hR : s.utable.rootOf r = rr := rootAux_of_chain hcr _ (by omega)
  have hlrRoot : s.utable.isRoot lr = true := chain_root_isRoot hcl
  have hrrRoot : s.utable.isRoot rr = true := chain_root_isRoot hcr
  have hunion : (s.union l r d).utable = s.utable.unifyRoots rr lr d := by
    simp [Subs.union, Subs.get_root_key, hL, hR]
  by_cases hEq : rr = lr
  · -- the two classes coincide: a single descriptor write
    have ht' : (s.union l r d).utable = s.utable.setNodeLogged rr (UFNode.root d) := by
      rw [hunion]
      unfold UnificationTable.unifyRoots
      rw [if_pos hEq]
    have hmod : ∀ i, ((s.union l r d).utable).getNode i ≠ s.utable.getNode i →
        s.utable.isRoot i = true := by
      intro i hne
      rw [ht'] at hne
      by_cases hi : i = rr
      · rw [hi]; exact hrrRoot
      · exact absurd (getNode_setNodeLogged_other _ _ _ _ hi) hne
    have hlen : ((s.union l r d).utable).nodes.length = s.utable.nodes.length := by
      rw [ht']; exact setNodeLogged_length _ _ _
    have hrootd : ((s.union l r d).utable).getNode rr = UFNode.root d := by
      rw [ht']; exact getNode_setNodeLogged_same _ _ _ hrr
    have hrrRoot' : ((s.union l r d).utable).isRoot rr = true := by
      rw [isRoot_iff]; exact ⟨d, hrootd⟩
    have hcl' : RedirectChain ((s.union l r d).utable) l rr kl :=
      chain_preserved hmod (hEq ▸ hcl) hrrRoot'
    have hcr' : RedirectChain ((s.union l r d).utable) r rr kr :=
      chain_preserved hmod hcr hrrRoot'
    have hRL : (s.union l r d).get_root_key l = rr := by
      show ((s.union l r d).utable).rootOf l = rr
      unfold UnificationTable.rootOf
      have : ((s.union l r d).utable).len = s.len := hlen
      rw [this]
      exact rootAux_of_chain hcl' _ (by omega)
    have hRR : (s.union l r d).get_root_key r = rr := by
      show ((s.union l r d).utable).rootOf r = rr
      unfold UnificationTable.rootOf
      have : ((s.union l r d).utable).len = s.len := hlen
      rw [this]
      exact rootAux_of_chain hcr' _ (by omega)
    refine ⟨hRL, hRR, ?_, ?_, hR⟩
    · show ((s.union l r d).utable).probe l = d
      unfold UnificationTable.probe
      rw [show ((s.union l r d).utable).rootOf l = rr from hRL, hrootd]
    · show ((s.union l r d).utable).probe r = d
      unfold UnificationTable.probe
      rw [show ((s.union l r d).utable).rootOf r = rr from hRR, hrootd]
  · -- distinct roots: redirect the left root into the right root
    have ht' : (s.union l r d).utable
        = (s.utable.setNodeLogged lr (UFNode.redirect rr)).setNodeLogged rr (UFNode.root d) := by
      rw [hunion]
      unfold UnificationTable.unifyRoots
      rw [if_neg hEq]
    have hlen1 : (s.utable.setNodeLogged lr (UFNode.redirect rr)).nodes.length
        = s.utable.nodes.length := setNodeLogged_length _ _ _
    have hmod : ∀ i, ((s.union l r d).utable).getNode i ≠ s.utable.getNode i →
        s.utable.isRoot i = true := by
      intro i hne
      rw [ht'] at hne
      by_cases hi : i = rr
      · rw [hi]; exact hrrRoot
      · by_cases hj : i = lr
        · rw [hj]; exact hlrRoot
        · rw [getNode_setNodeLogged_other _ _ _ _ hi,
            getNode_setNodeLogged_other _ _ _ _ hj] at hne
          exact absurd rfl hne
    have hlen : ((s.union l r d).utable).nodes.length = s.utable.nodes.length := by
      rw [ht', setNodeLogged_length, hlen1]
    have hrootd : ((s.union l r d).utable).getNode rr = UFNode.root d := by
      rw [ht']
      exact getNode_setNodeLogged_same _ _ _ (by rw [hlen1]; exact hrr)
    have hrrRoot' : ((s.union l r d).utable).isRoot rr = true := by
      rw [isRoot_iff]; exact ⟨d, hrootd⟩
    have hlrRed : ((s.union l r d).utable).getNode lr = UFNode.redirect rr := by
      rw [ht']
      rw [getNode_setNodeLogged_other _ _ _ _ (fun h => hEq h.symm)]
      exact getNode_setNodeLogged_same _ _ _ hlr
    have hcl' : RedirectChain ((s.union l r d).utable) l rr (kl + 1) :=
      chain_extend hmod hcl hlrRed hrrRoot'
    have hcr' : RedirectChain ((s.union l r d).utable) r rr kr :=
      chain_preserved hmod hcr hrrRoot'
    have hRL : (s.union l r d).get_root_key l = rr := by
      show ((s.union l r d).utable).rootOf l = rr
      unfold UnificationTable.rootOf
      have : ((s.union l r d).utable).len = s.len := hlen
      rw [this]
      exact rootAux_of_chain hcl' _ (by omega)
    have hRR : (s.union l r d).get_root_key r = rr := by
      show ((s.union l r d).utable).rootOf r = rr
      unfold UnificationTable.rootOf
      have : ((s.union l r d).utable).len = s.len := hlen
      rw [this]
      exact rootAux_of_chain hcr' _ (by omega)
    refine ⟨hRL, hRR, ?_, ?_, hR⟩
    · show ((s.union l r d).utable).probe l = d
      unfold UnificationTable.probe
      rw [show ((s.union l r d).utable).rootOf l = rr from hRL, hrootd]
    · show ((s.union l r d).utable).probe r = d
      unfold UnificationTable.probe
      rw [show ((s.union l r d).utable).rootOf r = rr from hRR, hrootd]

/-- Witness for the union theorem on a concrete two-root store. -/
theorem c7_union_witness :
    (Subs.union twoFlexStore 0 1 flex_var_descriptor).get_root_key 0 = 1
    ∧ (Subs.union twoFlexStore 0 1 flex_var_descriptor).get_root_key 1 = 1
    ∧ (Subs.union twoFlexStore 0 1 flex_var_descriptor).getDesc 0 = flex_var_descriptor
    ∧ (Subs.union twoFlexStore 0 1 flex_var_descriptor).getDesc 1 = flex_var_descriptor
    ∧ Subs.get_root_key twoFlexStore 1 = 1 :=
  c7_union_installs_at_right_root twoFlexStore 0 1 0 1 0 0 flex_var_descriptor
    (RedirectChain.root (by decide)) (RedirectChain.root (by decide))
    (by decide) (by decide) (by decide) (by decide)

/-- C1 (amended): for every store and every sequence of store operations
between `snapshot()` and the matching `rollback_to()`, the union-find table
is restored exactly, and `rollback_to` leaves all five arenas exactly as the
operations left them — the arenas are not rolled back (the original arena
contents survive only as prefixes: a `rigid_var` between snapshot and
rollback leaves its pushed name in `field_names`). -/
theorem c1_rollback_restores_utable_not_arenas (s : Subs) (ops : List StoreOp) :
    (Subs.rollback_to (applyOps s ops) (Subs.snapshot s)).utable = s.utable
    ∧ (Subs.rollback_to (applyOps s ops) (Subs.snapshot s)).«variables»
        = (applyOps s ops).«variables»
    ∧ (Subs.rollback_to (applyOps s ops) (Subs.snapshot s)).variable_slices
        = (applyOps s ops).variable_slices
    ∧ (Subs.rollback_to (applyOps s ops) (Subs.snapshot s)).tag_names
        = (applyOps s ops).tag_names
    ∧ (Subs.rollback_to (applyOps s ops) (Subs.snapshot s)).field_names
        = (applyOps s ops).field_names
    ∧ (Subs.rollback_to (applyOps s ops) (Subs.snapshot s)).record_fields
        = (applyOps s ops).record_fields
    ∧ (applyOps s ops).«variables» = s.«variables»
    ∧ (applyOps s ops).variable_slices = s.variable_slices
    ∧ (applyOps s ops).tag_names = s.tag_names
    ∧ (applyOps s ops).record_fields = s.record_fields
    ∧ s.field_names <+: (applyOps s ops).field_names := by
  obtain ⟨h1, h2, h3, h4, h5⟩ := applyOps_arenas s ops
  refine ⟨?_, rfl, rfl, rfl, rfl, rfl, h1, h2, h3, h4, h5⟩
  exact rollbackTo_unwind (unwindOk_applyOps s ops)

/-- C1 (counterexample): the claim of byte-equivalence of the whole store is
false: a single `rigid_var` between `snapshot` and `rollback_to` leaves the
pushed name in the `field_names` arena after the rollback. -/
theorem c1_counterexample :
    (Subs.rollback_to (applyOps oneFlexStore [StoreOp.rigidVarOp 0 [97]])
        (Subs.snapshot oneFlexStore)).field_names ≠ oneFlexStore.field_names := by
  intro h
  rw [show (Subs.rollback_to (applyOps oneFlexStore [StoreOp.rigidVarOp 0 [97]])
      (Subs.snapshot oneFlexStore)).field_names = [[97]] from rfl] at h
  simp [oneFlexStore, emptySubs] at h

/-- C6: for a freshly created flex variable `v` whose content is then set to
`Structure(Apply(7, [v]))`, `occurs(v)` returns `Err((v, [v]))`: the culprit
is `v` and the path is exactly `[v]`.  (`occurs` takes the store immutably:
in this embedding it is a pure function of the store and returns no store.) -/
theorem c6_occurs_self_loop :
    Subs.occurs occursSelfStore occursSelfVar = ORes.err occursSelfVar [occursSelfVar] := by
  decide

/-- C9 (counterexample): `AliasVariables::insert_into_subs` also panics when
the type-argument iterator yields 65539 variables (the length is measured
after a truncating `u16` cast, and `65539 % 65536 = 3`), contradicting the
claim that no count other than exactly 3 panics. -/
theorem c9_counterexample :
    (AliasVariables.insert_into_subs emptySubs (List.replicate 65539 0) []).isOk = false
    ∧ (65539 : Nat) ≠ 3 := by
  refine ⟨?_, by norm_num⟩
  have hcond : u16cast ((emptySubs.«variables» ++ List.replicate 65539 (0 : Var)).length
      - emptySubs.«variables».length) = 3 := by
    rw [List.length_append, List.length_replicate]
    norm_num [u16cast, emptySubs]
  unfold AliasVariables.insert_into_subs
  rw [if_pos hcond]
  rfl

/-- C9 (amended): `AliasVariables::insert_into_subs` panics exactly when the
number of type arguments is congruent to 3 modulo 2^16 (for fewer than 65536
type arguments: exactly 3), and in either outcome the `variables` arena has
already been extended with both argument runs before the check. -/
theorem c9_panic_iff_three_mod_u16 (s : Subs) (type_arguments unnamed_arguments : List Var) :
    ((AliasVariables.insert_into_subs s type_arguments unnamed_arguments).isOk = false
        ↔ type_arguments.length % 65536 = 3)
    ∧ (insertResultSubs
          (AliasVariables.insert_into_subs s type_arguments unnamed_arguments)).«variables»
        = s.«variables» ++ type_arguments ++ unnamed_arguments := by
  unfold AliasVariables.insert_into_subs
  have hlen : u16cast ((s.«variables» ++ type_arguments).length - s.«variables».length)
      = type_arguments.length % 65536 := by
    simp [u16cast]
  by_cases h : u16cast ((s.«variables» ++ type_arguments).length - s.«variables».length) = 3
  · rw [if_pos h]
    rw [hlen] at h
    exact ⟨by simp [Except.isOk, Except.toBool, h], by simp [insertResultSubs, List.append_assoc]⟩
  · rw [if_neg h]
    rw [hlen] at h
    exact ⟨by simp [Except.isOk, Except.toBool, h], by simp [insertResultSubs, List.append_assoc]⟩

theorem short_circuit_all_ok {occ : List Var → Var → ORes} {root_key : Var} {seen : List Var} :
    ∀ {vs : List Var}, short_circuit occ root_key seen vs = ORes.ok →
      ∀ v ∈ vs, occ seen v = ORes.ok := by
  intro vs
  induction vs with
  | nil => intro _ v hv; simp at hv
  | cons a t ih =>
    intro h v hv
    rw [short_circuit] at h
    cases hca : occ seen a with
    | ok =>
      rw [show short_circuit_help occ root_key seen a = ORes.ok by
        rw [short_circuit_help, hca]] at h
      rcases List.mem_cons.mp hv with rfl | hvt
      · exact hca
      · exact ih h v hvt
    | err c p =>
      rw [show short_circuit_help occ root_key seen a = ORes.err c (p ++ [root_key]) by
        rw [short_circuit_help, hca]] at h
      exact absurd h (by simp)
    | out =>
      rw [show short_circuit_help occ root_key seen a = ORes.out by
        rw [short_circuit_help, hca]] at h
      exact absurd h (by simp)

theorem occursOk_step {s : Subs} {fuel : Nat} {seen : List Var} {v : Var}
    (h : occursHelp s (fuel + 1) seen v false = ORes.ok) :
    seen.contains (s.get_root_key v) = false
    ∧ ∀ c ∈ occursChildren s (s.get_root_key v),
        occursHelp s fuel (seen ++ [s.get_root_key v]) c false = ORes.ok := by
  simp only [occursHelp] at h
  by_cases hc : seen.contains (s.get_root_key v) = true
  · rw [if_pos hc] at h
    exact absurd h (by simp)
  · rw [if_neg hc] at h
    refine ⟨by simpa using hc, ?_⟩
    intro c hcmem
    unfold occursChildren at hcmem
    cases hcon : s.getContent (s.get_root_key v) with
    | flexVar _ => rw [hcon] at hcmem; exact absurd hcmem (by simp)
    | rigidVar _ => rw [hcon] at hcmem; exact absurd hcmem (by simp)
    | flexAbleVar _ _ => rw [hcon] at hcmem; exact absurd hcmem (by simp)
    | rigidAbleVar _ _ => rw [hcon] at hcmem; exact absurd hcmem (by simp)
    | recursionVar _ _ => rw [hcon] at hcmem; exact absurd hcmem (by simp)
    | error => rw [hcon] at hcmem; exact absurd hcmem (by simp)
    | struct ft =>
      rw [hcon] at h hcmem
      cases ft with
      | apply symbol args => exact short_circuit_all_ok h c hcmem
      | func args cv rv => exact short_circuit_all_ok h c hcmem
      | record fields ext => exact short_circuit_all_ok h c hcmem
      | tagUnion tags ext => exact short_circuit_all_ok h c hcmem
      | functionOrTagUnion tn sym ext => exact short_circuit_all_ok h c hcmem
      | recursiveTagUnion rv tags ext => exact short_circuit_all_ok h c hcmem
      | erroneous _ => exact absurd hcmem (by simp)
      | emptyRecord => exact absurd hcmem (by simp)
      | emptyTagUnion => exact absurd hcmem (by simp)
    | «alias» sym args rv kind =>
      rw [hcon] at h hcmem
      exact short_circuit_all_ok h c hcmem
    | rangedNumber typ rvs =>
      rw [hcon] at h hcmem
      exact short_circuit_all_ok h c hcmem

theorem occursHelp_zero (s : Subs) (seen : List Var) (v : Var) (b : Bool) :
    occursHelp s 0 seen v b = ORes.out := rfl

theorem occursOk_reach {s : Subs} :
    ∀ {n : Nat} {u x : Var}, ReachN s n u x →
      ∀ {fuel : Nat} {seen : List Var} {v : Var}, u = s.get_root_key v →
        occursHelp s fuel seen v false = ORes.ok →
        x ∉ seen ∧ (0 < n → x ≠ u) := by
  intro n u x hreach
  induction hreach with
  | refl w =>
    intro fuel seen v hu h
    cases fuel with
    | zero => exact absurd h (by simp [occursHelp_zero])
    | succ f =>
      obtain ⟨hc, _⟩ := occursOk_step h
      subst hu
      refine ⟨?_, fun h0 => absurd h0 (by omega)⟩
      intro hmem
      rw [show (seen.contains (s.get_root_key v)) = true by
        simpa using hmem] at hc
      exact Bool.noConfusion hc
  | @step u c x n hcmem hrest ih =>
    intro fuel seen v hu h
    cases fuel with
    | zero => exact absurd h (by simp [occursHelp_zero])
    | succ f =>
      obtain ⟨hc0, hchild⟩ := occursOk_step h
      subst hu
      have hok := hchild c hcmem
      obtain ⟨hnotin, _⟩ := ih rfl hok
      rw [List.mem_append] at hnotin
      push_neg at hnotin
      obtain ⟨h1, h2⟩ := hnotin
      exact ⟨h1, fun _ => by simpa using h2⟩

theorem short_circuit_err_spec {occ : List Var → Var → ORes} {root_key : Var} {seen : List Var} :
    ∀ {vs : List Var} {c : Var} {p : List Var},
      short_circuit occ root_key seen vs = ORes.err c p →
      ∃ v p0, occ seen v = ORes.err c p0 ∧ p = p0 ++ [root_key] := by
  intro vs
  induction vs with
  | nil => intro c p h; rw [short_circuit] at h; exact absurd h (by simp)
  | cons a t ih =>
    intro c p h
    rw [short_circuit] at h
    cases hca : occ seen a with
    | ok =>
      rw [show short_circuit_help occ root_key seen a = ORes.ok by
        rw [short_circuit_help, hca]] at h
      exact ih h
    | err c0 p0 =>
      rw [show short_circuit_help occ root_key seen a = ORes.err c0 (p0 ++ [root_key]) by
        rw [short_circuit_help, hca]] at h
      have h' : ORes.err c0 (p0 ++ [root_key]) = ORes.err c p := h
      cases h'
      exact ⟨a, p0, hca, rfl⟩
    | out =>
      rw [show short_circuit_help occ root_key seen a = ORes.out by
        rw [short_circuit_help, hca]] at h
      exact absurd h (by simp)

theorem occursErr_count {s : Subs} :
    ∀ (fuel : Nat) {seen : List Var} {v : Var} {c : Var} {p : List Var},
      occursHelp s fuel seen v false = ORes.err c p →
      p.count c = if c ∈ seen then 0 else 1 := by
  intro fuel
  induction fuel with
  | zero => intro seen v c p h; exact absurd h (by simp [occursHelp_zero])
  | succ f ih =>
    intro seen v c p h
    simp only [occursHelp] at h
    by_cases hc : seen.contains (s.get_root_key v) = true
    · rw [if_pos hc] at h
      have h' : ORes.err (s.get_root_key v) [] = ORes.err c p := h
      cases h'
      rw [if_pos (by simpa using hc)]
      simp
    · rw [if_neg hc] at h
      have hcnotin : s.get_root_key v ∉ seen := by simpa using hc
      have key : ∀ {vs : List Var},
          short_circuit (fun sn w => occursHelp s f sn w false) (s.get_root_key v)
            (seen ++ [s.get_root_key v]) vs = ORes.err c p →
          p.count c = if c ∈ seen then 0 else 1 := by
        intro vs h'
        obtain ⟨v0, p0, hocc, rfl⟩ := short_circuit_err_spec h'
        have hcnt := ih hocc
        rw [List.count_append]
        by_cases hcr : c = s.get_root_key v
        · subst hcr
          rw [if_neg hcnotin]
          rw [if_pos (by simp)] at hcnt
          simp [hcnt]
        · have hsingle : List.count c [s.get_root_key v] = 0 := by
            simp [List.count_cons, hcr]
          by_cases hs : c ∈ seen
          · rw [if_pos (by simp [hs])] at hcnt
            rw [if_pos hs]
            omega
          · rw [if_neg (by simp [hs, hcr])] at hcnt
            rw [if_neg hs]
            omega
      cases hcon : s.getContent (s.get_root_key v) with
      | flexVar _ => rw [hcon] at h; exact absurd h (by simp)
      | rigidVar _ => rw [hcon] at h; exact absurd h (by simp)
      | flexAbleVar _ _ => rw [hcon] at h; exact absurd h (by simp)
      | rigidAbleVar _ _ => rw [hcon] at h; exact absurd h (by simp)
      | recursionVar _ _ => rw [hcon] at h; exact absurd h (by simp)
      | error => rw [hcon] at h; exact absurd h (by simp)
      | struct ft =>
        rw [hcon] at h
        cases ft with
        | apply symbol args => exact key h
        | func args cv rv => exact key h
        | record fields ext => exact key h
        | tagUnion tags ext => exact key h
        | functionOrTagUnion tn sym ext => exact key h
        | recursiveTagUnion rv tags ext => exact key h
        | erroneous _ => exact absurd h (by simp)
        | emptyRecord => exact absurd h (by simp)
        | emptyTagUnion => exact absurd h (by simp)
      | «alias» sym args rv kind =>
        rw [hcon] at h
        exact key h
      | rangedNumber typ rvs =>
        rw [hcon] at h
        exact key h


/-- C5 (counterexample): in the two-variable cycle, `occurs` reports
`Err((1, [2, 1]))`: the culprit appears exactly once on the path, not
twice as claimed. -/
theorem c5_counterexample :
    Subs.occurs occursCycle2Store 1 = ORes.err 1 [2, 1]
    ∧ ([2, 1] : List Var).count 1 ≠ 2 := ⟨by decide, by decide⟩

/-- C5 (amended): if `occurs(v)` returns `Ok`, no descendant path in the
structural graph returns to (the root of) `v`; if it returns
`Err((culprit, path))`, the culprit appears exactly once on the reported
path (the path is the chain of ancestors from the detection point back to
the argument; the second occurrence of the culprit is the detected revisit
itself, which is not pushed). -/
theorem c5_occurs_sound (s : Subs) (v : Var) :
    (Subs.occurs s v = ORes.ok →
      ¬ ∃ n, 0 < n ∧ ReachN s n (s.get_root_key v) (s.get_root_key v))
    ∧ (∀ culprit path, Subs.occurs s v = ORes.err culprit path →
        path.count culprit = 1) := by
  constructor
  · intro h hex
    obtain ⟨n, hn, hreach⟩ := hex
    obtain ⟨_, hne⟩ := occursOk_reach hreach rfl h
    exact hne hn rfl
  · intro culprit path h
    have hcnt := occursErr_count (s.len + 2) h
    rwa [if_neg (by simp)] at hcnt

/-- Witness for the occurs soundness theorem: both directions applied at
concrete stores. -/
theorem c5_occurs_sound_witness :
    (¬ ∃ n, 0 < n ∧ ReachN occursOkStore n (Subs.get_root_key occursOkStore 1)
        (Subs.get_root_key occursOkStore 1))
    ∧ ([2, 1] : List Var).count 1 = 1 := by
  constructor
  · exact (c5_occurs_sound occursOkStore 1).1 (by decide)
  · exact (c5_occurs_sound occursCycle2Store 1).2 1 [2, 1] (by decide)

theorem esPreservesEq_refl (s : Subs) : esPreservesEq s s :=
  ⟨⟨le_refl _, fun _ _ => rfl, fun _ _ _ h _ => h, fun _ _ _ h _ => h⟩, rfl⟩

theorem esPreservesEq_trans {s1 s2 s3 : Subs} (h12 : esPreservesEq s1 s2)
    (h23 : esPreservesEq s2 s3) : esPreservesEq s1 s3 := by
  obtain ⟨⟨hle12, ht12, hf12, hb12⟩, he12⟩ := h12
  obtain ⟨⟨hle23, ht23, hf23, hb23⟩, he23⟩ := h23
  refine ⟨⟨le_trans hle12 hle23, ?_, ?_, ?_⟩, he23.trans he12⟩
  · intro i hi
    rw [ht23 i (by omega), ht12 i hi]
  · intro i d hi hn hin
    exact hf23 i d (by omega) (hf12 i d hi hn hin) hin
  · intro i d hi hn hin
    exact hb12 i d hi (hb23 i d (by omega) hn hin) hin

theorem esPreservesEq_utable_eq {s s' : Subs} (h : s'.utable = s.utable) :
    esPreservesEq s s' :=
  ⟨⟨by rw [h], fun i hi => by rw [h], fun i d hi hn hin => by rw [h]; exact hn,
    fun i d hi hn hin => by rw [h] at hn; exact hn⟩, by rw [h]⟩

theorem getNode_redirect_lt {t : UnificationTable} {i : Nat} {w : Var}
    (h : t.getNode i = UFNode.redirect w) : i < t.nodes.length := by
  by_contra hge
  rw [UnificationTable.getNode, List.getD_eq_getElem?_getD,
    List.getElem?_eq_none (by omega)] at h
  exact UFNode.noConfusion h

theorem rootAux_eq_of_targets {t t' : UnificationTable}
    (hlen : t'.nodes.length = t.nodes.length)
    (htar : ∀ i, i < t.nodes.length → redirectTargetOf t' i = redirectTargetOf t i) :
    ∀ fuel v, t'.rootAux fuel v = t.rootAux fuel v := by
  intro fuel
  induction fuel with
  | zero => intro v; rfl
  | succ f ih =>
    intro v
    rw [rootAux_succ, rootAux_succ]
    cases hv : t.getNode v with
    | root d =>
      have htv : redirectTargetOf t v = none := by rw [redirectTargetOf, hv]
      cases hv' : t'.getNode v with
      | root d' => rfl
      | redirect w' =>
        have : redirectTargetOf t' v = some w' := by rw [redirectTargetOf, hv']
        rw [htar v (hlen ▸ getNode_redirect_lt hv'), htv] at this
        exact Option.noConfusion this
    | redirect w =>
      have htv : redirectTargetOf t v = some w := by rw [redirectTargetOf, hv]
      cases hv' : t'.getNode v with
      | root d' =>
        have : redirectTargetOf t' v = none := by rw [redirectTargetOf, hv']
        rw [htar v (getNode_redirect_lt hv), htv] at this
        exact Option.noConfusion this
      | redirect w' =>
        have : redirectTargetOf t' v = some w' := by rw [redirectTargetOf, hv']
        rw [htar v (getNode_redirect_lt hv), htv] at this
        cases this
        exact ih w

theorem root_eq_of_esPreservesEq {s s' : Subs} (h : esPreservesEq s s') (v : Var) :
    s'.get_root_key v = s.get_root_key v := by
  obtain ⟨⟨_, htar, _, _⟩, hlen⟩ := h
  show s'.utable.rootOf v = s.utable.rootOf v
  unfold UnificationTable.rootOf
  rw [show UnificationTable.len s'.utable = UnificationTable.len s.utable from hlen]
  exact rootAux_eq_of_targets hlen htar _ v

theorem probe_noninert_of_esPreservesEq {s s' : Subs} (h : esPreservesEq s s') {v : Var}
    (hni : contentInert (s.getContent v) = false) :
    contentInert (s'.getContent v) = false := by
  have hroot := root_eq_of_esPreservesEq h v
  obtain ⟨⟨hle, htar, hf, hb⟩, hlen⟩ := h
  simp only [Subs.get_root_key] at hroot
  cases hg : s.utable.getNode (s.utable.rootOf v) with
  | redirect w =>
    exfalso
    have : s.getContent v = unnamed_flex_var := by
      rw [Subs.getContent, Subs.getDesc, UnificationTable.probe, hg]
      rfl
    rw [this] at hni
    exact Bool.noConfusion hni
  | root d0 =>
    have hcv : s.getContent v = d0.content := by
      rw [Subs.getContent, Subs.getDesc, UnificationTable.probe, hg]
    by_cases hr : s.utable.rootOf v < s.utable.nodes.length
    · cases hg' : s'.utable.getNode (s.utable.rootOf v) with
      | redirect w' =>
        exfalso
        have h1 : redirectTargetOf s'.utable (s.utable.rootOf v) = some w' := by
          rw [redirectTargetOf, hg']
        have h2 : redirectTargetOf s.utable (s.utable.rootOf v) = none := by
          rw [redirectTargetOf, hg]
        rw [htar _ hr, h2] at h1
        exact Option.noConfusion h1
      | root d' =>
        have hcv' : s'.getContent v = d'.content := by
          rw [Subs.getContent, Subs.getDesc, UnificationTable.probe, hroot, hg']
        by_cases hin : contentInert d'.content = true
        · exfalso
          have := hb _ d' hr hg' hin
          rw [hg] at this
          cases this
          rw [hcv] at hni
          rw [hni] at hin
          exact Bool.noConfusion hin
        · rw [hcv']
          exact Bool.not_eq_true _ ▸ (by simpa using hin)
    · exfalso
      have : s.utable.getNode (s.utable.rootOf v) = UFNode.root flex_var_descriptor := by
        rw [UnificationTable.getNode, List.getD_eq_getElem?_getD,
          List.getElem?_eq_none (Nat.le_of_not_lt hr)]
        rfl
      rw [this] at hg
      cases hg
      rw [hcv] at hni
      exact Bool.noConfusion hni

theorem probe_of_root {s : Subs} {r : Var} {d : Descriptor} {v : Var}
    (hroot : s.utable.rootOf v = r) (hg : s.utable.getNode r = UFNode.root d) :
    s.getDesc v = d := by
  rw [Subs.getDesc, UnificationTable.probe, hroot, hg]

theorem esPreservesEq_set_content (s : Subs) (v : Var) (c : Content)
    (hni : contentInert (s.getContent v) = false) (hc : contentInert c = false) :
    esPreservesEq s (s.set_content v c) := by
  rw [Subs.set_content]
  cases hg : s.utable.getNode (s.get_root_key v) with
  | redirect w =>
    apply esPreservesEq_utable_eq
    show (s.utable.updateRoot (s.get_root_key v) _) = s.utable
    rw [UnificationTable.updateRoot, hg]
  | root d0 =>
    have hd0 : s.getDesc v = d0 := probe_of_root rfl hg
    have hni0 : contentInert d0.content = false := by
      rw [Subs.getContent, hd0] at hni
      exact hni
    have hup : s.utable.updateRoot (s.get_root_key v) { s.utable.probe v with content := c }
        = s.utable.setNodeLogged (s.get_root_key v)
            (UFNode.root { s.utable.probe v with content := c }) := by
      rw [UnificationTable.updateRoot, hg]
    rw [hup]
    by_cases hr : s.get_root_key v < s.utable.nodes.length
    · refine ⟨⟨?_, ?_, ?_, ?_⟩, ?_⟩
      · show s.utable.nodes.length ≤ _
        rw [show ∀ t : UnificationTable, ({ s with utable := t } : Subs).utable = t
          from fun _ => rfl]
        rw [setNodeLogged_length]
      · intro i hi
        by_cases hieq : i = s.get_root_key v
        · subst hieq
          rw [redirectTargetOf, redirectTargetOf,
            getNode_setNodeLogged_same _ _ _ hr, hg]
        · rw [redirectTargetOf, redirectTargetOf,
            getNode_setNodeLogged_other _ _ _ _ hieq]
      · intro i d hi hn hin
        by_cases hieq : i = s.get_root_key v
        · subst hieq
          rw [hg] at hn
          cases hn
          rw [hin] at hni0
          exact Bool.noConfusion hni0
        · rw [getNode_setNodeLogged_other _ _ _ _ hieq]
          exact hn
      · intro i d hi hn hin
        by_cases hieq : i = s.get_root_key v
        · subst hieq
          rw [getNode_setNodeLogged_same _ _ _ hr] at hn
          cases hn
          rw [show ({ s.utable.probe v with content := c } : Descriptor).content = c
            from rfl] at hin
          rw [hin] at hc
          exact Bool.noConfusion hc
        · rw [getNode_setNodeLogged_other _ _ _ _ hieq] at hn
          exact hn
      · exact setNodeLogged_length _ _ _
    · apply esPreservesEq_utable_eq
      show s.utable.setNodeLogged _ _ = s.utable
      rw [UnificationTable.setNodeLogged, if_neg hr]

theorem esPreservesEq_arenas (s : Subs) (vs : List Var) (vss : List SubsSliceN) :
    esPreservesEq s { s with «variables» := vs, variable_slices := vss } :=
  esPreservesEq_utable_eq rfl

theorem esSliceInPlace_preservesEq
    {es : Subs → List Var → Var → Option (Var × Subs × List Var)}
    (hes : ∀ s sn w out, es s sn w = some out → esPreservesEq s out.2.1) :
    ∀ (idxs : List Nat) (s : Subs) (sn : List Var) (out : Subs × List Var),
      esSliceInPlace es s sn idxs = some out → esPreservesEq s out.1 := by
  intro idxs
  induction idxs with
  | nil =>
    intro s sn out h
    cases h
    exact esPreservesEq_refl s
  | cons i rest ih =>
    intro s sn out h
    simp only [esSliceInPlace, Bind.bind] at h
    rw [Option.bind_eq_some] at h
    obtain ⟨x, hx, h2⟩ := h
    obtain ⟨answer, s1, seen1⟩ := x
    have pih := ih _ _ _ h2
    exact esPreservesEq_trans (hes _ _ _ _ hx)
      (esPreservesEq_trans (esPreservesEq_arenas s1 (s1.«variables».set i answer)
        s1.variable_slices) pih)

theorem esVarsCollect_preservesEq
    {es : Subs → List Var → Var → Option (Var × Subs × List Var)}
    (hes : ∀ s sn w out, es s sn w = some out → esPreservesEq s out.2.1) :
    ∀ (idxs : List Nat) (s : Subs) (sn : List Var) (out : List Var × Subs × List Var),
      esVarsCollect es s sn idxs = some out → esPreservesEq s out.2.1 := by
  intro idxs
  induction idxs with
  | nil =>
    intro s sn out h
    cases h
    exact esPreservesEq_refl s
  | cons i rest ih =>
    intro s sn out h
    simp only [esVarsCollect, Bind.bind] at h
    rw [Option.bind_eq_some] at h
    obtain ⟨x, hx, h2⟩ := h
    obtain ⟨new_var, s1, seen1⟩ := x
    rw [Option.bind_eq_some] at h2
    obtain ⟨y, hy, h3⟩ := h2
    obtain ⟨restvs, s2, seen2⟩ := y
    have pih := ih _ _ _ hy
    cases h3
    exact esPreservesEq_trans (hes _ _ _ _ hx) pih

theorem esSlicesLoop_preservesEq
    {es : Subs → List Var → Var → Option (Var × Subs × List Var)}
    (hes : ∀ s sn w out, es s sn w = some out → esPreservesEq s out.2.1) :
    ∀ (idxs : List Nat) (s : Subs) (sn : List Var) (out : List SubsSliceN × Subs × List Var),
      esSlicesLoop es s sn idxs = some out → esPreservesEq s out.2.1 := by
  intro idxs
  induction idxs with
  | nil =>
    intro s sn out h
    cases h
    exact esPreservesEq_refl s
  | cons i rest ih =>
    intro s sn out h
    simp only [esSlicesLoop, Bind.bind] at h
    rw [Option.bind_eq_some] at h
    obtain ⟨x, hx, h2⟩ := h
    obtain ⟨new_variables, s1, seen1⟩ := x
    rw [Option.bind_eq_some] at h2
    obtain ⟨y, hy, h3⟩ := h2
    obtain ⟨restss, s3, seen3⟩ := y
    have pih := ih _ _ _ hy
    cases h3
    exact esPreservesEq_trans (esVarsCollect_preservesEq hes _ _ _ _ hx)
      (esPreservesEq_trans (esPreservesEq_arenas s1 (s1.«variables» ++ new_variables)
        s1.variable_slices) pih)

theorem esHelp_preservesEq (from_ to_ : Var) :
    ∀ fuel (s : Subs) (v : Var) (seen : List Var) (out : Var × Subs × List Var),
      explicitSubstituteHelp from_ to_ fuel s v seen = some out →
      esPreservesEq s out.2.1 := by
  intro fuel
  induction fuel with
  | zero =>
    intro s v seen out h
    exact absurd h (by simp [explicitSubstituteHelp])
  | succ f ih =>
    intro s v seen out h
    have hes : ∀ s1 sn w o, explicitSubstituteHelp from_ to_ f s1 w sn = some o →
        esPreservesEq s1 o.2.1 := fun s1 sn w o ho => ih s1 w sn o ho
    simp only [explicitSubstituteHelp, Bind.bind] at h
    by_cases h1 : seen.contains (s.get_root_key v) = true
    · rw [if_pos h1] at h
      cases h
      exact esPreservesEq_refl s
    · rw [if_neg h1] at h
      by_cases h2 : s.get_root_key from_ = s.get_root_key v
      · rw [if_pos h2] at h
        cases h
        exact esPreservesEq_refl s
      · rw [if_neg h2] at h
        cases hcon : s.getContent v with
        | flexVar _ => rw [hcon] at h; cases h; exact esPreservesEq_refl s
        | rigidVar _ => rw [hcon] at h; cases h; exact esPreservesEq_refl s
        | flexAbleVar _ _ => rw [hcon] at h; cases h; exact esPreservesEq_refl s
        | rigidAbleVar _ _ => rw [hcon] at h; cases h; exact esPreservesEq_refl s
        | recursionVar _ _ => rw [hcon] at h; cases h; exact esPreservesEq_refl s
        | error => rw [hcon] at h; cases h; exact esPreservesEq_refl s
        | struct ft =>
          rw [hcon] at h
          have hni : contentInert (s.getContent v) = false := by rw [hcon]; rfl
          cases ft with
          | apply symbol args =>
            rw [Option.bind_eq_some] at h
            obtain ⟨x, hx, h2x⟩ := h
            obtain ⟨s1, seen2⟩ := x
            cases h2x
            have p1 := esSliceInPlace_preservesEq hes _ _ _ _ hx
            exact esPreservesEq_trans p1 (esPreservesEq_set_content _ _ _
              (probe_noninert_of_esPreservesEq p1 hni) rfl)
          | func args cv rv =>
            rw [Option.bind_eq_some] at h
            obtain ⟨x, hx, h2x⟩ := h
            obtain ⟨s1, seen2⟩ := x
            rw [Option.bind_eq_some] at h2x
            obtain ⟨y, hy, h3x⟩ := h2x
            obtain ⟨nr, s2, seen3⟩ := y
            rw [Option.bind_eq_some] at h3x
            obtain ⟨z, hz, h4x⟩ := h3x
            obtain ⟨nc, s3, seen4⟩ := z
            cases h4x
            have p1 := esSliceInPlace_preservesEq hes _ _ _ _ hx
            have p2 := esPreservesEq_trans p1 (hes _ _ _ _ hy)
            have p3 := esPreservesEq_trans p2 (hes _ _ _ _ hz)
            exact esPreservesEq_trans p3 (esPreservesEq_set_content _ _ _
              (probe_noninert_of_esPreservesEq p3 hni) rfl)
          | tagUnion tags ext =>
            rw [Option.bind_eq_some] at h
            obtain ⟨x, hx, h2x⟩ := h
            obtain ⟨ne, s1, seen2⟩ := x
            rw [Option.bind_eq_some] at h2x
            obtain ⟨y, hy, h3x⟩ := h2x
            obtain ⟨nss, s2, seen3⟩ := y
            cases h3x
            have p1 := hes _ _ _ _ hx
            have p2 := esPreservesEq_trans p1 (esSlicesLoop_preservesEq hes _ _ _ _ hy)
            have p3 := esPreservesEq_trans p2 (esPreservesEq_utable_eq rfl)
            exact esPreservesEq_trans p3 (esPreservesEq_set_content _ _ _
              (probe_noninert_of_esPreservesEq p3 hni) rfl)
          | functionOrTagUnion tn sym ext =>
            rw [Option.bind_eq_some] at h
            obtain ⟨x, hx, h2x⟩ := h
            obtain ⟨ne, s1, seen2⟩ := x
            cases h2x
            have p1 := hes _ _ _ _ hx
            exact esPreservesEq_trans p1 (esPreservesEq_set_content _ _ _
              (probe_noninert_of_esPreservesEq p1 hni) rfl)
          | recursiveTagUnion rv tags ext =>
            rw [Option.bind_eq_some] at h
            obtain ⟨x, hx, h2x⟩ := h
            obtain ⟨ne, s1, seen2⟩ := x
            rw [Option.bind_eq_some] at h2x
            obtain ⟨y, hy, h3x⟩ := h2x
            obtain ⟨nss, s2, seen3⟩ := y
            cases h3x
            have p1 := hes _ _ _ _ hx
            have p2 := esPreservesEq_trans p1 (esSlicesLoop_preservesEq hes _ _ _ _ hy)
            have p3 := esPreservesEq_trans p2 (esPreservesEq_utable_eq rfl)
            exact esPreservesEq_trans p3 (esPreservesEq_set_content _ _ _
              (probe_noninert_of_esPreservesEq p3 hni) rfl)
          | record fields ext =>
            rw [Option.bind_eq_some] at h
            obtain ⟨x, hx, h2x⟩ := h
            obtain ⟨ne, s1, seen2⟩ := x
            rw [Option.bind_eq_some] at h2x
            obtain ⟨y, hy, h3x⟩ := h2x
            obtain ⟨s2, seen3⟩ := y
            cases h3x
            have p1 := hes _ _ _ _ hx
            have p2 := esPreservesEq_trans p1 (esSliceInPlace_preservesEq hes _ _ _ _ hy)
            exact esPreservesEq_trans p2 (esPreservesEq_set_content _ _ _
              (probe_noninert_of_esPreservesEq p2 hni) rfl)
          | erroneous _ => cases h; exact esPreservesEq_refl s
          | emptyRecord => cases h; exact esPreservesEq_refl s
          | emptyTagUnion => cases h; exact esPreservesEq_refl s
        | «alias» sym args rv kind =>
          rw [hcon] at h
          have hni : contentInert (s.getContent v) = false := by rw [hcon]; rfl
          rw [Option.bind_eq_some] at h
          obtain ⟨x, hx, h2x⟩ := h
          obtain ⟨s1, seen2⟩ := x
          rw [Option.bind_eq_some] at h2x
          obtain ⟨y, hy, h3x⟩ := h2x
          obtain ⟨na, s2, seen3⟩ := y
          cases h3x
          have p1 := esSliceInPlace_preservesEq hes _ _ _ _ hx
          have p2 := esPreservesEq_trans p1 (hes _ _ _ _ hy)
          exact esPreservesEq_trans p2 (esPreservesEq_set_content _ _ _
            (probe_noninert_of_esPreservesEq p2 hni) rfl)
        | rangedNumber typ rvs =>
          rw [hcon] at h
          have hni : contentInert (s.getContent v) = false := by rw [hcon]; rfl
          rw [Option.bind_eq_some] at h
          obtain ⟨x, hx, h2x⟩ := h
          obtain ⟨s1, seen2⟩ := x
          rw [Option.bind_eq_some] at h2x
          obtain ⟨y, hy, h3x⟩ := h2x
          obtain ⟨nt, s2, seen3⟩ := y
          cases h3x
          have p1 := esSliceInPlace_preservesEq hes _ _ _ _ hx
          have p2 := esPreservesEq_trans p1 (hes _ _ _ _ hy)
          exact esPreservesEq_trans p2 (esPreservesEq_set_content _ _ _
            (probe_noninert_of_esPreservesEq p2 hni) rfl)

theorem explicit_substitute_preservesEq (s : Subs) (a b c : Var)
    (out : Var × Subs) (h : s.explicit_substitute a b c = some out) :
    esPreservesEq s out.2 := by
  rw [Subs.explicit_substitute] at h
  simp only [Bind.bind] at h
  rw [Option.bind_eq_some] at h
  obtain ⟨x, hx, h2⟩ := h
  obtain ⟨answer, s1, seen1⟩ := x
  cases h2
  exact esHelp_preservesEq _ _ _ _ _ _ _ hx

theorem rootOf_root {t : UnificationTable} {i : Var} (h : t.isRoot i = true) :
    t.rootOf i = i :=
  rootAux_of_chain (RedirectChain.root h) _ (by omega)

theorem getNode_newKey_old {t : UnificationTable} {i : Nat} (h : i < t.nodes.length)
    (d : Descriptor) : (t.newKey d).getNode i = t.getNode i := by
  unfold UnificationTable.newKey UnificationTable.getNode
  simp only [List.getD_eq_getElem?_getD]
  rw [List.getElem?_append, if_pos h]

theorem getNode_newKey_last (t : UnificationTable) (d : Descriptor) :
    (t.newKey d).getNode t.nodes.length = UFNode.root d := by
  unfold UnificationTable.newKey UnificationTable.getNode
  simp only [List.getD_eq_getElem?_getD]
  rw [List.getElem?_concat_length]
  rfl

theorem isRoot_newKey {t : UnificationTable} {r : Var} (h : t.isRoot r = true)
    (d : Descriptor) : (t.newKey d).isRoot r = true := by
  by_cases hr : r < t.nodes.length
  · rw [UnificationTable.isRoot, getNode_newKey_old hr]
    rw [UnificationTable.isRoot] at h
    exact h
  · by_cases he : r = t.nodes.length
    · subst he
      rw [UnificationTable.isRoot, getNode_newKey_last]
    · have hge : t.nodes.length + 1 ≤ r :=
        Nat.lt_of_le_of_ne (Nat.le_of_not_lt hr) (fun hh => he hh.symm)
      have hnone : (t.newKey d).nodes[r]? = none := by
        apply List.getElem?_eq_none
        show (t.nodes ++ [UFNode.root d]).length ≤ r
        rw [List.length_append, List.length_singleton]
        exact hge
      have : (t.newKey d).getNode r = UFNode.root flex_var_descriptor := by
        rw [UnificationTable.getNode, List.getD_eq_getElem?_getD, hnone]
        rfl
      rw [UnificationTable.isRoot, this]

theorem chain_newKey {t : UnificationTable} {v r : Var} {k : Nat}
    (h : RedirectChain t v r k) (d : Descriptor) : RedirectChain (t.newKey d) v r k := by
  induction h with
  | root h0 => exact RedirectChain.root (isRoot_newKey h0 d)
  | step hred _ ih =>
    exact RedirectChain.step (by rw [getNode_newKey_old (getNode_redirect_lt hred)]; exact hred) ih

theorem redirectTarget_some_getNode {t : UnificationTable} {i : Nat} {w : Var}
    (h : redirectTargetOf t i = some w) : t.getNode i = UFNode.redirect w := by
  rw [redirectTargetOf] at h
  cases hg : t.getNode i with
  | root d => rw [hg] at h; exact Option.noConfusion h
  | redirect w' => rw [hg] at h; cases h; rfl

theorem redirectTarget_none_isRoot {t : UnificationTable} {i : Nat}
    (h : redirectTargetOf t i = none) : t.isRoot i = true := by
  rw [redirectTargetOf] at h
  cases hg : t.getNode i with
  | root d => rw [UnificationTable.isRoot, hg]
  | redirect w' => rw [hg] at h; exact Option.noConfusion h

theorem chain_of_esPreservesEq {s s' : Subs} (h : esPreservesEq s s') {v r : Var} {k : Nat}
    (hch : RedirectChain s.utable v r k) (hr : r < s.utable.nodes.length) :
    RedirectChain s'.utable v r k := by
  obtain ⟨⟨hle, htar, hf, hb⟩, hlen⟩ := h
  induction hch with
  | root h0 =>
    apply RedirectChain.root
    apply redirectTarget_none_isRoot
    rw [htar _ hr, redirectTargetOf]
    obtain ⟨d, hd⟩ := (isRoot_iff _ _).mp h0
    rw [hd]
  | @step v w rr kk hred hch2 ih =>
    refine RedirectChain.step ?_ (ih hr)
    apply redirectTarget_some_getNode
    rw [htar _ (getNode_redirect_lt hred), redirectTargetOf, hred]

theorem updateRoot_getNode {t : UnificationTable} {i : Var} {d0 : Descriptor}
    (hg : t.getNode i = UFNode.root d0) (hlt : i < t.nodes.length) (d : Descriptor) :
    (t.updateRoot i d).getNode i = UFNode.root d
    ∧ (∀ j, j ≠ i → (t.updateRoot i d).getNode j = t.getNode j)
    ∧ (t.updateRoot i d).nodes.length = t.nodes.length := by
  rw [UnificationTable.updateRoot, hg]
  exact ⟨getNode_setNodeLogged_same _ _ _ hlt,
    fun j hj => getNode_setNodeLogged_other _ _ _ _ hj,
    setNodeLogged_length _ _ _⟩

theorem newKey_length (t : UnificationTable) (d : Descriptor) :
    (t.newKey d).nodes.length = t.nodes.length + 1 := by
  rw [UnificationTable.newKey]
  simp [List.length_append]

theorem getNode_newKey_other {t : UnificationTable} {j : Nat} (h : j ≠ t.nodes.length)
    (d : Descriptor) : (t.newKey d).getNode j = t.getNode j := by
  rcases Nat.lt_or_ge j t.nodes.length with hlt | hge
  · exact getNode_newKey_old hlt d
  · have hgt : t.nodes.length + 1 ≤ j := Nat.lt_of_le_of_ne hge (fun hh => h hh.symm)
    rw [UnificationTable.getNode, UnificationTable.getNode,
      List.getD_eq_getElem?_getD, List.getD_eq_getElem?_getD]
    have h1 : (t.newKey d).nodes[j]? = none := by
      apply List.getElem?_eq_none
      show (t.nodes ++ [UFNode.root d]).length ≤ j
      rw [List.length_append, List.length_singleton]
      exact hgt
    have h2 : t.nodes[j]? = none := List.getElem?_eq_none (by omega)
    rw [h1, h2]

theorem isRoot_congr {t1 t2 : UnificationTable} {i : Nat}
    (h : t2.getNode i = t1.getNode i) : t2.isRoot i = t1.isRoot i := by
  rw [UnificationTable.isRoot, UnificationTable.isRoot, h]

theorem set_rank_at_root {s : Subs} {i : Var} {d : Descriptor}
    (hg : s.utable.getNode i = UFNode.root d) (hlt : i < s.utable.nodes.length) (r : Rank) :
    (s.set_rank i r).utable.getNode i = UFNode.root { d with rank := r }
    ∧ (∀ j, j ≠ i → (s.set_rank i r).utable.getNode j = s.utable.getNode j)
    ∧ (s.set_rank i r).utable.nodes.length = s.utable.nodes.length := by
  have hroot : s.utable.isRoot i = true := by rw [UnificationTable.isRoot, hg]
  have hro : s.utable.rootOf i = i := rootOf_root hroot
  have hprobe : s.utable.probe i = d := by rw [UnificationTable.probe, hro, hg]
  rw [Subs.set_rank]
  simp only [Subs.get_root_key, hro, hprobe]
  exact updateRoot_getNode hg hlt _

theorem set_content_at_root {s : Subs} {i : Var} {d : Descriptor}
    (hg : s.utable.getNode i = UFNode.root d) (hlt : i < s.utable.nodes.length) (c : Content) :
    (s.set_content i c).utable.getNode i = UFNode.root { d with content := c }
    ∧ (∀ j, j ≠ i → (s.set_content i c).utable.getNode j = s.utable.getNode j)
    ∧ (s.set_content i c).utable.nodes.length = s.utable.nodes.length := by
  have hroot : s.utable.isRoot i = true := by rw [UnificationTable.isRoot, hg]
  have hro : s.utable.rootOf i = i := rootOf_root hroot
  have hprobe : s.utable.probe i = d := by rw [UnificationTable.probe, hro, hg]
  rw [Subs.set_content]
  simp only [Subs.get_root_key, hro, hprobe]
  exact updateRoot_getNode hg hlt _

theorem set_content_via_chain {s : Subs} {v r0 : Var} {k0 : Nat}
    (hch : RedirectChain s.utable v r0 k0) (hk : k0 ≤ s.utable.len)
    (hlt : r0 < s.utable.nodes.length) (c : Content) :
    (s.set_content v c).utable.getNode r0
        = UFNode.root { s.utable.probe v with content := c }
    ∧ (∀ j, j ≠ r0 → (s.set_content v c).utable.getNode j = s.utable.getNode j)
    ∧ (s.set_content v c).utable.nodes.length = s.utable.nodes.length := by
  have hro : s.utable.rootOf v = r0 := rootAux_of_chain hch _ hk
  obtain ⟨dr, hdr⟩ := (isRoot_iff _ _).mp (chain_root_isRoot hch)
  rw [Subs.set_content]
  simp only [Subs.get_root_key, hro]
  exact updateRoot_getNode hdr hlt _

theorem getContent_of_root_node {s : Subs} {v : Var} {d : Descriptor}
    (hg : s.utable.getNode v = UFNode.root d) : s.getContent v = d.content := by
  have hroot : s.utable.isRoot v = true := by rw [UnificationTable.isRoot, hg]
  rw [Subs.getContent, probe_of_root (rootOf_root hroot) hg]

theorem getDesc_via_chain {s : Subs} {v r0 : Var} {k0 : Nat} {d : Descriptor}
    (hch : RedirectChain s.utable v r0 k0) (hk : k0 ≤ s.utable.len)
    (hg : s.utable.getNode r0 = UFNode.root d) : s.getDesc v = d :=
  probe_of_root (rootAux_of_chain hch _ hk) hg

/-! ### Generic facts about arena reads and single descriptor writes, shared by
the substitution and copy analyses. -/

theorem getD_set_eq {α : Type} : ∀ (l : List α) (i : Nat) (a d : α), i < l.length →
    (l.set i a).getD i d = a := by
  intro l
  induction l with
  | nil => intro i a d h; simp at h
  | cons x t ih =>
    intro i a d h
    cases i with
    | zero => rfl
    | succ j =>
      show (t.set j a).getD j d = a
      exact ih j a d (by simpa using h)

theorem getD_set_ne {α : Type} : ∀ (l : List α) {i p : Nat} (a d : α), i ≠ p →
    (l.set i a).getD p d = l.getD p d := by
  intro l
  induction l with
  | nil => intro i p a d _; rfl
  | cons x t ih =>
    intro i p a d h
    cases i with
    | zero =>
      cases p with
      | zero => exact absurd rfl h
      | succ q => rfl
    | succ j =>
      cases p with
      | zero => rfl
      | succ q =>
        show (t.set j a).getD q d = t.getD q d
        exact ih a d (fun hh => h (by rw [hh]))

theorem getD_append_left {α : Type} (l m : List α) (p : Nat) (d : α) (h : p < l.length) :
    (l ++ m).getD p d = l.getD p d := by
  rw [List.getD_eq_getElem?_getD, List.getD_eq_getElem?_getD, List.getElem?_append,
    if_pos h]

theorem getD_append_length {α : Type} (l : List α) (x d : α) :
    (l ++ [x]).getD l.length d = x := by
  rw [List.getD_eq_getElem?_getD, List.getElem?_concat_length]
  rfl

theorem u16cast_le (n : Nat) : u16cast n ≤ n := Nat.mod_le n 65536

theorem u16cast_idem (n : Nat) : u16cast (u16cast n) = u16cast n := by
  unfold u16cast
  omega

theorem mem_indicesList_lt {sl : SubsSliceN} {i : Nat} (h : i ∈ sl.indicesList) :
    i < sl.start + sl.length := by
  rw [SubsSliceN.indicesList] at h
  obtain ⟨k, hk, hik⟩ := List.mem_map.mp h
  rw [List.mem_range] at hk
  omega

theorem getDesc_congr {s s' : Subs} {v w : Var}
    (hroot : s'.utable.rootOf v = s.utable.rootOf w)
    (hnode : s'.utable.getNode (s.utable.rootOf w) = s.utable.getNode (s.utable.rootOf w)) :
    s'.getDesc v = s.getDesc w := by
  rw [Subs.getDesc, Subs.getDesc, UnificationTable.probe, UnificationTable.probe,
    hroot, hnode]

theorem set_rootOf_all (s : Subs) (v : Var) (d : Descriptor) (w : Var) :
    (s.set v d).utable.rootOf w = s.utable.rootOf w := by
  cases hg : s.utable.getNode (s.utable.rootOf v) with
  | redirect u =>
    have hU : (s.set v d).utable = s.utable := by
      show s.utable.updateRoot (s.utable.rootOf v) d = s.utable
      rw [UnificationTable.updateRoot, hg]
    rw [hU]
  | root d0 =>
    by_cases hr : s.utable.rootOf v < s.utable.nodes.length
    · obtain ⟨hsame, hother, hlen⟩ := updateRoot_getNode hg hr d
      have htar : ∀ i, i < s.utable.nodes.length →
          redirectTargetOf (s.set v d).utable i = redirectTargetOf s.utable i := by
        intro i hi
        by_cases hiv : i = s.utable.rootOf v
        · subst hiv
          have h1 : (s.set v d).utable.getNode (s.utable.rootOf v) = UFNode.root d :=
            hsame
          rw [redirectTargetOf, redirectTargetOf, h1, hg]
        · have h2 : (s.set v d).utable.getNode i = s.utable.getNode i := hother i hiv
          rw [redirectTargetOf, redirectTargetOf, h2]
      have hlen2 : (s.set v d).utable.nodes.length = s.utable.nodes.length := hlen
      show ((s.set v d).utable).rootAux ((s.set v d).utable).len w
        = (s.utable).rootAux (s.utable).len w
      have hlen3 : ((s.set v d).utable).len = (s.utable).len := hlen2
      rw [hlen3]
      exact rootAux_eq_of_targets hlen2 htar _ w
    · have hU : (s.set v d).utable = s.utable := by
        show s.utable.updateRoot (s.utable.rootOf v) d = s.utable
        rw [UnificationTable.updateRoot, hg, UnificationTable.setNodeLogged, if_neg hr]
      rw [hU]

theorem set_spec (s : Subs) (v : Var) (d : Descriptor) :
    (s.set v d = s ∧ (s.getDesc v).copy = 0)
    ∨ ((∀ w, (s.set v d).getDesc w
          = if s.utable.rootOf w = s.utable.rootOf v then d else s.getDesc w)
       ∧ ∀ w, s.utable.rootOf w = s.utable.rootOf v → s.getDesc w = s.getDesc v) := by
  cases hg : s.utable.getNode (s.utable.rootOf v) with
  | redirect u =>
    left
    constructor
    · have hU : s.utable.updateRoot (s.utable.rootOf v) d = s.utable := by
        rw [UnificationTable.updateRoot, hg]
      show { s with utable := s.utable.updateRoot (s.get_root_key v) d } = s
      rw [show s.get_root_key v = s.utable.rootOf v from rfl, hU]
    · show (s.utable.probe v).copy = 0
      rw [UnificationTable.probe, hg]
      rfl
  | root d0 =>
    by_cases hr : s.utable.rootOf v < s.utable.nodes.length
    · right
      obtain ⟨hsame, hother, _⟩ := updateRoot_getNode hg hr d
      have hroots : ∀ u, (s.set v d).utable.rootOf u = s.utable.rootOf u :=
        fun u => set_rootOf_all s v d u
      constructor
      · intro w
        by_cases hw : s.utable.rootOf w = s.utable.rootOf v
        · rw [if_pos hw]
          have h1 : (s.set v d).utable.rootOf w = s.utable.rootOf v := by
            rw [hroots w, hw]
          exact probe_of_root h1 hsame
        · rw [if_neg hw]
          exact getDesc_congr (hroots w) (hother _ hw)
      · intro w hw
        exact getDesc_congr hw rfl
    · left
      have hd0 : s.utable.getNode (s.utable.rootOf v) = UFNode.root flex_var_descriptor := by
        rw [UnificationTable.getNode, List.getD_eq_getElem?_getD,
          List.getElem?_eq_none (Nat.le_of_not_lt hr)]
        rfl
      constructor
      · have hU : s.utable.updateRoot (s.utable.rootOf v) d = s.utable := by
          rw [UnificationTable.updateRoot, hg, UnificationTable.setNodeLogged, if_neg hr]
        show { s with utable := s.utable.updateRoot (s.get_root_key v) d } = s
        rw [show s.get_root_key v = s.utable.rootOf v from rfl, hU]
      · rw [hg] at hd0
        cases hd0
        show (s.utable.probe v).copy = 0
        rw [UnificationTable.probe, hg]
        rfl

theorem set_spec_resolves {s : Subs} {v : Var} (hres : resolves s v) (d : Descriptor) :
    (∀ w, (s.set v d).getDesc w
        = if s.utable.rootOf w = s.utable.rootOf v then d else s.getDesc w)
    ∧ ∀ w, s.utable.rootOf w = s.utable.rootOf v → s.getDesc w = s.getDesc v := by
  obtain ⟨hroot, hr⟩ := hres
  obtain ⟨d0, hg⟩ := (isRoot_iff _ _).mp hroot
  obtain ⟨hsame, hother, _⟩ := updateRoot_getNode hg hr d
  have hroots : ∀ u, (s.set v d).utable.rootOf u = s.utable.rootOf u :=
    fun u => set_rootOf_all s v d u
  constructor
  · intro w
    by_cases hw : s.utable.rootOf w = s.utable.rootOf v
    · rw [if_pos hw]
      have h1 : (s.set v d).utable.rootOf w = s.utable.rootOf v := by
        rw [hroots w, hw]
      exact probe_of_root h1 hsame
    · rw [if_neg hw]
      exact getDesc_congr (hroots w) (hother _ hw)
  · intro w hw
    exact getDesc_congr hw rfl

theorem set_content_eq_set (s : Subs) (v : Var) (c : Content) :
    s.set_content v c = s.set v { s.getDesc v with content := c } := rfl

theorem set_getDesc_of_copy_ne {s : Subs} {v : Var} (h0 : (s.getDesc v).copy = 0)
    (d : Descriptor) {w : Var} (hw : (s.getDesc w).copy ≠ 0) :
    (s.set v d).getDesc w = s.getDesc w := by
  rcases set_spec s v d with ⟨heq, _⟩ | ⟨hdesc, hsame⟩
  · rw [heq]
  · rw [hdesc w]
    by_cases hr : s.utable.rootOf w = s.utable.rootOf v
    · exfalso
      rw [hsame w hr, h0] at hw
      exact hw rfl
    · rw [if_neg hr]

theorem isRoot_of_esPreservesEq {s s' : Subs} (hpe : esPreservesEq s s') {i : Var}
    (h : s.utable.isRoot i = true) : s'.utable.isRoot i = true := by
  obtain ⟨⟨_, htar, _, _⟩, hlen⟩ := hpe
  by_cases hi : i < s.utable.nodes.length
  · have h2 : redirectTargetOf s.utable i = none := by
      rw [redirectTargetOf]
      obtain ⟨d, hd⟩ := (isRoot_iff _ _).mp h
      rw [hd]
    exact redirectTarget_none_isRoot (by rw [htar i hi, h2])
  · have hdef : s'.utable.getNode i = UFNode.root flex_var_descriptor := by
      rw [UnificationTable.getNode, List.getD_eq_getElem?_getD,
        List.getElem?_eq_none (by rw [hlen]; exact Nat.le_of_not_lt hi)]
      rfl
    rw [UnificationTable.isRoot, hdef]

/-! ### In-place bounds and the frozen-region invariant of `explicit_substitute`. -/

theorem contentsBounded_of_nodes {N : Nat} {s : Subs}
    (h : ∀ i, i < s.utable.nodes.length → nodeInPlaceEnd s.utable i ≤ N) :
    contentsBounded N s := by
  intro v
  cases hg : s.utable.getNode (s.utable.rootOf v) with
  | redirect u =>
    have hd : s.getDesc v = flex_var_descriptor := by
      show s.utable.probe v = _
      rw [UnificationTable.probe, hg]
    show inPlaceEnd (s.getDesc v).content ≤ N
    rw [hd]
    exact Nat.zero_le N
  | root d =>
    have hdv : s.getDesc v = d := probe_of_root rfl hg
    by_cases hr : s.utable.rootOf v < s.utable.nodes.length
    · have hbi := h _ hr
      rw [nodeInPlaceEnd, hg] at hbi
      show inPlaceEnd (s.getDesc v).content ≤ N
      rw [hdv]
      exact hbi
    · have hdef : s.utable.getNode (s.utable.rootOf v) = UFNode.root flex_var_descriptor := by
        rw [UnificationTable.getNode, List.getD_eq_getElem?_getD,
          List.getElem?_eq_none (Nat.le_of_not_lt hr)]
        rfl
      rw [hdef] at hg
      cases hg
      show inPlaceEnd (s.getDesc v).content ≤ N
      rw [hdv]
      exact Nat.zero_le N

theorem nodes_bounded_of_contents {N : Nat} {s : Subs} (hb : contentsBounded N s) :
    ∀ i, i < s.utable.nodes.length → nodeInPlaceEnd s.utable i ≤ N := by
  intro i _
  rw [nodeInPlaceEnd]
  cases hg : s.utable.getNode i with
  | redirect w => exact Nat.zero_le N
  | root d =>
    have hc : s.getContent i = d.content := getContent_of_root_node hg
    have hbi := hb i
    rw [hc] at hbi
    exact hbi

theorem contentsBounded_utable_eq {N : Nat} {s s' : Subs} (hu : s'.utable = s.utable)
    (hb : contentsBounded N s) : contentsBounded N s' := by
  intro v
  have he : s'.getContent v = s.getContent v := by
    show (s'.utable.probe v).content = (s.utable.probe v).content
    rw [hu]
  show inPlaceEnd (s'.getContent v) ≤ N
  rw [he]
  exact hb v

theorem contentsBounded_set_content {N : Nat} {s : Subs} (hb : contentsBounded N s)
    (v : Var) {c : Content} (hc : inPlaceEnd c ≤ N) :
    contentsBounded N (s.set_content v c) := by
  rw [set_content_eq_set]
  rcases set_spec s v { s.getDesc v with content := c } with ⟨heq, _⟩ | ⟨hdesc, _⟩
  · rw [heq]
    exact hb
  · intro w
    show inPlaceEnd ((s.set v _).getDesc w).content ≤ N
    rw [hdesc w]
    by_cases hr : s.utable.rootOf w = s.utable.rootOf v
    · rw [if_pos hr]
      exact hc
    · rw [if_neg hr]
      exact hb w

theorem esFrozen_refl {N : Nat} (s : Subs) : esFrozen N s s :=
  ⟨Nat.le_refl _, fun _ _ _ => rfl, Nat.le_refl _, fun _ _ => rfl⟩

theorem esFrozen_trans {N : Nat} {s1 s2 s3 : Subs} (h12 : esFrozen N s1 s2)
    (h23 : esFrozen N s2 s3) : esFrozen N s1 s3 := by
  obtain ⟨l12, f12, sl12, g12⟩ := h12
  obtain ⟨l23, f23, sl23, g23⟩ := h23
  refine ⟨Nat.le_trans l12 l23, ?_, Nat.le_trans sl12 sl23, ?_⟩
  · intro p hN hp
    rw [f23 p hN (Nat.lt_of_lt_of_le hp l12), f12 p hN hp]
  · intro q hq
    rw [g23 q (Nat.lt_of_lt_of_le hq sl12), g12 q hq]

theorem esFrozen_arenas_eq {N : Nat} {s s' : Subs} (hv : s'.«variables» = s.«variables»)
    (hs : s'.variable_slices = s.variable_slices) : esFrozen N s s' :=
  ⟨by rw [hv], fun p _ _ => by rw [hv], by rw [hs], fun q _ => by rw [hs]⟩

theorem esFrozen_vars_set {N : Nat} (s : Subs) {i : Nat} (hi : i < N) (a : Var) :
    esFrozen N s { s with «variables» := s.«variables».set i a } := by
  refine ⟨by rw [List.length_set], ?_, Nat.le_refl _, fun q _ => rfl⟩
  intro p hN hp
  show (s.«variables».set i a).getD p 0 = s.«variables».getD p 0
  have hne : i ≠ p := by omega
  exact getD_set_ne _ _ _ hne

theorem esFrozen_vars_append {N : Nat} (s : Subs) (l : List Var) :
    esFrozen N s { s with «variables» := s.«variables» ++ l } := by
  refine ⟨?_, ?_, Nat.le_refl _, fun q _ => rfl⟩
  · show s.«variables».length ≤ (s.«variables» ++ l).length
    rw [List.length_append]
    exact Nat.le_add_right _ _
  · intro p _ hp
    show (s.«variables» ++ l).getD p 0 = s.«variables».getD p 0
    exact getD_append_left _ _ _ _ hp

theorem esFrozen_slices_append {N : Nat} (s : Subs) (l : List SubsSliceN) :
    esFrozen N s { s with variable_slices := s.variable_slices ++ l } := by
  refine ⟨Nat.le_refl _, fun p _ _ => rfl, ?_, ?_⟩
  · show s.variable_slices.length ≤ (s.variable_slices ++ l).length
    rw [List.length_append]
    exact Nat.le_add_right _ _
  · intro q hq
    show (s.variable_slices ++ l).getD q ⟨0, 0⟩ = s.variable_slices.getD q ⟨0, 0⟩
    exact getD_append_left _ _ _ _ hq

theorem esHelp_top_ret (from_ to_ : Var) (fuel : Nat) (s : Subs) (v : Var)
    (out : Var × Subs × List Var)
    (h : explicitSubstituteHelp from_ to_ (fuel + 1) s v [] = some out) :
    (s.get_root_key from_ = s.get_root_key v ∧ out.1 = to_)
    ∨ (s.get_root_key from_ ≠ s.get_root_key v ∧ out.1 = v) := by
  simp only [explicitSubstituteHelp, Bind.bind] at h
  have hc : ¬ (([] : List Var).contains (s.get_root_key v) = true) :=
    fun hh => Bool.noConfusion (show false = true from hh)
  rw [if_neg hc] at h
  by_cases h2 : s.get_root_key from_ = s.get_root_key v
  · rw [if_pos h2] at h
    cases h
    exact Or.inl ⟨h2, rfl⟩
  · rw [if_neg h2] at h
    refine Or.inr ⟨h2, ?_⟩
    cases hcon : s.getContent v with
    | flexVar _ => rw [hcon] at h; cases h; rfl
    | rigidVar _ => rw [hcon] at h; cases h; rfl
    | flexAbleVar _ _ => rw [hcon] at h; cases h; rfl
    | rigidAbleVar _ _ => rw [hcon] at h; cases h; rfl
    | recursionVar _ _ => rw [hcon] at h; cases h; rfl
    | error => rw [hcon] at h; cases h; rfl
    | struct ft =>
      rw [hcon] at h
      cases ft with
      | apply symbol args =>
        rw [Option.bind_eq_some] at h
        obtain ⟨x, hx, h2x⟩ := h
        obtain ⟨s1, seen2⟩ := x
        cases h2x
        rfl
      | func args cv rv =>
        rw [Option.bind_eq_some] at h
        obtain ⟨x, hx, h2x⟩ := h
        obtain ⟨s1, seen2⟩ := x
        rw [Option.bind_eq_some] at h2x
        obtain ⟨y, hy, h3x⟩ := h2x
        obtain ⟨nr, s2, seen3⟩ := y
        rw [Option.bind_eq_some] at h3x
        obtain ⟨z, hz, h4x⟩ := h3x
        obtain ⟨nc, s3, seen4⟩ := z
        cases h4x
        rfl
      | tagUnion tags ext =>
        rw [Option.bind_eq_some] at h
        obtain ⟨x, hx, h2x⟩ := h
        obtain ⟨ne, s1, seen2⟩ := x
        rw [Option.bind_eq_some] at h2x
        obtain ⟨y, hy, h3x⟩ := h2x
        obtain ⟨nss, s2, seen3⟩ := y
        cases h3x
        rfl
      | functionOrTagUnion tn sym ext =>
        rw [Option.bind_eq_some] at h
        obtain ⟨x, hx, h2x⟩ := h
        obtain ⟨ne, s1, seen2⟩ := x
        cases h2x
        rfl
      | recursiveTagUnion rv tags ext =>
        rw [Option.bind_eq_some] at h
        obtain ⟨x, hx, h2x⟩ := h
        obtain ⟨ne, s1, seen2⟩ := x
        rw [Option.bind_eq_some] at h2x
        obtain ⟨y, hy, h3x⟩ := h2x
        obtain ⟨nss, s2, seen3⟩ := y
        cases h3x
        rfl
      | record fields ext =>
        rw [Option.bind_eq_some] at h
        obtain ⟨x, hx, h2x⟩ := h
        obtain ⟨ne, s1, seen2⟩ := x
        rw [Option.bind_eq_some] at h2x
        obtain ⟨y, hy, h3x⟩ := h2x
        obtain ⟨s2, seen3⟩ := y
        cases h3x
        rfl
      | erroneous _ => cases h; rfl
      | emptyRecord => cases h; rfl
      | emptyTagUnion => cases h; rfl
    | «alias» sym args rv kind =>
      rw [hcon] at h
      rw [Option.bind_eq_some] at h
      obtain ⟨x, hx, h2x⟩ := h
      obtain ⟨s1, seen2⟩ := x
      rw [Option.bind_eq_some] at h2x
      obtain ⟨y, hy, h3x⟩ := h2x
      obtain ⟨na, s2, seen3⟩ := y
      cases h3x
      rfl
    | rangedNumber typ rvs =>
      rw [hcon] at h
      rw [Option.bind_eq_some] at h
      obtain ⟨x, hx, h2x⟩ := h
      obtain ⟨s1, seen2⟩ := x
      rw [Option.bind_eq_some] at h2x
      obtain ⟨y, hy, h3x⟩ := h2x
      obtain ⟨nt, s2, seen3⟩ := y
      cases h3x
      rfl

theorem explicit_substitute_ret (s : Subs) (a b c : Var) (out : Var × Subs)
    (h : s.explicit_substitute a b c = some out) :
    (s.get_root_key (s.get_root_key a) = s.get_root_key (s.get_root_key c)
      ∧ out.1 = s.get_root_key b)
    ∨ (s.get_root_key (s.get_root_key a) ≠ s.get_root_key (s.get_root_key c)
      ∧ out.1 = s.get_root_key c) := by
  rw [Subs.explicit_substitute] at h
  simp only [Bind.bind] at h
  rw [Option.bind_eq_some] at h
  obtain ⟨x, hx, heq⟩ := h
  obtain ⟨answer, s1, seenF⟩ := x
  cases heq
  exact esHelp_top_ret (s.get_root_key a) (s.get_root_key b) (s.len + 1) s
    (s.get_root_key c) _ hx

theorem esSliceInPlace_frozen {N : Nat}
    {es : Subs → List Var → Var → Option (Var × Subs × List Var)}
    (hes : ∀ s sn w out, es s sn w = some out → contentsBounded N s →
      contentsBounded N out.2.1 ∧ esFrozen N s out.2.1) :
    ∀ (idxs : List Nat) (s : Subs) (sn : List Var) (out : Subs × List Var),
      (∀ i, i ∈ idxs → i < N) → contentsBounded N s →
      esSliceInPlace es s sn idxs = some out →
      contentsBounded N out.1 ∧ esFrozen N s out.1 := by
  intro idxs
  induction idxs with
  | nil =>
    intro s sn out _ hb h
    cases h
    exact ⟨hb, esFrozen_refl s⟩
  | cons i rest ih =>
    intro s sn out hidx hb h
    simp only [esSliceInPlace, Bind.bind] at h
    rw [Option.bind_eq_some] at h
    obtain ⟨x, hx, h2⟩ := h
    obtain ⟨answer, s1, seen1⟩ := x
    obtain ⟨hb1, hf1⟩ := hes _ _ _ _ hx hb
    have hb2 : contentsBounded N ({ s1 with «variables» := s1.«variables».set i answer }) :=
      contentsBounded_utable_eq rfl hb1
    have hf2 : esFrozen N s1 ({ s1 with «variables» := s1.«variables».set i answer }) :=
      esFrozen_vars_set s1 (hidx i (List.mem_cons_self i rest)) answer
    obtain ⟨hb3, hf3⟩ := ih _ _ _ (fun j hj => hidx j (List.mem_cons_of_mem i hj)) hb2 h2
    exact ⟨hb3, esFrozen_trans hf1 (esFrozen_trans hf2 hf3)⟩

theorem esVarsCollect_frozen {N : Nat}
    {es : Subs → List Var → Var → Option (Var × Subs × List Var)}
    (hes : ∀ s sn w out, es s sn w = some out → contentsBounded N s →
      contentsBounded N out.2.1 ∧ esFrozen N s out.2.1) :
    ∀ (idxs : List Nat) (s : Subs) (sn : List Var) (out : List Var × Subs × List Var),
      contentsBounded N s →
      esVarsCollect es s sn idxs = some out →
      contentsBounded N out.2.1 ∧ esFrozen N s out.2.1 := by
  intro idxs
  induction idxs with
  | nil =>
    intro s sn out hb h
    cases h
    exact ⟨hb, esFrozen_refl s⟩
  | cons i rest ih =>
    intro s sn out hb h
    simp only [esVarsCollect, Bind.bind] at h
    rw [Option.bind_eq_some] at h
    obtain ⟨x, hx, h2⟩ := h
    obtain ⟨new_var, s1, seen1⟩ := x
    rw [Option.bind_eq_some] at h2
    obtain ⟨y, hy, h3⟩ := h2
    obtain ⟨restvs, s2, seen2⟩ := y
    obtain ⟨hb1, hf1⟩ := hes _ _ _ _ hx hb
    obtain ⟨hb2, hf2⟩ := ih _ _ _ hb1 hy
    cases h3
    exact ⟨hb2, esFrozen_trans hf1 hf2⟩

theorem esSlicesLoop_frozen {N : Nat}
    {es : Subs → List Var → Var → Option (Var × Subs × List Var)}
    (hes : ∀ s sn w out, es s sn w = some out → contentsBounded N s →
      contentsBounded N out.2.1 ∧ esFrozen N s out.2.1) :
    ∀ (idxs : List Nat) (s : Subs) (sn : List Var) (out : List SubsSliceN × Subs × List Var),
      contentsBounded N s →
      esSlicesLoop es s sn idxs = some out →
      contentsBounded N out.2.1 ∧ esFrozen N s out.2.1 := by
  intro idxs
  induction idxs with
  | nil =>
    intro s sn out hb h
    cases h
    exact ⟨hb, esFrozen_refl s⟩
  | cons i rest ih =>
    intro s sn out hb h
    simp only [esSlicesLoop, Bind.bind] at h
    rw [Option.bind_eq_some] at h
    obtain ⟨x, hx, h2⟩ := h
    obtain ⟨new_variables, s1, seen1⟩ := x
    rw [Option.bind_eq_some] at h2
    obtain ⟨y, hy, h3⟩ := h2
    obtain ⟨restss, s3, seen3⟩ := y
    obtain ⟨hb1, hf1⟩ := esVarsCollect_frozen hes _ _ _ _ hb hx
    have hb2 : contentsBounded N ({ s1 with «variables» := s1.«variables» ++ new_variables }) :=
      contentsBounded_utable_eq rfl hb1
    have hf2 : esFrozen N s1 ({ s1 with «variables» := s1.«variables» ++ new_variables }) :=
      esFrozen_vars_append s1 new_variables
    obtain ⟨hb3, hf3⟩ := ih _ _ _ hb2 hy
    cases h3
    exact ⟨hb3, esFrozen_trans hf1 (esFrozen_trans hf2 hf3)⟩

theorem esHelp_frozen {N : Nat} (from_ to_ : Var) :
    ∀ fuel (s : Subs) (v : Var) (seen : List Var) (out : Var × Subs × List Var),
      explicitSubstituteHelp from_ to_ fuel s v seen = some out →
      contentsBounded N s →
      contentsBounded N out.2.1 ∧ esFrozen N s out.2.1 := by
  intro fuel
  induction fuel with
  | zero =>
    intro s v seen out h _
    exact absurd h (by simp [explicitSubstituteHelp])
  | succ f ih =>
    intro s v seen out h hb
    have hes : ∀ s1 sn w o, explicitSubstituteHelp from_ to_ f s1 w sn = some o →
        contentsBounded N s1 → contentsBounded N o.2.1 ∧ esFrozen N s1 o.2.1 :=
      fun s1 sn w o ho hb1 => ih s1 w sn o ho hb1
    simp only [explicitSubstituteHelp, Bind.bind] at h
    by_cases h1 : seen.contains (s.get_root_key v) = true
    · rw [if_pos h1] at h
      cases h
      exact ⟨hb, esFrozen_refl s⟩
    · rw [if_neg h1] at h
      by_cases h2 : s.get_root_key from_ = s.get_root_key v
      · rw [if_pos h2] at h
        cases h
        exact ⟨hb, esFrozen_refl s⟩
      · rw [if_neg h2] at h
        cases hcon : s.getContent v with
        | flexVar _ => rw [hcon] at h; cases h; exact ⟨hb, esFrozen_refl s⟩
        | rigidVar _ => rw [hcon] at h; cases h; exact ⟨hb, esFrozen_refl s⟩
        | flexAbleVar _ _ => rw [hcon] at h; cases h; exact ⟨hb, esFrozen_refl s⟩
        | rigidAbleVar _ _ => rw [hcon] at h; cases h; exact ⟨hb, esFrozen_refl s⟩
        | recursionVar _ _ => rw [hcon] at h; cases h; exact ⟨hb, esFrozen_refl s⟩
        | error => rw [hcon] at h; cases h; exact ⟨hb, esFrozen_refl s⟩
        | struct ft =>
          rw [hcon] at h
          have hbv := hb v
          rw [hcon] at hbv
          cases ft with
          | apply symbol args =>
            rw [Option.bind_eq_some] at h
            obtain ⟨x, hx, h2x⟩ := h
            obtain ⟨s1, seen2⟩ := x
            cases h2x
            have hbv' : args.start + args.length ≤ N := hbv
            have hidx : ∀ i, i ∈ args.indicesList → i < N := by
              intro i hi
              have := mem_indicesList_lt hi
              omega
            obtain ⟨hb1, hf1⟩ := esSliceInPlace_frozen hes _ _ _ _ hidx hb hx
            refine ⟨contentsBounded_set_content hb1 _ hbv, ?_⟩
            exact esFrozen_trans hf1 (esFrozen_arenas_eq rfl rfl)
          | func args cv rv =>
            rw [Option.bind_eq_some] at h
            obtain ⟨x, hx, h2x⟩ := h
            obtain ⟨s1, seen2⟩ := x
            rw [Option.bind_eq_some] at h2x
            obtain ⟨y, hy, h3x⟩ := h2x
            obtain ⟨nr, s2, seen3⟩ := y
            rw [Option.bind_eq_some] at h3x
            obtain ⟨z, hz, h4x⟩ := h3x
            obtain ⟨nc, s3, seen4⟩ := z
            cases h4x
            have hbv' : args.start + args.length ≤ N := hbv
            have hidx : ∀ i, i ∈ args.indicesList → i < N := by
              intro i hi
              have := mem_indicesList_lt hi
              omega
            obtain ⟨hb1, hf1⟩ := esSliceInPlace_frozen hes _ _ _ _ hidx hb hx
            obtain ⟨hb2, hf2⟩ := hes _ _ _ _ hy hb1
            obtain ⟨hb3, hf3⟩ := hes _ _ _ _ hz hb2
            refine ⟨contentsBounded_set_content hb3 _ hbv, ?_⟩
            exact esFrozen_trans hf1 (esFrozen_trans hf2
              (esFrozen_trans hf3 (esFrozen_arenas_eq rfl rfl)))
          | tagUnion tags ext =>
            rw [Option.bind_eq_some] at h
            obtain ⟨x, hx, h2x⟩ := h
            obtain ⟨ne, s1, seen2⟩ := x
            rw [Option.bind_eq_some] at h2x
            obtain ⟨y, hy, h3x⟩ := h2x
            obtain ⟨nss, s2, seen3⟩ := y
            cases h3x
            obtain ⟨hb1, hf1⟩ := hes _ _ _ _ hx hb
            obtain ⟨hb2, hf2⟩ := esSlicesLoop_frozen hes _ _ _ _ hb1 hy
            have hb3 : contentsBounded N
                ({ s2 with variable_slices := s2.variable_slices ++ nss }) :=
              contentsBounded_utable_eq rfl hb2
            have hf3 : esFrozen N s2
                ({ s2 with variable_slices := s2.variable_slices ++ nss }) :=
              esFrozen_slices_append s2 nss
            refine ⟨contentsBounded_set_content hb3 _ (Nat.zero_le N), ?_⟩
            exact esFrozen_trans hf1 (esFrozen_trans hf2
              (esFrozen_trans hf3 (esFrozen_arenas_eq rfl rfl)))
          | functionOrTagUnion tn sym ext =>
            rw [Option.bind_eq_some] at h
            obtain ⟨x, hx, h2x⟩ := h
            obtain ⟨ne, s1, seen2⟩ := x
            cases h2x
            obtain ⟨hb1, hf1⟩ := hes _ _ _ _ hx hb
            refine ⟨contentsBounded_set_content hb1 _ (Nat.zero_le N), ?_⟩
            exact esFrozen_trans hf1 (esFrozen_arenas_eq rfl rfl)
          | recursiveTagUnion rv tags ext =>
            rw [Option.bind_eq_some] at h
            obtain ⟨x, hx, h2x⟩ := h
            obtain ⟨ne, s1, seen2⟩ := x
            rw [Option.bind_eq_some] at h2x
            obtain ⟨y, hy, h3x⟩ := h2x
            obtain ⟨nss, s2, seen3⟩ := y
            cases h3x
            obtain ⟨hb1, hf1⟩ := hes _ _ _ _ hx hb
            obtain ⟨hb2, hf2⟩ := esSlicesLoop_frozen hes _ _ _ _ hb1 hy
            have hb3 : contentsBounded N
                ({ s2 with variable_slices := s2.variable_slices ++ nss }) :=
              contentsBounded_utable_eq rfl hb2
            have hf3 : esFrozen N s2
                ({ s2 with variable_slices := s2.variable_slices ++ nss }) :=
              esFrozen_slices_append s2 nss
            refine ⟨contentsBounded_set_content hb3 _ (Nat.zero_le N), ?_⟩
            exact esFrozen_trans hf1 (esFrozen_trans hf2
              (esFrozen_trans hf3 (esFrozen_arenas_eq rfl rfl)))
          | record fields ext =>
            rw [Option.bind_eq_some] at h
            obtain ⟨x, hx, h2x⟩ := h
            obtain ⟨ne, s1, seen2⟩ := x
            rw [Option.bind_eq_some] at h2x
            obtain ⟨y, hy, h3x⟩ := h2x
            obtain ⟨s2, seen3⟩ := y
            cases h3x
            have hbv' : fields.variables_start + fields.length ≤ N := hbv
            have hidx : ∀ i,
                i ∈ (SubsSliceN.mk fields.variables_start fields.length).indicesList →
                i < N := by
              intro i hi
              have h5 : i < fields.variables_start + fields.length := mem_indicesList_lt hi
              omega
            obtain ⟨hb1, hf1⟩ := hes _ _ _ _ hx hb
            obtain ⟨hb2, hf2⟩ := esSliceInPlace_frozen hes _ _ _ _ hidx hb1 hy
            refine ⟨contentsBounded_set_content hb2 _ hbv, ?_⟩
            exact esFrozen_trans hf1 (esFrozen_trans hf2 (esFrozen_arenas_eq rfl rfl))
          | erroneous _ => cases h; exact ⟨hb, esFrozen_refl s⟩
          | emptyRecord => cases h; exact ⟨hb, esFrozen_refl s⟩
          | emptyTagUnion => cases h; exact ⟨hb, esFrozen_refl s⟩
        | «alias» sym args rv kind =>
          rw [hcon] at h
          have hbv := hb v
          rw [hcon] at hbv
          rw [Option.bind_eq_some] at h
          obtain ⟨x, hx, h2x⟩ := h
          obtain ⟨s1, seen2⟩ := x
          rw [Option.bind_eq_some] at h2x
          obtain ⟨y, hy, h3x⟩ := h2x
          obtain ⟨na, s2, seen3⟩ := y
          cases h3x
          have hbv' : args.variables_start + args.all_variables_len ≤ N := hbv
          have hidx : ∀ i,
              i ∈ (SubsSliceN.mk args.variables_start args.all_variables_len).indicesList →
              i < N := by
            intro i hi
            have h5 : i < args.variables_start + args.all_variables_len :=
              mem_indicesList_lt hi
            omega
          obtain ⟨hb1, hf1⟩ := esSliceInPlace_frozen hes _ _ _ _ hidx hb hx
          obtain ⟨hb2, hf2⟩ := hes _ _ _ _ hy hb1
          refine ⟨contentsBounded_set_content hb2 _ hbv, ?_⟩
          exact esFrozen_trans hf1 (esFrozen_trans hf2 (esFrozen_arenas_eq rfl rfl))
        | rangedNumber typ rvs =>
          rw [hcon] at h
          have hbv := hb v
          rw [hcon] at hbv
          rw [Option.bind_eq_some] at h
          obtain ⟨x, hx, h2x⟩ := h
          obtain ⟨s1, seen2⟩ := x
          rw [Option.bind_eq_some] at h2x
          obtain ⟨y, hy, h3x⟩ := h2x
          obtain ⟨nt, s2, seen3⟩ := y
          cases h3x
          have hbv' : rvs.start + rvs.length ≤ N := hbv
          have hidx : ∀ i, i ∈ rvs.indicesList → i < N := by
            intro i hi
            have := mem_indicesList_lt hi
            omega
          obtain ⟨hb1, hf1⟩ := esSliceInPlace_frozen hes _ _ _ _ hidx hb hx
          obtain ⟨hb2, hf2⟩ := hes _ _ _ _ hy hb1
          refine ⟨contentsBounded_set_content hb2 _ hbv, ?_⟩
          exact esFrozen_trans hf1 (esFrozen_trans hf2 (esFrozen_arenas_eq rfl rfl))

theorem explicit_substitute_frozen {N : Nat} (s : Subs) (a b c : Var) (out : Var × Subs)
    (h : s.explicit_substitute a b c = some out) (hb : contentsBounded N s) :
    contentsBounded N out.2 ∧ esFrozen N s out.2 := by
  rw [Subs.explicit_substitute] at h
  simp only [Bind.bind] at h
  rw [Option.bind_eq_some] at h
  obtain ⟨x, hx, heq⟩ := h
  obtain ⟨answer, s1, seenF⟩ := x
  cases heq
  exact esHelp_frozen _ _ _ _ _ _ _ hx hb

theorem mturP_of_esPreservesEq {recursive rec_var : Var} {s s' : Subs}
    (hpe : esPreservesEq s s') {e : Var} (hp : mturP recursive rec_var s e) :
    mturP recursive rec_var s' e := by
  cases hp with
  | inl h => exact Or.inl h
  | inr h =>
    right
    have h1 : s'.get_root_key e = s.get_root_key e := root_eq_of_esPreservesEq hpe e
    have h2 : s'.get_root_key recursive = s.get_root_key recursive :=
      root_eq_of_esPreservesEq hpe recursive
    have h3 : s'.get_root_key (s.get_root_key recursive)
        = s.get_root_key (s.get_root_key recursive) :=
      root_eq_of_esPreservesEq hpe _
    rw [h1, h2, h3]
    exact h

theorem mturP_utable_eq {recursive rec_var : Var} {s s' : Subs} (hu : s'.utable = s.utable)
    {e : Var} (hp : mturP recursive rec_var s e) : mturP recursive rec_var s' e := by
  cases hp with
  | inl h => exact Or.inl h
  | inr h =>
    right
    show s'.utable.rootOf e ≠ s'.utable.rootOf (s'.utable.rootOf recursive)
    rw [hu]
    exact h

theorem mturP_set {recursive rec_var : Var} {s : Subs} (v : Var) (d : Descriptor)
    {e : Var} (hp : mturP recursive rec_var s e) : mturP recursive rec_var (s.set v d) e := by
  cases hp with
  | inl h => exact Or.inl h
  | inr h =>
    right
    have h1 : (s.set v d).utable.rootOf e = s.utable.rootOf e := set_rootOf_all s v d e
    have h2 : (s.set v d).utable.rootOf recursive = s.utable.rootOf recursive :=
      set_rootOf_all s v d recursive
    have h3 : (s.set v d).utable.rootOf (s.utable.rootOf recursive)
        = s.utable.rootOf (s.utable.rootOf recursive) := set_rootOf_all s v d _
    show (s.set v d).utable.rootOf e
      ≠ (s.set v d).utable.rootOf ((s.set v d).utable.rootOf recursive)
    rw [h1, h2, h3]
    exact h

theorem mturInnerLoop_preservesEq (recursive rec_var : Var) :
    ∀ n (s : Subs) (ti vi : Nat) (out : Subs),
      mturInnerLoop recursive rec_var s ti vi n = some out → esPreservesEq s out := by
  intro n
  induction n with
  | zero =>
    intro s ti vi out h
    cases h
    exact esPreservesEq_refl s
  | succ m ih =>
    intro s ti vi out h
    simp only [mturInnerLoop, Bind.bind] at h
    rw [Option.bind_eq_some] at h
    obtain ⟨x, hx, h2⟩ := h
    obtain ⟨answer, s1⟩ := x
    have pih := ih _ _ _ _ h2
    exact esPreservesEq_trans (explicit_substitute_preservesEq _ _ _ _ _ hx)
      (esPreservesEq_trans (esPreservesEq_arenas s1 (s1.«variables».set ti answer)
        s1.variable_slices) pih)

theorem mturOuterLoop_preservesEq (recursive rec_var : Var) :
    ∀ n (s : Subs) (vsi si : Nat) (out : Subs),
      mturOuterLoop recursive rec_var s vsi si n = some out → esPreservesEq s out := by
  intro n
  induction n with
  | zero =>
    intro s vsi si out h
    cases h
    exact esPreservesEq_refl s
  | succ m ih =>
    intro s vsi si out h
    simp only [mturOuterLoop, VariableSubsSlice.reserve_into_subs, Bind.bind] at h
    rw [Option.bind_eq_some] at h
    obtain ⟨s2, hx, h2⟩ := h
    have pih := ih _ _ _ _ h2
    refine esPreservesEq_trans (esPreservesEq_arenas s _ s.variable_slices)
      (esPreservesEq_trans (mturInnerLoop_preservesEq recursive rec_var _ _ _ _ _ hx)
        (esPreservesEq_trans (esPreservesEq_arenas s2 s2.«variables» _) pih))

theorem mturInnerLoop_spec {N : Nat} (recursive rec_var : Var) :
    ∀ n (s : Subs) (ti vi : Nat) (out : Subs),
      mturInnerLoop recursive rec_var s ti vi n = some out →
      contentsBounded N s → N ≤ ti → ti + n ≤ s.«variables».length →
      s.utable.isRoot rec_var = true →
      contentsBounded N out
      ∧ s.«variables».length ≤ out.«variables».length
      ∧ (∀ p, N ≤ p → p < s.«variables».length → (p < ti ∨ ti + n ≤ p) →
          out.«variables».getD p 0 = s.«variables».getD p 0)
      ∧ s.variable_slices.length ≤ out.variable_slices.length
      ∧ (∀ q, q < s.variable_slices.length →
          out.variable_slices.getD q ⟨0, 0⟩ = s.variable_slices.getD q ⟨0, 0⟩)
      ∧ (∀ j, j < n → mturP recursive rec_var out (out.«variables».getD (ti + j) 0)) := by
  intro n
  induction n with
  | zero =>
    intro s ti vi out h hb _ _ _
    cases h
    exact ⟨hb, Nat.le_refl _, fun p _ _ _ => rfl, Nat.le_refl _, fun q _ => rfl,
      fun j hj => absurd hj (Nat.not_lt_zero j)⟩
  | succ m ih =>
    intro s ti vi out h hb hN hrange hroot
    simp only [mturInnerLoop, Bind.bind] at h
    rw [Option.bind_eq_some] at h
    obtain ⟨x, hx, h2⟩ := h
    obtain ⟨answer, s1⟩ := x
    have hx' : s.explicit_substitute recursive rec_var (s.«variables».getD vi 0)
        = some (answer, s1) := hx
    have h2' : mturInnerLoop recursive rec_var
        ({ s1 with «variables» := s1.«variables».set ti answer }) (ti + 1) (vi + 1) m
        = some out := h2
    obtain ⟨hb1, hf1⟩ := explicit_substitute_frozen s recursive rec_var _ _ hx' hb
    have hb1' : contentsBounded N s1 := hb1
    have hf1' : esFrozen N s s1 := hf1
    have hpe1 : esPreservesEq s s1 :=
      explicit_substitute_preservesEq s recursive rec_var _ (answer, s1) hx'
    have hret := explicit_substitute_ret s recursive rec_var _ (answer, s1) hx'
    have hPans : mturP recursive rec_var
        ({ s1 with «variables» := s1.«variables».set ti answer }) answer := by
      have hPs : mturP recursive rec_var s answer := by
        cases hret with
        | inl hl =>
          left
          have hl2 : answer = s.get_root_key rec_var := hl.2
          rw [hl2]
          exact rootOf_root hroot
        | inr hr =>
          right
          have hr1 : s.get_root_key (s.get_root_key recursive)
              ≠ s.get_root_key (s.get_root_key (s.«variables».getD vi 0)) := hr.1
          have hr2 : answer = s.get_root_key (s.«variables».getD vi 0) := hr.2
          rw [hr2]
          exact fun hh => hr1 hh.symm
      exact mturP_utable_eq rfl (mturP_of_esPreservesEq hpe1 hPs)
    have hlen1 : s.«variables».length ≤ s1.«variables».length := hf1'.1
    have hset_len : ((s1.«variables».set ti answer) : List Var).length
        = s1.«variables».length := List.length_set _ _ _
    have hb2 : contentsBounded N ({ s1 with «variables» := s1.«variables».set ti answer }) :=
      contentsBounded_utable_eq rfl hb1'
    have hroot2 : ({ s1 with «variables» := s1.«variables».set ti answer } :
        Subs).utable.isRoot rec_var = true :=
      isRoot_of_esPreservesEq hpe1 hroot
    have hrange2 : (ti + 1) + m
        ≤ ({ s1 with «variables» := s1.«variables».set ti answer } :
          Subs).«variables».length := by
      show (ti + 1) + m ≤ (s1.«variables».set ti answer).length
      rw [hset_len]
      omega
    obtain ⟨hbO, hlenO, hfrozO, hslO, hslvO, hPO⟩ := ih _ (ti + 1) (vi + 1) out h2' hb2
      (Nat.le_succ_of_le hN) hrange2 hroot2
    have hpe2 : esPreservesEq ({ s1 with «variables» := s1.«variables».set ti answer }) out :=
      mturInnerLoop_preservesEq recursive rec_var _ _ _ _ _ h2'
    have hlenO' : s1.«variables».length ≤ out.«variables».length := by
      have e2 : ({ s1 with «variables» := s1.«variables».set ti answer } :
          Subs).«variables».length = s1.«variables».length := hset_len
      have e3 := hlenO
      omega
    refine ⟨hbO, Nat.le_trans hlen1 hlenO', ?_, ?_, ?_, ?_⟩
    · intro p hNp hp hside
      have hp1 : p < s1.«variables».length := Nat.lt_of_lt_of_le hp hlen1
      have hp2 : p < ({ s1 with «variables» := s1.«variables».set ti answer } :
          Subs).«variables».length := by
        show p < (s1.«variables».set ti answer).length
        rw [hset_len]
        exact hp1
      have hstep2 : ({ s1 with «variables» := s1.«variables».set ti answer } :
          Subs).«variables».getD p 0 = s1.«variables».getD p 0 := by
        show (s1.«variables».set ti answer).getD p 0 = s1.«variables».getD p 0
        refine getD_set_ne _ _ _ ?_
        omega
      have hstep1 : s1.«variables».getD p 0 = s.«variables».getD p 0 := hf1'.2.1 p hNp hp
      have hstepO := hfrozO p hNp hp2 (by omega)
      rw [hstepO, hstep2, hstep1]
    · have e4 : s.variable_slices.length ≤ s1.variable_slices.length := hf1'.2.2.1
      have e5 : ({ s1 with «variables» := s1.«variables».set ti answer } :
          Subs).variable_slices.length ≤ out.variable_slices.length := hslO
      have e6 : ({ s1 with «variables» := s1.«variables».set ti answer } :
          Subs).variable_slices.length = s1.variable_slices.length := rfl
      omega
    · intro q hq
      have hq1 : q < s1.variable_slices.length := Nat.lt_of_lt_of_le hq hf1'.2.2.1
      have h1q : s1.variable_slices.getD q ⟨0, 0⟩ = s.variable_slices.getD q ⟨0, 0⟩ :=
        hf1'.2.2.2 q hq
      have hOq := hslvO q hq1
      rw [hOq]
      exact h1q
    · intro j hj
      cases j with
      | zero =>
        have hti1 : ti < s1.«variables».length := by omega
        have hti2 : ti < ({ s1 with «variables» := s1.«variables».set ti answer } :
            Subs).«variables».length := by
          show ti < (s1.«variables».set ti answer).length
          rw [hset_len]
          exact hti1
        have hval : out.«variables».getD (ti + 0) 0 = answer := by
          show out.«variables».getD ti 0 = answer
          have hO := hfrozO ti hN hti2 (Or.inl (Nat.lt_succ_self ti))
          have h2v : ({ s1 with «variables» := s1.«variables».set ti answer } :
              Subs).«variables».getD ti 0 = answer := by
            show (s1.«variables».set ti answer).getD ti 0 = answer
            exact getD_set_eq _ _ _ _ hti1
          rw [hO, h2v]
        rw [hval]
        exact mturP_of_esPreservesEq hpe2 hPans
      | succ j' =>
        have hP := hPO j' (by omega)
        have heq : ti + (j' + 1) = (ti + 1) + j' := by omega
        rw [heq]
        exact hP

theorem mturOuterLoop_spec {N : Nat} (recursive rec_var : Var) :
    ∀ n (s : Subs) (vsi si : Nat) (out : Subs),
      mturOuterLoop recursive rec_var s vsi si n = some out →
      contentsBounded N s → N ≤ s.«variables».length →
      si + n ≤ vsi → vsi + n ≤ s.variable_slices.length →
      s.utable.isRoot rec_var = true →
      contentsBounded N out
      ∧ s.«variables».length ≤ out.«variables».length
      ∧ (∀ p, N ≤ p → p < s.«variables».length →
          out.«variables».getD p 0 = s.«variables».getD p 0)
      ∧ s.variable_slices.length ≤ out.variable_slices.length
      ∧ (∀ q, q < s.variable_slices.length → (q < vsi ∨ vsi + n ≤ q) →
          out.variable_slices.getD q ⟨0, 0⟩ = s.variable_slices.getD q ⟨0, 0⟩)
      ∧ (∀ k, k < n → ∃ st,
          out.variable_slices.getD (vsi + k) ⟨0, 0⟩
            = ⟨st, u16cast (s.variable_slices.getD (si + k) ⟨0, 0⟩).length⟩
          ∧ N ≤ st
          ∧ st + u16cast (s.variable_slices.getD (si + k) ⟨0, 0⟩).length
              ≤ out.«variables».length
          ∧ ∀ j, j < u16cast (s.variable_slices.getD (si + k) ⟨0, 0⟩).length →
              mturP recursive rec_var out (out.«variables».getD (st + j) 0)) := by
  intro n
  induction n with
  | zero =>
    intro s vsi si out h hb _ _ _ _
    cases h
    exact ⟨hb, Nat.le_refl _, fun p _ _ => rfl, Nat.le_refl _, fun q _ _ => rfl,
      fun k hk => absurd hk (Nat.not_lt_zero k)⟩
  | succ m ih =>
    intro s vsi si out h hb hN hsi hvr hroot
    simp only [mturOuterLoop, VariableSubsSlice.reserve_into_subs, Bind.bind] at h
    rw [Option.bind_eq_some] at h
    obtain ⟨s2, hx, h2⟩ := h
    have hb1 : contentsBounded N
        ({ s with «variables» := s.«variables»
          ++ List.replicate (s.variable_slices.getD si ⟨0, 0⟩).length 0 }) :=
      contentsBounded_utable_eq rfl hb
    have hlen1 : ({ s with «variables» := s.«variables» ++ List.replicate (s.variable_slices.getD si ⟨0, 0⟩).length 0 } :
        Subs).«variables».length
        = s.«variables».length + (s.variable_slices.getD si ⟨0, 0⟩).length := by
      show (s.«variables» ++ _).length = _
      rw [List.length_append, List.length_replicate]
    obtain ⟨hb2, hlen2, hfroz2, hsl2, hslv2, hP2⟩ :=
      mturInnerLoop_spec recursive rec_var _ _ _ _ _ hx hb1 hN
        (by rw [hlen1]) hroot
    have hpe12 : esPreservesEq s s2 := by
      have hpe0 : esPreservesEq s ({ s with «variables» := s.«variables» ++ List.replicate (s.variable_slices.getD si ⟨0, 0⟩).length 0 }) :=
        esPreservesEq_arenas s _ s.variable_slices
      exact esPreservesEq_trans hpe0
        (mturInnerLoop_preservesEq recursive rec_var _ _ _ _ _ hx)
    have hroot2 : s2.utable.isRoot rec_var = true := isRoot_of_esPreservesEq hpe12 hroot
    have hslen_eq : ({ s with «variables» := s.«variables» ++ List.replicate (s.variable_slices.getD si ⟨0, 0⟩).length 0 } :
        Subs).variable_slices.length = s.variable_slices.length := rfl
    have hset_slices_len : ((s2.variable_slices.set vsi
        ⟨s.«variables».length, u16cast (s.variable_slices.getD si ⟨0, 0⟩).length⟩) :
        List SubsSliceN).length = s2.variable_slices.length := List.length_set _ _ _
    have hb3 : contentsBounded N ({ s2 with variable_slices := s2.variable_slices.set vsi ⟨s.«variables».length, u16cast (s.variable_slices.getD si ⟨0, 0⟩).length⟩ }) :=
      contentsBounded_utable_eq rfl hb2
    have hN3 : N ≤ ({ s2 with variable_slices := s2.variable_slices.set vsi ⟨s.«variables».length, u16cast (s.variable_slices.getD si ⟨0, 0⟩).length⟩ } :
        Subs).«variables».length := by
      show N ≤ s2.«variables».length
      have := hlen2
      omega
    have hsl2' : s.variable_slices.length ≤ s2.variable_slices.length := by
      have := hsl2
      rw [hslen_eq] at this
      exact this
    have hvr3 : (vsi + 1) + m ≤ ({ s2 with variable_slices := s2.variable_slices.set vsi ⟨s.«variables».length, u16cast (s.variable_slices.getD si ⟨0, 0⟩).length⟩ } :
        Subs).variable_slices.length := by
      show (vsi + 1) + m ≤ (s2.variable_slices.set vsi _).length
      rw [hset_slices_len]
      omega
    have hroot3 : ({ s2 with variable_slices := s2.variable_slices.set vsi ⟨s.«variables».length, u16cast (s.variable_slices.getD si ⟨0, 0⟩).length⟩ } :
        Subs).utable.isRoot rec_var = true := hroot2
    obtain ⟨hbO, hlenO, hfrozO, hslO, hslvO, hkO⟩ := ih _ (vsi + 1) (si + 1) out h2 hb3
      hN3 (by omega) hvr3 hroot3
    have hpeO : esPreservesEq ({ s2 with variable_slices := s2.variable_slices.set vsi ⟨s.«variables».length, u16cast (s.variable_slices.getD si ⟨0, 0⟩).length⟩ }) out :=
      mturOuterLoop_preservesEq recursive rec_var _ _ _ _ _ h2
    have hs2len : s.«variables».length
        + (s.variable_slices.getD si ⟨0, 0⟩).length ≤ s2.«variables».length := by
      have := hlen2
      rw [hlen1] at this
      exact this
    refine ⟨hbO, ?_, ?_, ?_, ?_, ?_⟩
    · have e1 : ({ s2 with variable_slices := s2.variable_slices.set vsi ⟨s.«variables».length, u16cast (s.variable_slices.getD si ⟨0, 0⟩).length⟩ } :
          Subs).«variables».length = s2.«variables».length := rfl
      omega
    · intro p hNp hp
      have hp1 : p < ({ s with «variables» := s.«variables» ++ List.replicate (s.variable_slices.getD si ⟨0, 0⟩).length 0 } :
          Subs).«variables».length := by
        rw [hlen1]
        omega
      have hp2 : p < s2.«variables».length := Nat.lt_of_lt_of_le hp1 hlen2
      have hstep1 : ({ s with «variables» := s.«variables» ++ List.replicate (s.variable_slices.getD si ⟨0, 0⟩).length 0 } :
          Subs).«variables».getD p 0 = s.«variables».getD p 0 := by
        show (s.«variables» ++ _).getD p 0 = s.«variables».getD p 0
        exact getD_append_left _ _ _ _ hp
      have hstep2 := hfroz2 p hNp hp1 (Or.inl (by omega))
      have hstepO := hfrozO p hNp hp2
      rw [hstepO]
      show s2.«variables».getD p 0 = s.«variables».getD p 0
      rw [hstep2, hstep1]
    · have e1 : ({ s2 with variable_slices := s2.variable_slices.set vsi ⟨s.«variables».length, u16cast (s.variable_slices.getD si ⟨0, 0⟩).length⟩ } :
          Subs).variable_slices.length = s2.variable_slices.length := hset_slices_len
      omega
    · intro q hq hside
      have hq2 : q < s2.variable_slices.length := Nat.lt_of_lt_of_le hq hsl2'
      have hq3 : q < ({ s2 with variable_slices := s2.variable_slices.set vsi ⟨s.«variables».length, u16cast (s.variable_slices.getD si ⟨0, 0⟩).length⟩ } :
          Subs).variable_slices.length := by
        show q < (s2.variable_slices.set vsi _).length
        rw [hset_slices_len]
        exact hq2
      have hstepO := hslvO q hq3 (by omega)
      rw [hstepO]
      show (s2.variable_slices.set vsi _).getD q ⟨0, 0⟩ = s.variable_slices.getD q ⟨0, 0⟩
      rw [getD_set_ne _ _ _ (by omega)]
      have hstep2 := hslv2 q (by rw [hslen_eq]; exact hq)
      rw [hstep2]
    · intro k hk
      cases k with
      | zero =>
        refine ⟨s.«variables».length, ?_, hN, ?_, ?_⟩
        · have hvsi3 : vsi < ({ s2 with variable_slices := s2.variable_slices.set vsi ⟨s.«variables».length, u16cast (s.variable_slices.getD si ⟨0, 0⟩).length⟩ } :
              Subs).variable_slices.length := by
            show vsi < (s2.variable_slices.set vsi _).length
            rw [hset_slices_len]
            omega
          have hO := hslvO vsi hvsi3 (Or.inl (Nat.lt_succ_self vsi))
          rw [show vsi + 0 = vsi from rfl, hO]
          show (s2.variable_slices.set vsi _).getD vsi ⟨0, 0⟩ = _
          rw [getD_set_eq _ _ _ _ (by omega)]
          rw [show si + 0 = si from rfl]
        · have h6 : u16cast (s.variable_slices.getD si ⟨0, 0⟩).length
              ≤ (s.variable_slices.getD si ⟨0, 0⟩).length := u16cast_le _
          have e1 : ({ s2 with variable_slices := s2.variable_slices.set vsi ⟨s.«variables».length, u16cast (s.variable_slices.getD si ⟨0, 0⟩).length⟩ } :
              Subs).«variables».length = s2.«variables».length := rfl
          have := hlenO
          rw [show si + 0 = si from rfl]
          omega
        · intro j hj
          rw [show si + 0 = si from rfl] at hj
          have hj' : j < (s.variable_slices.getD si ⟨0, 0⟩).length :=
            Nat.lt_of_lt_of_le hj (u16cast_le _)
          have hP := hP2 j hj'
          have hpos2 : s.«variables».length + j < s2.«variables».length := by omega
          have hpos3 : s.«variables».length + j
              < ({ s2 with variable_slices := s2.variable_slices.set vsi ⟨s.«variables».length, u16cast (s.variable_slices.getD si ⟨0, 0⟩).length⟩ } :
                Subs).«variables».length := hpos2
          have hvalO := hfrozO (s.«variables».length + j) (by omega) hpos3
          rw [hvalO]
          show mturP recursive rec_var out (s2.«variables».getD (s.«variables».length + j) 0)
          have hPout : mturP recursive rec_var out
              (s2.«variables».getD (s.«variables».length + j) 0) := by
            refine mturP_of_esPreservesEq hpeO ?_
            exact mturP_utable_eq rfl hP
          exact hPout
      | succ k' =>
        have hK := hkO k' (by omega)
        obtain ⟨st, hK1, hK2, hK3, hK4⟩ := hK
        have heqp : vsi + (k' + 1) = (vsi + 1) + k' := by omega
        have heqs : si + (k' + 1) = (si + 1) + k' := by omega
        have hslice_eq : ({ s2 with variable_slices := s2.variable_slices.set vsi ⟨s.«variables».length, u16cast (s.variable_slices.getD si ⟨0, 0⟩).length⟩ } :
            Subs).variable_slices.getD ((si + 1) + k') ⟨0, 0⟩
            = s.variable_slices.getD ((si + 1) + k') ⟨0, 0⟩ := by
          show (s2.variable_slices.set vsi _).getD ((si + 1) + k') ⟨0, 0⟩ = _
          rw [getD_set_ne _ _ _ (by omega)]
          exact hslv2 _ (by rw [hslen_eq]; omega)
        rw [heqp, heqs]
        rw [hslice_eq] at hK1 hK3 hK4
        exact ⟨st, hK1, hK2, hK3, hK4⟩

theorem mtur_decomp (s : Subs) (recursive : Var) (tags : UnionTags) (ext_var : Var) (s' : Subs)
    (hres : s.mark_tag_union_recursive recursive tags ext_var = some s') :
    ∃ s3 s4 s5 new_ext s6,
      s3 = (({ s with utable := s.utable.newKey (Descriptor.fromContent unnamed_flex_var) } :
          Subs).set_rank s.utable.len (s.getDesc recursive).rank).set_content s.utable.len
          (Content.recursionVar recursive none)
      ∧ s4 = { s3 with variable_slices := s3.variable_slices ++
          List.replicate tags.length ⟨0, 0⟩ }
      ∧ mturOuterLoop recursive s.utable.len s4 s3.variable_slices.length
          tags.variables_start tags.length = some s5
      ∧ s5.explicit_substitute recursive s.utable.len ext_var = some (new_ext, s6)
      ∧ s' = s6.set_content recursive (Content.struct (FlatType.recursiveTagUnion s.utable.len
          (UnionTags.from_slices (UnionTags.tagNamesSlice tags)
            ⟨s3.variable_slices.length, u16cast tags.length⟩) new_ext)) := by
  rw [Subs.mark_tag_union_recursive] at hres
  simp only [Subs.fresh_unnamed_flex_var, Subs.fresh, SubsSliceN.reserve_variable_slices,
    Bind.bind] at hres
  rw [Option.bind_eq_some] at hres
  obtain ⟨s5, h5, hres⟩ := hres
  rw [Option.bind_eq_some] at hres
  obtain ⟨⟨new_ext, s6⟩, h6, hres⟩ := hres
  exact ⟨_, _, s5, new_ext, s6, rfl, rfl, h5, h6, (Option.some.inj hres).symm⟩

/-- C4: `mark_tag_union_recursive(recursive, tags, ext)` allocates a fresh recursion
variable `R` (the next key, `s.len`) whose content is
`RecursionVar{structure: recursive, opt_name: None}` at the same rank as `recursive`,
rewrites the tag payload slices into freshly reserved backing storage (for every tag
`k` the new variable-slice arena run, starting at the end of the old
`variable_slices` arena, holds a slice of the original length into fresh
`variables`-arena storage, each of whose entries is either `R` or resolves to a root
other than `recursive`'s), and finally sets `recursive`'s content to
`Structure(RecursiveTagUnion(R, new_tags, new_ext))`, where `new_ext` is `R` when
`ext` resolves to `recursive`'s root and `ext`'s root otherwise.  The hypotheses
require `recursive` and `ext` to resolve inside the table, the payload slices to lie
inside the `variable_slices` arena, and every content's in-place-substitution run to
stay inside the `variables` arena (otherwise the source's in-place writes panic).
In the `T = [Cons U T, Nil]` scenario the `Cons` payload's second element is
`R` (= 3), not `T` (= 1), and there the original slice contents survive; in general
the substitution can rewrite original payload slices in place (see the
counterexample). -/
theorem c4_mark_tag_union_recursive (s : Subs) (recursive : Var) (tags : UnionTags)
    (ext_var : Var) (r0 : Var) (k0 : Nat) (re : Var) (ke : Nat) (s' : Subs)
    (hch : RedirectChain s.utable recursive r0 k0)
    (hk : k0 ≤ s.len) (hr0 : r0 < s.len)
    (hchE : RedirectChain s.utable ext_var re ke)
    (hke : ke ≤ s.len) (hre : re < s.len)
    (hbound : contentsBounded s.«variables».length s)
    (htags : tags.variables_start + tags.length ≤ s.variable_slices.length)
    (hres : s.mark_tag_union_recursive recursive tags ext_var = some s') :
    (s'.len = s.len + 1
     ∧ s'.getContent s.len = Content.recursionVar recursive none
     ∧ (s'.getDesc s.len).rank = (s.getDesc recursive).rank
     ∧ (∃ new_ext, s'.getContent recursive = Content.struct (FlatType.recursiveTagUnion
          s.len (UnionTags.from_slices (UnionTags.tagNamesSlice tags)
            ⟨s.variable_slices.length, u16cast tags.length⟩) new_ext)
        ∧ ((re = r0 ∧ new_ext = s.len) ∨ (re ≠ r0 ∧ new_ext = re)))
     ∧ (∀ k, k < tags.length → ∃ st,
          s'.variable_slices.getD (s.variable_slices.length + k) ⟨0, 0⟩
            = ⟨st, u16cast (s.variable_slices.getD (tags.variables_start + k) ⟨0, 0⟩).length⟩
          ∧ s.«variables».length ≤ st
          ∧ st + u16cast (s.variable_slices.getD (tags.variables_start + k) ⟨0, 0⟩).length
              ≤ s'.«variables».length
          ∧ ∀ j, j < u16cast (s.variable_slices.getD (tags.variables_start + k) ⟨0, 0⟩).length →
              s'.«variables».getD (st + j) 0 = s.len
              ∨ s'.get_root_key ( s'.«variables».getD (st + j) 0) ≠ r0))
    ∧ (s3Result = some s3Marked
       ∧ s3Marked.getContent 1 = Content.struct (FlatType.recursiveTagUnion 3 ⟨2, 0, 2⟩ 0)
       ∧ s3Marked.getContent 3 = Content.recursionVar 1 none
       ∧ (s3Marked.getDesc 3).rank = (s3Store.getDesc 1).rank
       ∧ s3Marked.getSubsSliceVars (s3Marked.variable_slices.getD 2 ⟨0, 0⟩) = [2, 3]
       ∧ (3 : Var) ≠ 1
       ∧ s3Marked.«variables».take 2 = s3Store.«variables») := by
  refine ⟨?_, by decide⟩
  obtain ⟨s3, s4, s5, new_ext, s6, hs3, hs4, h5, h6, hs'⟩ :=
    mtur_decomp s recursive tags ext_var s' hres
  obtain ⟨s1, hs1⟩ : ∃ s1 : Subs, s1 =
      { s with utable := s.utable.newKey (Descriptor.fromContent unnamed_flex_var) } :=
    ⟨_, rfl⟩
  rw [← hs1] at hs3
  have hg1 : s1.utable.getNode s.utable.len
      = UFNode.root (Descriptor.fromContent unnamed_flex_var) := by
    rw [hs1]
    exact getNode_newKey_last s.utable _
  have hlen1 : s1.utable.nodes.length = s.utable.nodes.length + 1 := by
    rw [hs1]
    exact newKey_length s.utable _
  have hoth1 : ∀ j, j ≠ s.utable.len → s1.utable.getNode j = s.utable.getNode j := by
    intro j hj
    rw [hs1]
    exact getNode_newKey_other hj _
  have hLlt1 : s.utable.len < s1.utable.nodes.length := by
    rw [hlen1]
    exact Nat.lt_succ_self _
  obtain ⟨hg2, hoth2, hlen2⟩ := set_rank_at_root hg1 hLlt1 (s.getDesc recursive).rank
  have hLlt2 : s.utable.len <
      (s1.set_rank s.utable.len (s.getDesc recursive).rank).utable.nodes.length := by
    rw [hlen2, hlen1]
    exact Nat.lt_succ_self _
  obtain ⟨hg3, hoth3, hlen3⟩ := set_content_at_root hg2 hLlt2
    (Content.recursionVar recursive none)
  rw [← hs3] at hg3 hoth3 hlen3
  have hoth_all : ∀ j, j ≠ s.utable.len →
      s3.utable.getNode j = s.utable.getNode j := by
    intro j hj
    rw [hoth3 j hj, hoth2 j hj, hoth1 j hj]
  have hrne : r0 ≠ s.utable.len := Nat.ne_of_lt hr0
  have hgsL : s.utable.getNode s.utable.len = UFNode.root flex_var_descriptor := by
    have hnone : s.utable.nodes[s.utable.len]? = none :=
      List.getElem?_eq_none (Nat.le_refl _)
    rw [UnificationTable.getNode, List.getD_eq_getElem?_getD, hnone]
    rfl
  have hch3 : RedirectChain s3.utable recursive r0 k0 := by
    refine chain_preserved ?_ hch ?_
    · intro i hne
      by_cases hiL : i = s.utable.len
      · subst hiL
        rw [UnificationTable.isRoot, hgsL]
      · exact absurd (hoth_all i hiL) hne
    · rw [isRoot_congr (hoth_all r0 hrne)]
      exact chain_root_isRoot hch
  have hu4 : s4.utable = s3.utable := by rw [hs4]
  have hlen3' : s3.utable.nodes.length = s.utable.nodes.length + 1 := by
    rw [hlen3, hlen2, hlen1]
  have hlen4 : s4.utable.nodes.length = s.utable.nodes.length + 1 := by
    rw [hu4, hlen3']
  have hp45 : esPreservesEq s4 s5 := mturOuterLoop_preservesEq _ _ _ _ _ _ _ h5
  have hp56 : esPreservesEq s5 s6 :=
    explicit_substitute_preservesEq s5 recursive s.utable.len ext_var (new_ext, s6) h6
  have hp46 : esPreservesEq s4 s6 := esPreservesEq_trans hp45 hp56
  have hlen6 : s6.utable.nodes.length = s.utable.nodes.length + 1 := by
    rw [hp46.2, hlen4]
  have hch4 : RedirectChain s4.utable recursive r0 k0 := by
    rw [hu4]
    exact hch3
  have hch6 : RedirectChain s6.utable recursive r0 k0 :=
    chain_of_esPreservesEq hp46 hch4 (by rw [hlen4]; exact Nat.lt_succ_of_lt hr0)
  have hg4 : s4.utable.getNode s.utable.len = UFNode.root
      { { Descriptor.fromContent unnamed_flex_var with rank := (s.getDesc recursive).rank }
        with content := Content.recursionVar recursive none } := by
    rw [hu4]
    exact hg3
  have hg6 : s6.utable.getNode s.utable.len = UFNode.root
      { { Descriptor.fromContent unnamed_flex_var with rank := (s.getDesc recursive).rank }
        with content := Content.recursionVar recursive none } := by
    obtain ⟨⟨hle, htar, hfwd, hbwd⟩, hlen⟩ := hp46
    refine hfwd _ _ ?_ hg4 rfl
    rw [hlen4]
    exact Nat.lt_succ_self _
  obtain ⟨hgF, hothF, hlenF⟩ := set_content_via_chain hch6
    (by show k0 ≤ s6.utable.nodes.length; rw [hlen6]; exact Nat.le_succ_of_le hk)
    (by rw [hlen6]; exact Nat.lt_succ_of_lt hr0)
    (Content.struct (FlatType.recursiveTagUnion s.utable.len
      (UnionTags.from_slices (UnionTags.tagNamesSlice tags)
        ⟨s3.variable_slices.length, u16cast tags.length⟩) new_ext))
  rw [← hs'] at hgF hothF hlenF
  have hgL : s'.utable.getNode s.utable.len = UFNode.root
      { { Descriptor.fromContent unnamed_flex_var with rank := (s.getDesc recursive).rank }
        with content := Content.recursionVar recursive none } := by
    rw [hothF _ (fun hh => hrne hh.symm)]
    exact hg6
  have hrootL : s'.utable.isRoot s.utable.len = true := by
    rw [UnificationTable.isRoot, hgL]
  have hLeq : s.utable.len = s.utable.nodes.length := rfl
  have hLeq2 : s.len = s.utable.nodes.length := rfl
  have harena : s3.variable_slices = s.variable_slices := by
    rw [hs3, hs1]
    rfl
  have harenavar : s4.«variables» = s.«variables» := by
    rw [hs4]
    show s3.«variables» = s.«variables»
    rw [hs3, hs1]
    rfl
  have harena4 : s4.variable_slices
      = s.variable_slices ++ List.replicate tags.length ⟨0, 0⟩ := by
    rw [hs4]
    show s3.variable_slices ++ List.replicate tags.length ⟨0, 0⟩ = _
    rw [harena]
  have hnode4 : ∀ i, i < s4.utable.nodes.length →
      nodeInPlaceEnd s4.utable i ≤ s.«variables».length := by
    intro i hi
    by_cases hiL : i = s.utable.len
    · subst hiL
      unfold nodeInPlaceEnd
      rw [hu4, hg3]
      exact Nat.zero_le _
    · unfold nodeInPlaceEnd
      rw [hu4, hoth_all i hiL]
      have hib : i < s.utable.nodes.length := by
        rw [hlen4] at hi
        omega
      have hnb := nodes_bounded_of_contents hbound i hib
      unfold nodeInPlaceEnd at hnb
      exact hnb
  have hb4 : contentsBounded s.«variables».length s4 := contentsBounded_of_nodes hnode4
  have hN4 : s.«variables».length ≤ s4.«variables».length := Nat.le_of_eq (by rw [harenavar])
  have hsi4 : tags.variables_start + tags.length ≤ s3.variable_slices.length := by
    rw [harena]
    exact htags
  have hvr4 : s3.variable_slices.length + tags.length ≤ s4.variable_slices.length := by
    have h1 : s4.variable_slices.length = s.variable_slices.length + tags.length := by
      rw [harena4, List.length_append, List.length_replicate]
    have h2 : s3.variable_slices.length = s.variable_slices.length := by rw [harena]
    omega
  have hroot4 : s4.utable.isRoot s.utable.len = true := by
    rw [UnificationTable.isRoot, hg4]
  obtain ⟨hb5, hlen5, hfroz5, hsl5, hslv5, hk5⟩ :=
    mturOuterLoop_spec recursive s.utable.len tags.length s4 s3.variable_slices.length
      tags.variables_start s5 h5 hb4 hN4 hsi4 hvr4 hroot4
  obtain ⟨hb6, hfz6⟩ :=
    explicit_substitute_frozen s5 recursive s.utable.len ext_var (new_ext, s6) h6 hb5
  obtain ⟨hfz61, hfz62, hfz63, hfz64⟩ := hfz6
  have hfz61' : s5.«variables».length ≤ s6.«variables».length := hfz61
  have hfz62' : ∀ p, s.«variables».length ≤ p → p < s5.«variables».length →
      s6.«variables».getD p 0 = s5.«variables».getD p 0 := hfz62
  have hfz64' : ∀ q, q < s5.variable_slices.length →
      s6.variable_slices.getD q ⟨0, 0⟩ = s5.variable_slices.getD q ⟨0, 0⟩ := hfz64
  have hv' : s'.«variables» = s6.«variables» := by
    rw [hs']
    rfl
  have hsls' : s'.variable_slices = s6.variable_slices := by
    rw [hs']
    rfl
  have hch5 : RedirectChain s5.utable recursive r0 k0 :=
    chain_of_esPreservesEq hp45 hch4 (by rw [hlen4]; exact Nat.lt_succ_of_lt hr0)
  have hreneL : re ≠ s.utable.len := Nat.ne_of_lt hre
  have hchE3 : RedirectChain s3.utable ext_var re ke := by
    refine chain_preserved ?_ hchE ?_
    · intro i hne
      by_cases hiL : i = s.utable.len
      · subst hiL
        rw [UnificationTable.isRoot, hgsL]
      · exact absurd (hoth_all i hiL) hne
    · rw [isRoot_congr (hoth_all re hreneL)]
      exact chain_root_isRoot hchE
  have hchE4 : RedirectChain s4.utable ext_var re ke := by
    rw [hu4]
    exact hchE3
  have hchE5 : RedirectChain s5.utable ext_var re ke :=
    chain_of_esPreservesEq hp45 hchE4 (by rw [hlen4]; exact Nat.lt_succ_of_lt hre)
  have hlen5n : s5.utable.nodes.length = s.utable.nodes.length + 1 := by
    rw [hp45.2, hlen4]
  have hlen5k : k0 ≤ s5.utable.len := by
    show k0 ≤ s5.utable.nodes.length
    rw [hlen5n]
    omega
  have hlen5ke : ke ≤ s5.utable.len := by
    show ke ≤ s5.utable.nodes.length
    rw [hlen5n]
    omega
  have hr5rec : s5.get_root_key recursive = r0 := rootAux_of_chain hch5 _ hlen5k
  have hr5ext : s5.get_root_key ext_var = re := rootAux_of_chain hchE5 _ hlen5ke
  have hr5r0 : s5.get_root_key r0 = r0 := rootOf_root (chain_root_isRoot hch5)
  have hr5re : s5.get_root_key re = re := rootOf_root (chain_root_isRoot hchE5)
  have hroot5L : s5.utable.isRoot s.utable.len = true := isRoot_of_esPreservesEq hp45 hroot4
  have hr5L : s5.get_root_key s.utable.len = s.utable.len := rootOf_root hroot5L
  have hret := explicit_substitute_ret s5 recursive s.utable.len ext_var (new_ext, s6) h6
  rw [hr5rec, hr5ext, hr5r0, hr5re, hr5L] at hret
  have hpin : (re = r0 ∧ new_ext = s.len) ∨ (re ≠ r0 ∧ new_ext = re) := by
    rcases hret with ⟨hq, hv⟩ | ⟨hq, hv⟩
    · exact Or.inl ⟨hq.symm, hv⟩
    · exact Or.inr ⟨fun hh => hq hh.symm, hv⟩
  have hchF : RedirectChain s'.utable recursive r0 k0 := by
    refine chain_preserved ?_ hch6 ?_
    · intro i hne
      by_cases hir : i = r0
      · subst hir
        exact chain_root_isRoot hch6
      · exact absurd (hothF i hir) hne
    · rw [UnificationTable.isRoot, hgF]
  have hdescF := getDesc_via_chain hchF
    (by show k0 ≤ s'.utable.nodes.length; rw [hlenF, hlen6]; exact Nat.le_succ_of_le hk) hgF
  have hk'F : k0 ≤ s'.utable.len := by
    show k0 ≤ s'.utable.nodes.length
    rw [hlenF, hlen6]
    omega
  have hr'rec : s'.get_root_key recursive = r0 := rootAux_of_chain hchF _ hk'F
  have hr'r0 : s'.get_root_key r0 = r0 := rootOf_root (chain_root_isRoot hchF)
  have hclaim : ∀ e, mturP recursive s.utable.len s' e →
      e = s.len ∨ s'.get_root_key e ≠ r0 := by
    intro e hp
    cases hp with
    | inl h => exact Or.inl h
    | inr h =>
      right
      rw [hr'rec, hr'r0] at h
      exact h
  have hPtrans : ∀ e, mturP recursive s.utable.len s5 e →
      mturP recursive s.utable.len s' e := by
    intro e hp
    rw [hs', set_content_eq_set]
    exact mturP_set _ _ (mturP_of_esPreservesEq hp56 hp)
  refine ⟨?_, ?_, ?_, ⟨new_ext, ?_, hpin⟩, ?_⟩
  · show s'.utable.nodes.length = s.utable.nodes.length + 1
    rw [hlenF, hlen6]
  · exact getContent_of_root_node hgL
  · show (s'.getDesc s.utable.len).rank = (s.getDesc recursive).rank
    rw [probe_of_root (rootOf_root hrootL) hgL]
  · rw [Subs.getContent, hdescF, ← harena]
    rfl
  · intro k hkk
    obtain ⟨st, hA, hB, hC, hD⟩ := hk5 k hkk
    have hs4get : s4.variable_slices.getD (tags.variables_start + k) ⟨0, 0⟩
        = s.variable_slices.getD (tags.variables_start + k) ⟨0, 0⟩ := by
      rw [harena4]
      exact getD_append_left _ _ _ _ (by omega)
    rw [hs4get] at hA hC hD
    have hvslen3 : s3.variable_slices.length = s.variable_slices.length := by rw [harena]
    rw [hvslen3] at hA
    refine ⟨st, ?_, hB, ?_, ?_⟩
    · have h1 : s4.variable_slices.length = s.variable_slices.length + tags.length := by
        rw [harena4, List.length_append, List.length_replicate]
      have hq : s.variable_slices.length + k < s5.variable_slices.length := by omega
      have h64 := hfz64' (s.variable_slices.length + k) hq
      rw [hsls', h64, hA]
    · have h3 : s'.«variables».length = s6.«variables».length := by rw [hv']
      omega
    · intro j hj
      have hD' := hD j hj
      have hpos : st + j < s5.«variables».length := by omega
      have hNst : s.«variables».length ≤ st + j := by omega
      have h62 := hfz62' (st + j) hNst hpos
      rw [hv', h62]
      exact hclaim _ (hPtrans _ hD')

/-- C4 counterexample to "leaving the original slices' contents unmodified": when a
payload variable's own arguments alias the tag payload slice, the in-place
`explicit_substitute` pass rewrites the original slice's contents, here from
`[2, 1]` to `[2, 3]`. -/
theorem c4_counterexample :
    (Subs.mark_tag_union_recursive aliasedPayloadStore 1 aliasedPayloadTags 0).map
        (fun t => t.«variables».take 2) = some [2, 3]
    ∧ aliasedPayloadStore.«variables».take 2 = [2, 1] := by
  decide

theorem c4_witness :
    (0 : Nat) ≤ s3Store.len ∧ (1 : Var) < s3Store.len ∧ s3Marked.len = s3Store.len + 1 :=
  ⟨by decide, by decide,
    (c4_mark_tag_union_recursive s3Store 1 s3Tags 0 1 0 0 0 s3Marked
      (RedirectChain.root (by decide)) (by decide) (by decide)
      (RedirectChain.root (by decide)) (by decide) (by decide)
      (contentsBounded_of_nodes (by decide)) (by decide) rfl).1.1⟩

theorem exceptBind_eq_ok {ε α β : Type} {x : Except ε α} {f : α → Except ε β} {b : β} :
    Except.bind x f = Except.ok b ↔ ∃ a, x = Except.ok a ∧ f a = Except.ok b := by
  cases x with
  | error e => simp [Except.bind]
  | ok a => simp [Except.bind]

theorem namePreserves_refl (s : Subs) : namePreserves s s :=
  ⟨rfl, fun _ => rfl, fun i d n hg hc => ⟨d, hg, hc⟩, [], by simp⟩

theorem namePreserves_trans {s1 s2 s3 : Subs} (h12 : namePreserves s1 s2)
    (h23 : namePreserves s2 s3) : namePreserves s1 s3 := by
  obtain ⟨hl12, ht12, hc12, e12, hf12⟩ := h12
  obtain ⟨hl23, ht23, hc23, e23, hf23⟩ := h23
  refine ⟨hl23.trans hl12, fun i => (ht23 i).trans (ht12 i), ?_, e12 ++ e23, ?_⟩
  · intro i d n hg hc
    obtain ⟨d', hg', hc'⟩ := hc12 i d n hg hc
    exact hc23 i d' n hg' hc'
  · rw [hf23, hf12, List.append_assoc]

theorem rootOf_eq_of_namePreserves {s s' : Subs} (h : namePreserves s s') (v : Var) :
    s'.utable.rootOf v = s.utable.rootOf v := by
  obtain ⟨hlen, htar, _, _⟩ := h
  unfold UnificationTable.rootOf
  rw [show UnificationTable.len s'.utable = UnificationTable.len s.utable from hlen]
  exact rootAux_eq_of_targets hlen (fun i _ => htar i) _ v

theorem getContent_of_namePreserves {s s' : Subs} (h : namePreserves s s') {v : Var}
    {n : Nat} (hc : s.getContent v = Content.flexVar (some n)) :
    s'.getContent v = Content.flexVar (some n) := by
  have hro := rootOf_eq_of_namePreserves h v
  obtain ⟨hlen, htar, hcp, ext, hf⟩ := h
  rw [Subs.getContent, Subs.getDesc, UnificationTable.probe] at hc ⊢
  rw [hro]
  cases hg : s.utable.getNode (s.utable.rootOf v) with
  | redirect w =>
    rw [hg] at hc
    simp [flex_var_descriptor, Descriptor.fromContent, unnamed_flex_var] at hc
  | root d =>
    rw [hg] at hc
    obtain ⟨d', hg', hc'⟩ := hcp _ d n hg hc
    rw [hg']
    exact hc'

theorem field_names_getD_of_namePreserves {s s' : Subs} (h : namePreserves s s') {i : Nat}
    (hi : i < s.field_names.length) :
    s'.field_names.getD i [] = s.field_names.getD i [] := by
  obtain ⟨_, _, _, ext, hf⟩ := h
  rw [hf, List.getD_eq_getElem?_getD, List.getD_eq_getElem?_getD, List.getElem?_append,
    if_pos hi]

theorem namePreserves_fieldPush (s : Subs) (l : List Name) :
    namePreserves s { s with field_names := s.field_names ++ l } :=
  ⟨rfl, fun _ => rfl, fun i d n hg hc => ⟨d, hg, hc⟩, l, rfl⟩

theorem namePreserves_setNodeLogged {s : Subs} {r : Var} {d0 : Descriptor}
    (hg : s.utable.getNode r = UFNode.root d0) (d1 : Descriptor)
    (hcd : d1.content = d0.content ∨ ∀ n, d0.content ≠ Content.flexVar (some n)) :
    namePreserves s { s with utable := s.utable.setNodeLogged r (UFNode.root d1) } := by
  refine ⟨setNodeLogged_length _ _ _, ?_, ?_, [], by simp⟩
  · intro i
    by_cases hir : i = r
    · subst hir
      by_cases hlt : i < s.utable.nodes.length
      · rw [redirectTargetOf, redirectTargetOf, getNode_setNodeLogged_same _ _ _ hlt, hg]
      · rw [UnificationTable.setNodeLogged, if_neg hlt]
    · rw [redirectTargetOf, redirectTargetOf, getNode_setNodeLogged_other _ _ _ _ hir]
  · intro i d n hgi hci
    by_cases hir : i = r
    · subst hir
      have hdd : d = d0 := UFNode.root.inj (hgi.symm.trans hg)
      subst hdd
      by_cases hlt : i < s.utable.nodes.length
      · refine ⟨d1, getNode_setNodeLogged_same _ _ _ hlt, ?_⟩
        cases hcd with
        | inl hsame => rw [hsame, hci]
        | inr hne => exact absurd hci (hne n)
      · rw [UnificationTable.setNodeLogged, if_neg hlt]
        exact ⟨d, hgi, hci⟩
    · exact ⟨d, by rw [getNode_setNodeLogged_other _ _ _ _ hir]; exact hgi, hci⟩

theorem namePreserves_set_mark (s : Subs) (v : Var) (m : Mark) :
    namePreserves s (s.set_mark v m) := by
  rw [Subs.set_mark]
  cases hg : s.utable.getNode (s.get_root_key v) with
  | redirect w =>
    have hupd : s.utable.updateRoot (s.get_root_key v)
        { s.utable.probe v with mark := m } = s.utable := by
      rw [UnificationTable.updateRoot, hg]
    rw [hupd]
    exact namePreserves_refl s
  | root d0 =>
    have hprobe : s.utable.probe v = d0 := by
      rw [UnificationTable.probe, show s.utable.rootOf v = s.get_root_key v from rfl, hg]
    have hupd : s.utable.updateRoot (s.get_root_key v) { s.utable.probe v with mark := m }
        = s.utable.setNodeLogged (s.get_root_key v) (UFNode.root { d0 with mark := m }) := by
      rw [UnificationTable.updateRoot, hg, hprobe]
    rw [hupd]
    exact namePreserves_setNodeLogged hg _ (Or.inl rfl)

theorem namePreserves_set_content {s : Subs} (v : Var) (c : Content)
    (hcv : ∀ n, s.getContent v ≠ Content.flexVar (some n)) :
    namePreserves s (s.set_content v c) := by
  rw [Subs.set_content]
  cases hg : s.utable.getNode (s.get_root_key v) with
  | redirect w =>
    have hupd : s.utable.updateRoot (s.get_root_key v)
        { s.utable.probe v with content := c } = s.utable := by
      rw [UnificationTable.updateRoot, hg]
    rw [hupd]
    exact namePreserves_refl s
  | root d0 =>
    have hprobe : s.utable.probe v = d0 := by
      rw [UnificationTable.probe, show s.utable.rootOf v = s.get_root_key v from rfl, hg]
    have hupd : s.utable.updateRoot (s.get_root_key v)
        { s.utable.probe v with content := c }
        = s.utable.setNodeLogged (s.get_root_key v) (UFNode.root { d0 with content := c }) := by
      rw [UnificationTable.updateRoot, hg, hprobe]
    rw [hupd]
    refine namePreserves_setNodeLogged hg _ (Or.inr ?_)
    intro n hn
    refine hcv n ?_
    rw [Subs.getContent, Subs.getDesc, hprobe]
    exact hn

theorem getContent_set_mark (s : Subs) (v : Var) (m : Mark) (u : Var) :
    (s.set_mark v m).getContent u = s.getContent u := by
  cases hg : s.utable.getNode (s.get_root_key v) with
  | redirect w =>
    have hteq : (s.set_mark v m).utable = s.utable := by
      rw [Subs.set_mark, UnificationTable.updateRoot, hg]
    rw [Subs.getContent, Subs.getContent, Subs.getDesc, Subs.getDesc,
      UnificationTable.probe, UnificationTable.probe, UnificationTable.rootOf,
      UnificationTable.rootOf, hteq]
  | root d0 =>
    have hprobe : s.utable.probe v = d0 := by
      rw [UnificationTable.probe, show s.utable.rootOf v = s.get_root_key v from rfl, hg]
    have hsetnode : (s.set_mark v m).utable
        = s.utable.setNodeLogged (s.get_root_key v) (UFNode.root { d0 with mark := m }) := by
      rw [Subs.set_mark, UnificationTable.updateRoot, hg, hprobe]
    have hro := rootOf_eq_of_namePreserves (namePreserves_set_mark s v m) u
    rw [Subs.getContent, Subs.getContent, Subs.getDesc, Subs.getDesc,
      UnificationTable.probe, UnificationTable.probe, hro]
    by_cases hru : s.utable.rootOf u = s.get_root_key v
    · rw [hru, hsetnode]
      by_cases hlt : s.get_root_key v < s.utable.nodes.length
      · rw [getNode_setNodeLogged_same _ _ _ hlt, hg]
      · rw [UnificationTable.setNodeLogged, if_neg hlt]
    · rw [hsetnode, getNode_setNodeLogged_other _ _ _ _ hru]

theorem persistFreshName_namePreserves {s : Subs} {st : ETState} {v : Var}
    {name : Name} {ni : Nat} {s2 : Subs} {st1 : ETState}
    (hcv : ∀ n, s.getContent v ≠ Content.flexVar (some n))
    (hpf : persistFreshName s st v = (name, ni, s2, st1)) :
    namePreserves s s2 := by
  rw [persistFreshName] at hpf
  cases hgf : getFreshVarName st with
  | mk name0 st10 =>
    rw [hgf] at hpf
    cases hpf
    exact namePreserves_trans (namePreserves_fieldPush s [name])
      (namePreserves_set_content v _ (fun n => hcv n))

theorem etVarsLoop_namePreserves
    {vt : Subs → ETState → Var → Except PFail (ErrorType × Subs × ETState)}
    (hvt : ∀ s st w out, vt s st w = Except.ok out → namePreserves s out.2.1) :
    ∀ (idxs : List Nat) (s : Subs) (st : ETState) (out : List ErrorType × Subs × ETState),
      etVarsLoop vt s st idxs = Except.ok out → namePreserves s out.2.1 := by
  intro idxs
  induction idxs with
  | nil =>
    intro s st out h
    cases h
    exact namePreserves_refl s
  | cons i rest ih =>
    intro s st out h
    simp only [etVarsLoop, Bind.bind] at h
    rw [exceptBind_eq_ok] at h
    obtain ⟨x, hx, h2⟩ := h
    obtain ⟨et, s1, st1⟩ := x
    rw [exceptBind_eq_ok] at h2
    obtain ⟨y, hy, h3⟩ := h2
    obtain ⟨ets, s2, st2⟩ := y
    have pih := ih _ _ _ hy
    cases h3
    exact namePreserves_trans (hvt _ _ _ _ hx) pih

theorem etFieldsLoop_namePreserves
    {vt : Subs → ETState → Var → Except PFail (ErrorType × Subs × ETState)}
    (hvt : ∀ s st w out, vt s st w = Except.ok out → namePreserves s out.2.1) :
    ∀ (n : Nat) (s : Subs) (st : ETState) (i1 i2 i3 : Nat)
      (out : List (Name × RecordFieldKind × ErrorType) × Subs × ETState),
      etFieldsLoop vt s st i1 i2 i3 n = Except.ok out → namePreserves s out.2.1 := by
  intro n
  induction n with
  | zero =>
    intro s st i1 i2 i3 out h
    cases h
    exact namePreserves_refl s
  | succ m ih =>
    intro s st i1 i2 i3 out h
    simp only [etFieldsLoop, Bind.bind] at h
    rw [exceptBind_eq_ok] at h
    obtain ⟨x, hx, h2⟩ := h
    obtain ⟨et, s1, st1⟩ := x
    rw [exceptBind_eq_ok] at h2
    obtain ⟨y, hy, h3⟩ := h2
    obtain ⟨rest, s2, st2⟩ := y
    have pih := ih _ _ _ _ _ _ hy
    cases h3
    exact namePreserves_trans (hvt _ _ _ _ hx) pih

theorem etTagsLoop_namePreserves
    {vt : Subs → ETState → Var → Except PFail (ErrorType × Subs × ETState)}
    (hvt : ∀ s st w out, vt s st w = Except.ok out → namePreserves s out.2.1) :
    ∀ (n : Nat) (s : Subs) (st : ETState) (ni si : Nat)
      (out : List (TagName × List ErrorType) × Subs × ETState),
      etTagsLoop vt s st ni si n = Except.ok out → namePreserves s out.2.1 := by
  intro n
  induction n with
  | zero =>
    intro s st ni si out h
    cases h
    exact namePreserves_refl s
  | succ m ih =>
    intro s st ni si out h
    simp only [etTagsLoop, Bind.bind] at h
    rw [exceptBind_eq_ok] at h
    obtain ⟨x, hx, h2⟩ := h
    obtain ⟨ets, s1, st1⟩ := x
    rw [exceptBind_eq_ok] at h2
    obtain ⟨y, hy, h3⟩ := h2
    obtain ⟨rest, s2, st2⟩ := y
    have pih := ih _ _ _ _ _ hy
    cases h3
    exact namePreserves_trans (etVarsLoop_namePreserves hvt _ _ _ _ hx) pih

theorem flatTypeToErrType_namePreserves
    {vt : Subs → ETState → Var → Except PFail (ErrorType × Subs × ETState)}
    (hvt : ∀ s st w out, vt s st w = Except.ok out → namePreserves s out.2.1) :
    ∀ (ft : FlatType) (s : Subs) (st : ETState) (out : ErrorType × Subs × ETState),
      flatTypeToErrType vt s st ft = Except.ok out → namePreserves s out.2.1 := by
  intro ft s st out h
  cases ft with
  | apply symbol args =>
    simp only [flatTypeToErrType, Bind.bind] at h
    rw [exceptBind_eq_ok] at h
    obtain ⟨x, hx, h2⟩ := h
    obtain ⟨argTypes, s1, st1⟩ := x
    cases h2
    exact etVarsLoop_namePreserves hvt _ _ _ _ hx
  | func args closureVar retVar =>
    simp only [flatTypeToErrType, Bind.bind] at h
    rw [exceptBind_eq_ok] at h
    obtain ⟨x, hx, h2⟩ := h
    obtain ⟨argTypes, s1, st1⟩ := x
    rw [exceptBind_eq_ok] at h2
    obtain ⟨y, hy, h3⟩ := h2
    obtain ⟨ret, s2, st2⟩ := y
    rw [exceptBind_eq_ok] at h3
    obtain ⟨z, hz, h4⟩ := h3
    obtain ⟨closure, s3, st3⟩ := z
    have p1 := etVarsLoop_namePreserves hvt _ _ _ _ hx
    have p2 := hvt _ _ _ _ hy
    have p3 := hvt _ _ _ _ hz
    cases h4
    exact namePreserves_trans p1 (namePreserves_trans p2 p3)
  | emptyRecord =>
    cases h
    exact namePreserves_refl s
  | emptyTagUnion =>
    cases h
    exact namePreserves_refl s
  | record fields ext =>
    simp only [flatTypeToErrType, Bind.bind] at h
    rw [exceptBind_eq_ok] at h
    obtain ⟨x, hx, h2⟩ := h
    obtain ⟨errFields, s1, st1⟩ := x
    rw [exceptBind_eq_ok] at h2
    obtain ⟨y, hy, h3⟩ := h2
    obtain ⟨extType, s2, st2⟩ := y
    have p2 := namePreserves_trans (etFieldsLoop_namePreserves hvt _ _ _ _ _ _ _ hx)
      (hvt _ _ _ _ hy)
    cases hu : unwrapStructuralAlias extType <;> rw [hu] at h3 <;>
      first
        | (cases h3; exact p2)
        | exact Except.noConfusion h3
  | tagUnion tags ext =>
    simp only [flatTypeToErrType, Bind.bind] at h
    rw [exceptBind_eq_ok] at h
    obtain ⟨x, hx, h2⟩ := h
    obtain ⟨errTags, s1, st1⟩ := x
    rw [exceptBind_eq_ok] at h2
    obtain ⟨y, hy, h3⟩ := h2
    obtain ⟨extType, s2, st2⟩ := y
    have p2 := namePreserves_trans (etTagsLoop_namePreserves hvt _ _ _ _ _ _ hx)
      (hvt _ _ _ _ hy)
    cases hu : unwrapStructuralAlias extType <;> rw [hu] at h3 <;>
      first
        | (cases h3; exact p2)
        | exact Except.noConfusion h3
  | functionOrTagUnion tagNameIdx symbol ext =>
    simp only [flatTypeToErrType, Bind.bind] at h
    rw [exceptBind_eq_ok] at h
    obtain ⟨x, hx, h2⟩ := h
    obtain ⟨extType, s1, st1⟩ := x
    have p1 := hvt _ _ _ _ hx
    cases hu : unwrapStructuralAlias extType <;> rw [hu] at h2 <;>
      first
        | (cases h2; exact p1)
        | exact Except.noConfusion h2
  | recursiveTagUnion recVar tags ext =>
    simp only [flatTypeToErrType, Bind.bind] at h
    rw [exceptBind_eq_ok] at h
    obtain ⟨x, hx, h2⟩ := h
    obtain ⟨errTags, s1, st1⟩ := x
    rw [exceptBind_eq_ok] at h2
    obtain ⟨y, hy, h3⟩ := h2
    obtain ⟨recType, s2, st2⟩ := y
    rw [exceptBind_eq_ok] at h3
    obtain ⟨z, hz, h4⟩ := h3
    obtain ⟨extType, s3, st3⟩ := z
    have p3 := namePreserves_trans (etTagsLoop_namePreserves hvt _ _ _ _ _ _ hx)
      (namePreserves_trans (hvt _ _ _ _ hy) (hvt _ _ _ _ hz))
    cases hu : unwrapStructuralAlias extType <;> rw [hu] at h4 <;>
      first
        | (cases h4; exact p3)
        | exact Except.noConfusion h4
  | erroneous problemIdx =>
    cases h
    exact namePreserves_refl s

theorem contentToErrType_namePreserves
    {vt : Subs → ETState → Var → Except PFail (ErrorType × Subs × ETState)}
    (hvt : ∀ s st w out, vt s st w = Except.ok out → namePreserves s out.2.1) :
    ∀ (c : Content) (s : Subs) (st : ETState) (v : Var) (out : ErrorType × Subs × ETState),
      s.getContent v = c → contentToErrType vt s st v c = Except.ok out →
      namePreserves s out.2.1 := by
  intro c s st v out hcg h
  cases c with
  | struct flatType =>
    exact flatTypeToErrType_namePreserves hvt _ _ _ _ h
  | flexVar optName =>
    cases optName with
    | some ni =>
      cases h
      exact namePreserves_refl s
    | none =>
      simp only [contentToErrType] at h
      rcases hpf : persistFreshName s st v with ⟨name, ni, s2, st1⟩
      rw [hpf] at h
      cases h
      exact persistFreshName_namePreserves
        (fun n hn => by rw [hcg] at hn; exact Option.noConfusion (Content.flexVar.inj hn)) hpf
  | rigidVar ni =>
    cases h
    exact namePreserves_refl s
  | flexAbleVar optName ability =>
    cases optName with
    | some ni =>
      cases h
      exact namePreserves_refl s
    | none =>
      simp only [contentToErrType] at h
      rcases hpf : persistFreshName s st v with ⟨name, ni, s2, st1⟩
      rw [hpf] at h
      cases h
      exact persistFreshName_namePreserves
        (fun n hn => by rw [hcg] at hn; exact Content.noConfusion hn) hpf
  | rigidAbleVar ni ability =>
    cases h
    exact namePreserves_refl s
  | recursionVar structVar optName =>
    simp only [contentToErrType] at h
    cases optName with
    | some ni =>
      by_cases hsn : st.recursive_tag_unions_seen.contains v = true
      · rw [if_pos hsn] at h
        cases h
        exact namePreserves_refl s
      · rw [if_neg hsn] at h
        exact hvt _ _ _ _ h
    | none =>
      rcases hpf : persistFreshName s st v with ⟨name, ni, s2, st1⟩
      rw [hpf] at h
      have hpp := persistFreshName_namePreserves
        (fun n hn => by rw [hcg] at hn; exact Content.noConfusion hn) hpf
      by_cases hsn : st1.recursive_tag_unions_seen.contains v = true
      · rw [if_pos hsn] at h
        cases h
        exact hpp
      · rw [if_neg hsn] at h
        exact namePreserves_trans hpp (hvt _ _ _ _ h)
  | «alias» symbol args realVar kind =>
    simp only [contentToErrType, Bind.bind] at h
    rw [exceptBind_eq_ok] at h
    obtain ⟨x, hx, h2⟩ := h
    obtain ⟨et, s1, st1⟩ := x
    rw [exceptBind_eq_ok] at h2
    obtain ⟨y, hy, h3⟩ := h2
    obtain ⟨errArgs, s2, st2⟩ := y
    have p1 := hvt _ _ _ _ hx
    have p2 := etVarsLoop_namePreserves hvt _ _ _ _ hy
    cases h3
    exact namePreserves_trans p1 p2
  | rangedNumber typ rangeVars =>
    simp only [contentToErrType, Bind.bind] at h
    rw [exceptBind_eq_ok] at h
    obtain ⟨x, hx, h2⟩ := h
    obtain ⟨et, s1, st1⟩ := x
    have p1 := hvt _ _ _ _ hx
    by_cases hctx : st1.context = ErrorTypeContext.expandRanges
    · rw [if_pos hctx] at h2
      simp only [Bind.bind] at h2
      rw [exceptBind_eq_ok] at h2
      obtain ⟨y, hy, h3⟩ := h2
      obtain ⟨types, s2, st2⟩ := y
      have p2 := etVarsLoop_namePreserves hvt _ _ _ _ hy
      cases h3
      exact namePreserves_trans p1 p2
    · rw [if_neg hctx] at h2
      cases h2
      exact p1
  | error =>
    cases h
    exact namePreserves_refl s

theorem varToErrType_namePreserves :
    ∀ (fuel : Nat) (s : Subs) (st : ETState) (v : Var) (out : ErrorType × Subs × ETState),
      varToErrType fuel s st v = Except.ok out → namePreserves s out.2.1 := by
  intro fuel
  induction fuel with
  | zero =>
    intro s st v out h
    exact absurd h (by simp [varToErrType])
  | succ f ih =>
    intro s st v out h
    have hvt : ∀ s1 st1 w o, varToErrType f s1 st1 w = Except.ok o →
        namePreserves s1 o.2.1 := fun s1 st1 w o ho => ih s1 st1 w o ho
    simp only [varToErrType] at h
    by_cases hm : (s.getDesc v).mark = Mark.OCCURS
    · rw [if_pos hm] at h
      cases h
      exact namePreserves_refl s
    · rw [if_neg hm] at h
      cases hcc : contentToErrType (varToErrType f) (s.set_mark v Mark.OCCURS) st v
          (s.getDesc v).content with
      | error e =>
        rw [hcc] at h
        exact Except.noConfusion h
      | ok x =>
        obtain ⟨et2, s2, st2⟩ := x
        rw [hcc] at h
        cases h
        have hcv1 : (s.set_mark v Mark.OCCURS).getContent v = (s.getDesc v).content := by
          rw [getContent_set_mark]
          rfl
        exact namePreserves_trans (namePreserves_set_mark s v Mark.OCCURS)
          (namePreserves_trans (contentToErrType_namePreserves hvt _ _ _ _ _ hcv1 hcc)
            (namePreserves_set_mark s2 v _))

theorem chain_of_namePreserves {s s' : Subs} (h : namePreserves s s') {v r : Var} {k : Nat}
    (hch : RedirectChain s.utable v r k) (hr : r < s.utable.nodes.length) :
    RedirectChain s'.utable v r k := by
  obtain ⟨hlen, htar, _, _⟩ := h
  induction hch with
  | root h0 =>
    apply RedirectChain.root
    apply redirectTarget_none_isRoot
    rw [htar]
    obtain ⟨d, hd⟩ := (isRoot_iff _ _).mp h0
    rw [redirectTargetOf, hd]
  | @step v w rr kk hred hch2 ih =>
    refine RedirectChain.step ?_ (ih hr)
    apply redirectTarget_some_getNode
    rw [htar, redirectTargetOf, hred]

theorem set_content_read_back {s : Subs} {v r0 : Var} {k0 : Nat}
    (hch : RedirectChain s.utable v r0 k0) (hk : k0 ≤ s.utable.len)
    (hlt : r0 < s.utable.nodes.length) (c : Content) :
    (s.set_content v c).getContent v = c := by
  obtain ⟨hgF, hothF, hlenF⟩ := set_content_via_chain hch hk hlt c
  have hchF : RedirectChain (s.set_content v c).utable v r0 k0 := by
    refine chain_preserved ?_ hch ?_
    · intro i hne
      by_cases hir : i = r0
      · subst hir
        exact chain_root_isRoot hch
      · exact absurd (hothF i hir) hne
    · rw [UnificationTable.isRoot, hgF]
  have hk' : k0 ≤ (s.set_content v c).utable.len := by
    show k0 ≤ (s.set_content v c).utable.nodes.length
    rw [hlenF]
    exact hk
  rw [Subs.getContent, getDesc_via_chain hchF hk' hgF]

theorem persistFreshName_eq (s : Subs) (st : ETState) (v : Var) :
    persistFreshName s st v = ((getFreshVarName st).1, s.field_names.length,
      ({ s with field_names := s.field_names ++ [(getFreshVarName st).1] }).set_content v
        (Content.flexVar (some s.field_names.length)), (getFreshVarName st).2) := rfl

/-- C10: when the projection reaches an unnamed `FlexAbleVar`, it returns
`ErrorType::FlexAbleVar(fresh_name, ability)` but persists plain
`FlexVar(Some(fresh_name))` into the store, discarding the ability; when it
reaches an unnamed `RecursionVar` not on the recursive-tag-union path, it
likewise persists `FlexVar(Some(fresh_name))`, discarding the structure
back-reference, and the content survives the recursion into the structure. -/
theorem c10_flex_naming :
    (∀ (fuel : Nat) (s : Subs) (st : ETState) (v r0 : Var) (k0 : Nat) (ability : Symbol)
       (et : ErrorType) (s' : Subs) (st' : ETState),
       s.getContent v = Content.flexAbleVar none ability →
       (s.getDesc v).mark ≠ Mark.OCCURS →
       RedirectChain s.utable v r0 k0 → k0 ≤ s.len → r0 < s.len →
       varToErrType (fuel + 1) s st v = Except.ok (et, s', st') →
       et = ErrorType.flexAbleVar (getFreshVarName st).1 ability
       ∧ s'.getContent v = Content.flexVar (some s.field_names.length)
       ∧ s'.field_names.getD s.field_names.length [] = (getFreshVarName st).1)
    ∧ (∀ (fuel : Nat) (s : Subs) (st : ETState) (v structVar r0 : Var) (k0 : Nat)
       (et : ErrorType) (s' : Subs) (st' : ETState),
       s.getContent v = Content.recursionVar structVar none →
       (s.getDesc v).mark ≠ Mark.OCCURS →
       st.recursive_tag_unions_seen.contains v = false →
       RedirectChain s.utable v r0 k0 → k0 ≤ s.len → r0 < s.len →
       varToErrType (fuel + 1) s st v = Except.ok (et, s', st') →
       s'.getContent v = Content.flexVar (some s.field_names.length)
       ∧ s'.field_names.getD s.field_names.length [] = (getFreshVarName st).1) := by
  constructor
  · intro fuel s st v r0 k0 ability et s' st' hc hm hch hk hr0 hres
    simp only [varToErrType] at hres
    rw [if_neg hm] at hres
    rw [show (s.getDesc v).content = Content.flexAbleVar none ability from hc] at hres
    simp only [contentToErrType] at hres
    rw [persistFreshName_eq] at hres
    have hinj := Except.ok.inj hres
    cases hinj
    have hch1 : RedirectChain ({ s.set_mark v Mark.OCCURS with
        field_names := (s.set_mark v Mark.OCCURS).field_names
          ++ [(getFreshVarName st).1] } : Subs).utable v r0 k0 :=
      chain_of_namePreserves (namePreserves_set_mark s v Mark.OCCURS) hch hr0
    have hk1 : k0 ≤ ({ s.set_mark v Mark.OCCURS with
        field_names := (s.set_mark v Mark.OCCURS).field_names
          ++ [(getFreshVarName st).1] } : Subs).utable.len := by
      show k0 ≤ (s.set_mark v Mark.OCCURS).utable.nodes.length
      rw [(namePreserves_set_mark s v Mark.OCCURS).1]
      exact hk
    have hlt1 : r0 < ({ s.set_mark v Mark.OCCURS with
        field_names := (s.set_mark v Mark.OCCURS).field_names
          ++ [(getFreshVarName st).1] } : Subs).utable.nodes.length := by
      show r0 < (s.set_mark v Mark.OCCURS).utable.nodes.length
      rw [(namePreserves_set_mark s v Mark.OCCURS).1]
      exact hr0
    refine ⟨rfl, ?_, ?_⟩
    · rw [getContent_set_mark]
      exact set_content_read_back hch1 hk1 hlt1 _
    · show ((s.field_names ++ [(getFreshVarName st).1]).getD s.field_names.length [])
        = (getFreshVarName st).1
      rw [List.getD_eq_getElem?_getD, List.getElem?_concat_length]
      rfl
  · intro fuel s st v structVar r0 k0 et s' st' hc hm hseen hch hk hr0 hres
    simp only [varToErrType] at hres
    rw [if_neg hm] at hres
    rw [show (s.getDesc v).content = Content.recursionVar structVar none from hc] at hres
    simp only [contentToErrType] at hres
    rw [persistFreshName_eq] at hres
    have hned : ¬((getFreshVarName st).2.recursive_tag_unions_seen.contains v = true) := by
      rw [show (getFreshVarName st).2.recursive_tag_unions_seen
        = st.recursive_tag_unions_seen from rfl, hseen]
      simp
    rw [if_neg hned] at hres
    cases hrec : varToErrType fuel (({ s.set_mark v Mark.OCCURS with
        field_names := (s.set_mark v Mark.OCCURS).field_names
          ++ [(getFreshVarName st).1] } : Subs).set_content v
        (Content.flexVar (some (s.set_mark v Mark.OCCURS).field_names.length)))
        (getFreshVarName st).2 structVar with
    | error e =>
      rw [hrec] at hres
      exact Except.noConfusion hres
    | ok x =>
      obtain ⟨et2, s3, st3⟩ := x
      rw [hrec] at hres
      have hinj := Except.ok.inj hres
      cases hinj
      have hch1 : RedirectChain ({ s.set_mark v Mark.OCCURS with
          field_names := (s.set_mark v Mark.OCCURS).field_names
            ++ [(getFreshVarName st).1] } : Subs).utable v r0 k0 :=
        chain_of_namePreserves (namePreserves_set_mark s v Mark.OCCURS) hch hr0
      have hk1 : k0 ≤ ({ s.set_mark v Mark.OCCURS with
          field_names := (s.set_mark v Mark.OCCURS).field_names
            ++ [(getFreshVarName st).1] } : Subs).utable.len := by
        show k0 ≤ (s.set_mark v Mark.OCCURS).utable.nodes.length
        rw [(namePreserves_set_mark s v Mark.OCCURS).1]
        exact hk
      have hlt1 : r0 < ({ s.set_mark v Mark.OCCURS with
          field_names := (s.set_mark v Mark.OCCURS).field_names
            ++ [(getFreshVarName st).1] } : Subs).utable.nodes.length := by
        show r0 < (s.set_mark v Mark.OCCURS).utable.nodes.length
        rw [(namePreserves_set_mark s v Mark.OCCURS).1]
        exact hr0
      have hnp3 := varToErrType_namePreserves fuel _ _ _ _ hrec
      have hcb := set_content_read_back hch1 hk1 hlt1
        (Content.flexVar (some (s.set_mark v Mark.OCCURS).field_names.length))
      constructor
      · rw [getContent_set_mark]
        exact getContent_of_namePreserves hnp3 hcb
      · have hi : s.field_names.length
            < (s.field_names ++ [(getFreshVarName st).1]).length := by
          rw [List.length_append, List.length_singleton]
          exact Nat.lt_succ_self _
        have hgd := field_names_getD_of_namePreserves hnp3 hi
        show s3.field_names.getD s.field_names.length [] = (getFreshVarName st).1
        rw [hgd]
        show ((s.field_names ++ [(getFreshVarName st).1]).getD s.field_names.length [])
          = (getFreshVarName st).1
        rw [List.getD_eq_getElem?_getD, List.getElem?_concat_length]
        rfl

theorem c10_witness :
    ableRes.2.1.getContent 0 = Content.flexVar (some 0)
    ∧ recRes.2.1.getContent 0 = Content.flexVar (some 0) :=
  ⟨((c10_flex_naming.1 1 ableStore etInitState 0 0 0 5 ableRes.1 ableRes.2.1 ableRes.2.2
      (by decide) (by decide) (RedirectChain.root (by decide)) (by decide) (by decide)
      rfl).2).1,
   (c10_flex_naming.2 2 recVarStore etInitState 0 1 0 0 recRes.1 recRes.2.1 recRes.2.2
      (by decide) (by decide) (by decide) (RedirectChain.root (by decide)) (by decide)
      (by decide) rfl).1⟩

theorem regExt_refl (env : CIEnv) : RegExt env env :=
  ⟨[], by simp⟩

theorem regExt_trans {a b c : CIEnv} (h1 : RegExt a b) (h2 : RegExt b c) : RegExt a c := by
  obtain ⟨l1, hl1⟩ := h1
  obtain ⟨l2, hl2⟩ := h2
  exact ⟨l1 ++ l2, by rw [hl2, hl1, List.append_assoc]⟩

theorem ciVarsLoop_regExt {ci : CIEnv → Var → Option (Var × CIEnv)}
    (hci : ∀ env v out, ci env v = some out → RegExt env out.2) :
    ∀ (n : Nat) (env : CIEnv) (ti si : Nat) (out : CIEnv),
      ciVarsLoop ci env ti si n = some out → RegExt env out := by
  intro n
  induction n with
  | zero =>
    intro env ti si out h
    cases h
    exact regExt_refl env
  | succ m ih =>
    intro env ti si out h
    simp only [ciVarsLoop, Bind.bind] at h
    rw [Option.bind_eq_some] at h
    obtain ⟨x, hx, h2⟩ := h
    obtain ⟨copy_var, env1⟩ := x
    have pih := ih _ _ _ _ h2
    exact regExt_trans (hci _ _ _ hx) pih

theorem ciTagsLoop_regExt {ci : CIEnv → Var → Option (Var × CIEnv)}
    (hci : ∀ env v out, ci env v = some out → RegExt env out.2) :
    ∀ (n : Nat) (env : CIEnv) (ti si : Nat) (out : CIEnv),
      ciTagsLoop ci env ti si n = some out → RegExt env out := by
  intro n
  induction n with
  | zero =>
    intro env ti si out h
    cases h
    exact regExt_refl env
  | succ m ih =>
    intro env ti si out h
    simp only [ciTagsLoop, VariableSubsSlice.reserve_into_subs, Bind.bind] at h
    rw [Option.bind_eq_some] at h
    obtain ⟨env1, hx, h2⟩ := h
    have pih := ih _ _ _ _ h2
    have p1 := ciVarsLoop_regExt hci _ _ _ _ _ hx
    exact regExt_trans p1 pih

theorem ciCopyContent_spec {ci : CIEnv → Var → Option (Var × CIEnv)} {max_rank : Rank}
    (hci : ∀ env v out, ci env v = some out → RegExt env out.2) :
    ∀ (c : Content) (env : CIEnv) (var cp : Var) (out : Var × CIEnv),
      ciCopyContent ci max_rank env var cp c = some out →
      out.1 = cp ∧ RegExt env out.2 := by
  intro c env var cp out h
  cases c with
  | struct ft =>
    cases ft with
    | erroneous p =>
      cases h
      exact ⟨rfl, regExt_refl env⟩
    | apply symbol arguments =>
      simp only [ciCopyContent, VariableSubsSlice.reserve_into_subs, Bind.bind] at h
      rw [Option.bind_eq_some] at h
      obtain ⟨env1, hx, h2⟩ := h
      have p1 := ciVarsLoop_regExt hci _ _ _ _ _ hx
      cases h2
      exact ⟨rfl, p1⟩
    | func arguments closureVar retVar =>
      simp only [ciCopyContent, VariableSubsSlice.reserve_into_subs, Bind.bind] at h
      rw [Option.bind_eq_some] at h
      obtain ⟨x, hx, h2⟩ := h
      obtain ⟨new_ret, env1⟩ := x
      rw [Option.bind_eq_some] at h2
      obtain ⟨y, hy, h3⟩ := h2
      obtain ⟨new_closure, env2⟩ := y
      rw [Option.bind_eq_some] at h3
      obtain ⟨env3, hz, h4⟩ := h3
      have p1 := hci _ _ _ hx
      have p2 := hci _ _ _ hy
      have p3 := ciVarsLoop_regExt hci _ _ _ _ _ hz
      cases h4
      exact ⟨rfl, regExt_trans p1 (regExt_trans p2 p3)⟩
    | emptyRecord =>
      cases h
      exact ⟨rfl, regExt_refl env⟩
    | emptyTagUnion =>
      cases h
      exact ⟨rfl, regExt_refl env⟩
    | record fields ext =>
      simp only [ciCopyContent, VariableSubsSlice.reserve_into_subs, Bind.bind] at h
      rw [Option.bind_eq_some] at h
      obtain ⟨env1, hx, h2⟩ := h
      rw [Option.bind_eq_some] at h2
      obtain ⟨y, hy, h3⟩ := h2
      obtain ⟨new_ext, env3⟩ := y
      have p1 := ciVarsLoop_regExt hci _ _ _ _ _ hx
      have p2 := hci _ _ _ hy
      cases h3
      exact ⟨rfl, regExt_trans p1 p2⟩
    | tagUnion tags ext =>
      simp only [ciCopyContent, SubsSliceN.reserve_variable_slices, Bind.bind] at h
      rw [Option.bind_eq_some] at h
      obtain ⟨x, hx, h2⟩ := h
      obtain ⟨new_ext, env1⟩ := x
      rw [Option.bind_eq_some] at h2
      obtain ⟨env2, hy, h3⟩ := h2
      have p1 := hci _ _ _ hx
      have p2 := ciTagsLoop_regExt hci _ _ _ _ _ hy
      cases h3
      exact ⟨rfl, regExt_trans p1 p2⟩
    | functionOrTagUnion tn symbol ext =>
      simp only [ciCopyContent, Bind.bind] at h
      rw [Option.bind_eq_some] at h
      obtain ⟨x, hx, h2⟩ := h
      obtain ⟨new_ext, env2⟩ := x
      have p1 := hci _ _ _ hx
      cases h2
      exact ⟨rfl, p1⟩
    | recursiveTagUnion recVar tags ext =>
      simp only [ciCopyContent, SubsSliceN.reserve_variable_slices, Bind.bind] at h
      rw [Option.bind_eq_some] at h
      obtain ⟨env1, hx, h2⟩ := h
      rw [Option.bind_eq_some] at h2
      obtain ⟨y, hy, h3⟩ := h2
      obtain ⟨new_ext, env3⟩ := y
      rw [Option.bind_eq_some] at h3
      obtain ⟨z, hz, h4⟩ := h3
      obtain ⟨new_rec, env4⟩ := z
      have p1 := ciTagsLoop_regExt hci _ _ _ _ _ hx
      have p2 := hci _ _ _ hy
      have p3 := hci _ _ _ hz
      cases h4
      exact ⟨rfl, regExt_trans p1 (regExt_trans p2 p3)⟩
  | flexVar optName =>
    cases optName with
    | some ni =>
      cases h
      exact ⟨rfl, regExt_refl env⟩
    | none =>
      cases h
      exact ⟨rfl, regExt_refl env⟩
  | flexAbleVar optName ability =>
    cases optName with
    | some ni =>
      cases h
      exact ⟨rfl, regExt_refl env⟩
    | none =>
      cases h
      exact ⟨rfl, regExt_refl env⟩
  | error =>
    cases h
    exact ⟨rfl, regExt_refl env⟩
  | rigidVar ni =>
    cases h
    exact ⟨rfl, regExt_refl env⟩
  | rigidAbleVar ni ability =>
    cases h
    exact ⟨rfl, regExt_refl env⟩
  | recursionVar structVar optName =>
    simp only [ciCopyContent, Bind.bind] at h
    rw [Option.bind_eq_some] at h
    obtain ⟨x, hx, h2⟩ := h
    obtain ⟨new_structure, env1⟩ := x
    have p1 := hci _ _ _ hx
    cases h2
    exact ⟨rfl, p1⟩
  | «alias» symbol arguments realVar kind =>
    simp only [ciCopyContent, VariableSubsSlice.reserve_into_subs, Bind.bind] at h
    rw [Option.bind_eq_some] at h
    obtain ⟨env1, hx, h2⟩ := h
    rw [Option.bind_eq_some] at h2
    obtain ⟨y, hy, h3⟩ := h2
    obtain ⟨new_real, env2⟩ := y
    have p1 := ciVarsLoop_regExt hci _ _ _ _ _ hx
    have p2 := hci _ _ _ hy
    cases h3
    exact ⟨rfl, regExt_trans p1 p2⟩
  | rangedNumber typ vars =>
    simp only [ciCopyContent, VariableSubsSlice.reserve_into_subs, Bind.bind] at h
    rw [Option.bind_eq_some] at h
    obtain ⟨x, hx, h2⟩ := h
    obtain ⟨new_typ, env1⟩ := x
    rw [Option.bind_eq_some] at h2
    obtain ⟨env2, hy, h3⟩ := h2
    have p1 := hci _ _ _ hx
    have p2 := ciVarsLoop_regExt hci _ _ _ _ _ hy
    cases h3
    exact ⟨rfl, regExt_trans p1 p2⟩

theorem copyImportToHelp_regExt :
    ∀ (fuel : Nat) (max_rank : Rank) (env : CIEnv) (var : Var) (out : Var × CIEnv),
      copyImportToHelp fuel max_rank env var = some out → RegExt env out.2 := by
  intro fuel
  induction fuel with
  | zero =>
    intro max_rank env var out h
    exact absurd h (by simp [copyImportToHelp])
  | succ f ih =>
    intro max_rank env var out h
    have hci : ∀ env1 v o, copyImportToHelp f max_rank env1 v = some o →
        RegExt env1 o.2 := fun env1 v o ho => ih max_rank env1 v o ho
    simp only [copyImportToHelp, Subs.fresh, Bind.bind] at h
    by_cases hcp : (env.source.getDesc var).copy ≠ 0
    · rw [if_pos hcp] at h
      cases h
      exact regExt_refl env
    · rw [if_neg hcp] at h
      have hstep := (ciCopyContent_spec hci _ _ _ _ _ h).2
      refine regExt_trans ?_ hstep
      by_cases hreg : is_registered (env.source.getDesc var).content = true
      · refine ⟨[env.target.utable.len], ?_⟩
        show (if is_registered (env.source.getDesc var).content
            then env.registered ++ [env.target.utable.len] else env.registered)
          = env.registered ++ [env.target.utable.len]
        rw [if_pos hreg]
      · refine ⟨[], ?_⟩
        show (if is_registered (env.source.getDesc var).content
            then env.registered ++ [env.target.utable.len] else env.registered)
          = env.registered ++ []
        rw [if_neg hreg, List.append_nil]

/-- C8: `is_registered` classifies contents exactly as the claim states (not a
flex/rigid (able) variable and not an empty record or empty tag union
structure), and during `copy_import_to_help` the freshly allocated target
variable is appended to the `registered` list iff `is_registered` holds of the
source content; everything appended after it comes from the recursive
copies. -/
theorem c8_registered_iff :
    (∀ c, is_registered c = registeredSpec c)
    ∧ (∀ (fuel : Nat) (max_rank : Rank) (env : CIEnv) (var copy : Var) (env2 : CIEnv),
        copyImportToHelp (fuel + 1) max_rank env var = some (copy, env2) →
        (env.source.getDesc var).copy = 0 →
        copy = env.target.len
        ∧ ∃ rest, env2.registered = env.registered
            ++ (if is_registered ((env.source.getDesc var).content) then [copy] else [])
            ++ rest) := by
  constructor
  · intro c
    cases c with
    | flexVar o => rfl
    | rigidVar n => rfl
    | flexAbleVar o a => rfl
    | rigidAbleVar n a => rfl
    | struct ft => cases ft <;> rfl
    | recursionVar s o => rfl
    | «alias» s a r k => rfl
    | rangedNumber t v => rfl
    | error => rfl
  · intro fuel max_rank env var copy env2 hres hcp0
    have hci : ∀ env1 v o, copyImportToHelp fuel max_rank env1 v = some o →
        RegExt env1 o.2 :=
      fun env1 v o ho => copyImportToHelp_regExt fuel max_rank env1 v o ho
    simp only [copyImportToHelp, Subs.fresh, Bind.bind] at hres
    rw [if_neg (fun hh => hh hcp0)] at hres
    have hspec := ciCopyContent_spec hci _ _ _ _ _ hres
    refine ⟨hspec.1, ?_⟩
    obtain ⟨rest, hrest⟩ := hspec.2
    have hconv : env2.registered
        = (if is_registered ((env.source.getDesc var).content)
            then env.registered ++ [env.target.utable.len] else env.registered) ++ rest :=
      hrest
    have hcopy : copy = env.target.utable.len := hspec.1
    refine ⟨rest, ?_⟩
    rw [hconv, hcopy]
    by_cases hreg : is_registered ((env.source.getDesc var).content) = true
    · rw [if_pos hreg, if_pos hreg]
    · rw [if_neg hreg, if_neg hreg, List.append_nil]

theorem c8_witness :
    (ciScenarioEnv.source.getDesc 0).copy = 0
    ∧ ciScenarioRes.1 = ciScenarioEnv.target.len :=
  ⟨by decide,
   (c8_registered_iff.2 1 Rank.importRank ciScenarioEnv 0 ciScenarioRes.1 ciScenarioRes.2
      rfl (by decide)).1⟩

theorem arenaSlice_append {α : Type} (l ext : List α) (start len : Nat) (d : α)
    (h : start + len ≤ l.length) :
    arenaSlice (l ++ ext) start len d = arenaSlice l start len d := by
  unfold arenaSlice SubsSliceN.indicesList
  rw [List.map_map, List.map_map]
  apply List.map_congr_left
  intro k hk
  rw [List.mem_range] at hk
  have hk2 : k < len := hk
  simp only [Function.comp]
  rw [List.getD_eq_getElem?_getD, List.getD_eq_getElem?_getD, List.getElem?_append,
    if_pos (by omega)]

theorem arenaSlice_read_back {α : Type} (pre n : List α) (d : α) :
    arenaSlice (pre ++ n) pre.length n.length d = n := by
  unfold arenaSlice SubsSliceN.indicesList
  rw [List.map_map]
  apply List.ext_getElem?
  intro i
  by_cases hi : i < n.length
  · rw [List.getElem?_map, List.getElem?_range hi]
    show some ((pre ++ n).getD (pre.length + i) d) = n[i]?
    rw [List.getD_eq_getElem?_getD, List.getElem?_append_right (by omega)]
    rw [show pre.length + i - pre.length = i by omega]
    rw [List.getElem?_eq_getElem hi]
    rfl
  · have h1 : ((List.range (SubsSliceN.mk pre.length n.length).length).map
        ((fun j => (pre ++ n).getD j d) ∘ fun k => pre.length + k))[i]? = none := by
      apply List.getElem?_eq_none
      rw [List.length_map, List.length_range]
      exact Nat.le_of_not_lt hi
    have h2 : n[i]? = none := List.getElem?_eq_none (Nat.le_of_not_lt hi)
    rw [h1, h2]

theorem fieldNames_roundtrip :
    ∀ (names : List Name) (pre : List Nat),
      (∀ n ∈ names, n.length < 65536) →
      deserializeFieldNames (serializeFieldNamesFrom pre.length names).1
        (pre ++ (serializeFieldNamesFrom pre.length names).2) = names := by
  intro names
  induction names with
  | nil =>
    intro pre hlen
    rfl
  | cons name rest ih =>
    intro pre hlen
    have hn : name.length < 65536 := hlen name (List.mem_cons_self _ _)
    have hcast : u16cast name.length = name.length := Nat.mod_eq_of_lt hn
    simp only [serializeFieldNamesFrom]
    cases hrec : serializeFieldNamesFrom (pre.length + name.length) rest with
    | mk slices pool =>
      simp only [deserializeFieldNames, List.map_cons]
      rw [List.cons_eq_cons]
      constructor
      · rw [hcast, show pre ++ (name ++ pool) = (pre ++ name) ++ pool from
          (List.append_assoc pre name pool).symm]
        rw [arenaSlice_append _ _ _ _ _ (by rw [List.length_append]), arenaSlice_read_back]
      · have := ih (pre ++ name) (fun n hn2 => hlen n (List.mem_cons_of_mem _ hn2))
        rw [List.length_append] at this
        rw [hrec] at this
        rw [show pre ++ (name ++ pool) = (pre ++ name) ++ pool from
          (List.append_assoc pre name pool).symm]
        exact this

theorem tagNames_roundtrip :
    ∀ (tags : List TagName) (pre : List Nat),
      (∀ tn ∈ tags, tagNameShort tn) →
      deserializeTagNames (serializeTagNamesFrom pre.length tags).1
        (pre ++ (serializeTagNamesFrom pre.length tags).2) = tags := by
  intro tags
  induction tags with
  | nil =>
    intro pre hlen
    rfl
  | cons tn rest ih =>
    intro pre hlen
    cases tn with
    | tag name =>
      have hn : name.length < 65536 := hlen (TagName.tag name) (List.mem_cons_self _ _)
      have hcast : u16cast name.length = name.length := Nat.mod_eq_of_lt hn
      simp only [serializeTagNamesFrom]
      cases hrec : serializeTagNamesFrom (pre.length + name.length) rest with
      | mk slices pool =>
        simp only [deserializeTagNames, List.map_cons]
        rw [List.cons_eq_cons]
        constructor
        · rw [hcast, show pre ++ (name ++ pool) = (pre ++ name) ++ pool from
            (List.append_assoc pre name pool).symm]
          rw [arenaSlice_append _ _ _ _ _ (by rw [List.length_append]),
            arenaSlice_read_back]
        · have := ih (pre ++ name) (fun t ht => hlen t (List.mem_cons_of_mem _ ht))
          rw [List.length_append] at this
          rw [hrec] at this
          rw [show pre ++ (name ++ pool) = (pre ++ name) ++ pool from
            (List.append_assoc pre name pool).symm]
          exact this
    | closure symbol =>
      simp only [serializeTagNamesFrom]
      cases hrec : serializeTagNamesFrom pre.length rest with
      | mk slices pool =>
        simp only [deserializeTagNames, List.map_cons]
        rw [List.cons_eq_cons]
        constructor
        · rfl
        · have := ih pre (fun t ht => hlen t (List.mem_cons_of_mem _ ht))
          rw [hrec] at this
          exact this

theorem isRedirect_false_of_isRoot {t : UnificationTable} {i : Nat}
    (h : t.isRoot i = true) : t.isRedirect i = false := by
  rw [UnificationTable.isRoot] at h
  rw [UnificationTable.isRedirect]
  cases hg : t.getNode i with
  | root d => rfl
  | redirect w => rw [hg] at h; exact Bool.noConfusion h

theorem isRoot_false_of_isRedirect {t : UnificationTable} {i : Nat}
    (h : t.isRedirect i = true) : t.isRoot i = false := by
  rw [UnificationTable.isRedirect] at h
  rw [UnificationTable.isRoot]
  cases hg : t.getNode i with
  | root d => rw [hg] at h; exact Bool.noConfusion h
  | redirect w => rfl

theorem probe_rootOf_eq {t : UnificationTable} {v r : Var} {k : Nat}
    (hch : RedirectChain t v r k) (hk : k ≤ t.len) :
    t.probe v = t.probe r := by
  have hro : t.rootOf v = r := rootAux_of_chain hch _ hk
  have hro2 : t.rootOf r = r := rootOf_root (chain_root_isRoot hch)
  rw [UnificationTable.probe, UnificationTable.probe, hro, hro2]

theorem serializeUTable_length (t : UnificationTable) :
    (serializeUTable t).length = t.len := by
  unfold serializeUTable
  rw [List.length_map, List.length_range]

theorem serializeUTable_getD (t : UnificationTable) {k : Nat} (hk : k < t.len)
    (dfl : Descriptor) :
    (serializeUTable t).getD k dfl
      = if t.isRedirect k then sentinelDesc (t.rootOf k) else t.probe k := by
  unfold serializeUTable
  rw [List.getD_eq_getElem?_getD, List.getElem?_map, List.getElem?_range hk]
  rfl

theorem expectedPairs_mem :
    ∀ (descs : List Descriptor) (i : Nat) (vr : Var × Var),
      vr ∈ expectedPairs i descs ↔
      ∃ k, k < descs.length
        ∧ ((descs.getD k (sentinelDesc 0)).rank = rankU32MAX
            ∧ (descs.getD k (sentinelDesc 0)).mark = markI32MAX)
        ∧ vr = (i + k, (descs.getD k (sentinelDesc 0)).copy) := by
  intro descs
  induction descs with
  | nil =>
    intro i vr
    constructor
    · intro h
      exact absurd h (List.not_mem_nil _)
    · rintro ⟨k, hk, _⟩
      exact absurd hk (Nat.not_lt_zero k)
  | cons d rest ih =>
    intro i vr
    simp only [expectedPairs]
    by_cases hd : d.rank = rankU32MAX ∧ d.mark = markI32MAX
    · rw [if_pos hd, List.mem_cons]
      constructor
      · rintro (h0 | h0)
        · refine ⟨0, Nat.succ_pos _, ?_, ?_⟩
          · rw [List.getD_cons_zero]
            exact hd
          · rw [List.getD_cons_zero, Nat.add_zero]
            exact h0
        · obtain ⟨k, hk, hs, hv⟩ := (ih (i + 1) vr).mp h0
          refine ⟨k + 1, Nat.succ_lt_succ hk, ?_, ?_⟩
          · rw [List.getD_cons_succ]
            exact hs
          · rw [List.getD_cons_succ, show i + (k + 1) = i + 1 + k by omega]
            exact hv
      · rintro ⟨k, hk, hs, hv⟩
        cases k with
        | zero =>
          left
          rw [List.getD_cons_zero] at hv
          rw [Nat.add_zero] at hv
          exact hv
        | succ k2 =>
          right
          refine (ih (i + 1) vr).mpr ⟨k2, Nat.lt_of_succ_lt_succ hk, ?_, ?_⟩
          · rw [List.getD_cons_succ] at hs
            exact hs
          · rw [List.getD_cons_succ] at hv
            rw [show i + 1 + k2 = i + (k2 + 1) by omega]
            exact hv
    · rw [if_neg hd]
      constructor
      · intro h0
        obtain ⟨k, hk, hs, hv⟩ := (ih (i + 1) vr).mp h0
        refine ⟨k + 1, Nat.succ_lt_succ hk, ?_, ?_⟩
        · rw [List.getD_cons_succ]
          exact hs
        · rw [List.getD_cons_succ, show i + (k + 1) = i + 1 + k by omega]
          exact hv
      · rintro ⟨k, hk, hs, hv⟩
        cases k with
        | zero =>
          rw [List.getD_cons_zero] at hs
          exact absurd hs hd
        | succ k2 =>
          refine (ih (i + 1) vr).mpr ⟨k2, Nat.lt_of_succ_lt_succ hk, ?_, ?_⟩
          · rw [List.getD_cons_succ] at hs
            exact hs
          · rw [List.getD_cons_succ] at hv
            rw [show i + 1 + k2 = i + (k2 + 1) by omega]
            exact hv

theorem expectedPairs_fst_ge :
    ∀ (descs : List Descriptor) (i : Nat) (vr : Var × Var),
      vr ∈ expectedPairs i descs → i ≤ vr.1 := by
  intro descs i vr h
  obtain ⟨k, _, _, hv⟩ := (expectedPairs_mem descs i vr).mp h
  rw [hv]
  exact Nat.le_add_right i k

theorem expectedPairs_pairwise :
    ∀ (descs : List Descriptor) (i : Nat),
      (expectedPairs i descs).Pairwise (fun a b => a.1 ≠ b.1) := by
  intro descs
  induction descs with
  | nil =>
    intro i
    exact List.Pairwise.nil
  | cons d rest ih =>
    intro i
    simp only [expectedPairs]
    by_cases hd : d.rank = rankU32MAX ∧ d.mark = markI32MAX
    · rw [if_pos hd]
      refine List.Pairwise.cons ?_ (ih (i + 1))
      intro b hb
      have := expectedPairs_fst_ge rest (i + 1) b hb
      show i ≠ b.1
      omega
    · rw [if_neg hd]
      exact ih (i + 1)

theorem dutFirstPass_spec :
    ∀ (descs : List Descriptor) (t : UnificationTable) (i : Nat),
      (∀ k, k < descs.length →
        (descs.getD k (sentinelDesc 0)).rank = rankU32MAX →
        (descs.getD k (sentinelDesc 0)).mark = markI32MAX →
        (descs.getD k (sentinelDesc 0)).copy ≠ 0) →
      ∃ T, dutFirstPass descs t i = some (T, expectedPairs i descs)
        ∧ T.nodes = t.nodes ++ descs.map UFNode.root := by
  intro descs
  induction descs with
  | nil =>
    intro t i hok
    exact ⟨t, rfl, by simp⟩
  | cons d rest ih =>
    intro t i hok
    have hokRest : ∀ k, k < rest.length →
        (rest.getD k (sentinelDesc 0)).rank = rankU32MAX →
        (rest.getD k (sentinelDesc 0)).mark = markI32MAX →
        (rest.getD k (sentinelDesc 0)).copy ≠ 0 := by
      intro k hk h1 h2
      have := hok (k + 1) (Nat.succ_lt_succ hk)
        (by rw [List.getD_cons_succ]; exact h1)
        (by rw [List.getD_cons_succ]; exact h2)
      rw [List.getD_cons_succ] at this
      exact this
    obtain ⟨T, hT, hnodes⟩ := ih (t.newKey d) (i + 1) hokRest
    simp only [dutFirstPass, expectedPairs]
    by_cases hd : d.rank = rankU32MAX ∧ d.mark = markI32MAX
    · rw [if_pos hd, if_pos hd]
      have hc : ¬ d.copy = 0 := by
        have := hok 0 (Nat.succ_pos _)
          (by rw [List.getD_cons_zero]; exact hd.1)
          (by rw [List.getD_cons_zero]; exact hd.2)
        rw [List.getD_cons_zero] at this
        exact this
      rw [if_neg hc, hT]
      refine ⟨T, rfl, ?_⟩
      rw [hnodes, UnificationTable.newKey]
      simp [List.append_assoc]
    · rw [if_neg hd, if_neg hd, hT]
      refine ⟨T, rfl, ?_⟩
      rw [hnodes, UnificationTable.newKey]
      simp [List.append_assoc]

theorem unifyRoots_getNode {T : UnificationTable} {v r : Var} (hne : v ≠ r)
    (hv : v < T.nodes.length) (hr : r < T.nodes.length) (d : Descriptor) :
    (T.unifyRoots v r d).getNode v = UFNode.root d
    ∧ (T.unifyRoots v r d).getNode r = UFNode.redirect v
    ∧ (∀ j, j ≠ v → j ≠ r → (T.unifyRoots v r d).getNode j = T.getNode j)
    ∧ (T.unifyRoots v r d).nodes.length = T.nodes.length := by
  rw [UnificationTable.unifyRoots, if_neg hne]
  have hlen1 : (T.setNodeLogged r (UFNode.redirect v)).nodes.length = T.nodes.length :=
    setNodeLogged_length _ _ _
  refine ⟨?_, ?_, ?_, ?_⟩
  · exact getNode_setNodeLogged_same _ _ _ (by rw [hlen1]; exact hv)
  · rw [getNode_setNodeLogged_other _ _ _ _ (fun hh => hne hh.symm)]
    exact getNode_setNodeLogged_same _ _ _ hr
  · intro j hjv hjr
    rw [getNode_setNodeLogged_other _ _ _ _ hjv, getNode_setNodeLogged_other _ _ _ _ hjr]
  · rw [setNodeLogged_length, hlen1]

theorem chain_preserved_two {T T2 : UnificationTable} {q r2 : Var} {k : Nat}
    (hk : k ≤ 1) (hq : T2.getNode q = T.getNode q) (hr2 : T2.getNode r2 = T.getNode r2)
    (hch : RedirectChain T q r2 k) : RedirectChain T2 q r2 k := by
  cases hch with
  | root h0 =>
    exact RedirectChain.root (by rw [isRoot_congr hq]; exact h0)
  | @step v w rr kk hred hch2 =>
    have hkk : kk = 0 := by omega
    subst hkk
    cases hch2 with
    | root h0 =>
      exact RedirectChain.step (by rw [hq]; exact hred)
        (RedirectChain.root (by rw [isRoot_congr hr2]; exact h0))

theorem dutSecondPass_spec (s : Subs)
    (H2 : ∀ i, i < s.len → s.utable.isRedirect i = false →
      ¬((s.utable.probe i).rank = rankU32MAX ∧ (s.utable.probe i).mark = markI32MAX)) :
    ∀ (pairs : List (Var × Var)) (T : UnificationTable),
      T.nodes.length = s.len →
      (∀ vr ∈ pairs, vr.1 < s.len ∧ s.utable.isRedirect vr.1 = true
        ∧ vr.2 = s.utable.rootOf vr.1 ∧ s.utable.isRoot vr.2 = true ∧ vr.2 < s.len) →
      pairs.Pairwise (fun a b => a.1 ≠ b.1) →
      (∀ q, q < s.len → s.utable.isRedirect q = false →
        ∃ k r2, k ≤ 1 ∧ r2 < s.len ∧ (r2 = q ∨ s.utable.isRedirect r2 = true)
          ∧ RedirectChain T q r2 k ∧ T.getNode r2 = UFNode.root (s.utable.probe q)) →
      (∀ p, p < s.len → s.utable.isRedirect p = true →
        ((p, s.utable.rootOf p) ∈ pairs
          ∨ T.getNode p = UFNode.root (s.utable.probe (s.utable.rootOf p)))) →
      (∀ vr ∈ pairs, T.getNode vr.1 = UFNode.root (sentinelDesc vr.2)) →
      (dutSecondPass pairs T).nodes.length = s.len
      ∧ (∀ q, q < s.len → s.utable.isRedirect q = false →
          ∃ k r2, k ≤ 1 ∧ RedirectChain (dutSecondPass pairs T) q r2 k
            ∧ (dutSecondPass pairs T).getNode r2 = UFNode.root (s.utable.probe q))
      ∧ (∀ p, p < s.len → s.utable.isRedirect p = true →
          (dutSecondPass pairs T).getNode p
            = UFNode.root (s.utable.probe (s.utable.rootOf p))) := by
  intro pairs
  induction pairs with
  | nil =>
    intro T hlen hfacts hpw hINVB hINVC hINVD
    refine ⟨hlen, ?_, ?_⟩
    · intro q hq hqr
      obtain ⟨k, r2, hk, _, _, hch, hget⟩ := hINVB q hq hqr
      exact ⟨k, r2, hk, hch, hget⟩
    · intro p hp hpr
      cases hINVC p hp hpr with
      | inl h0 => exact absurd h0 (List.not_mem_nil _)
      | inr h0 => exact h0
  | cons vr0 tail ih =>
    intro T hlen hfacts hpw hINVB hINVC hINVD
    obtain ⟨v, r⟩ := vr0
    obtain ⟨hv0, hredv0, hrdef0, hrootr0, hrlen0⟩ := hfacts (v, r) (List.mem_cons_self _ _)
    have hv : v < s.len := hv0
    have hredv : s.utable.isRedirect v = true := hredv0
    have hrdef : r = s.utable.rootOf v := hrdef0
    have hrootr : s.utable.isRoot r = true := hrootr0
    have hrlen : r < s.len := hrlen0
    have hredr : s.utable.isRedirect r = false := isRedirect_false_of_isRoot hrootr
    have hvnr : v ≠ r := by
      intro hh
      rw [hh] at hredv
      rw [hredv] at hredr
      exact Bool.noConfusion hredr
    have hnodev : T.getNode v = UFNode.root (sentinelDesc r) :=
      hINVD (v, r) (List.mem_cons_self _ _)
    obtain ⟨kr, r2, hkr, hr2len, hr2or, hchr, hgetr2⟩ := hINVB r hrlen hredr
    have hro_r : T.rootOf r = r2 := rootAux_of_chain hchr _ (by
      show kr ≤ T.nodes.length
      omega)
    have hprobe : T.probe r = s.utable.probe r := by
      rw [UnificationTable.probe, hro_r, hgetr2]
    obtain ⟨hsv, hsr, hsoth, hslen⟩ := unifyRoots_getNode hvnr
      (by rw [hlen]; exact hv) (by rw [hlen]; exact hrlen) (T.probe r)
    have happly : dutSecondPass ((v, r) :: tail) T
        = dutSecondPass tail (T.unifyRoots v r (T.probe r)) := rfl
    rw [happly]
    apply ih
    · rw [hslen]
      exact hlen
    · exact fun vr2 h2 => hfacts vr2 (List.mem_cons_of_mem _ h2)
    · exact hpw.of_cons
    · intro q hq hqred
      by_cases hqr : q = r
      · subst hqr
        refine ⟨1, v, le_refl _, hv, Or.inr hredv, ?_, ?_⟩
        · exact RedirectChain.step hsr
            (RedirectChain.root (by rw [UnificationTable.isRoot, hsv]))
        · rw [hsv, hprobe]
      · obtain ⟨k, r2q, hk, hr2qlen, hor, hch, hget⟩ := hINVB q hq hqred
        have hr2q_ne_v : r2q ≠ v := by
          intro hh
          rw [hh] at hget
          have hdd := UFNode.root.inj (hnodev.symm.trans hget)
          exact H2 q hq hqred (by rw [← hdd]; exact ⟨rfl, rfl⟩)
        have hr2q_ne_r : r2q ≠ r := by
          cases hor with
          | inl h0 => rw [h0]; exact hqr
          | inr h0 =>
            intro hh
            rw [hh] at h0
            rw [h0] at hredr
            exact Bool.noConfusion hredr
        have hq_ne_v : q ≠ v := by
          intro hh
          rw [hh] at hqred
          rw [hredv] at hqred
          exact Bool.noConfusion hqred
        refine ⟨k, r2q, hk, hr2qlen, hor, ?_, ?_⟩
        · exact chain_preserved_two hk (hsoth q hq_ne_v hqr)
            (hsoth r2q hr2q_ne_v hr2q_ne_r) hch
        · rw [hsoth r2q hr2q_ne_v hr2q_ne_r]
          exact hget
    · intro p hp hpred
      by_cases hpv : p = v
      · subst hpv
        right
        rw [hsv, hprobe, hrdef]
      · have hpr : p ≠ r := by
          intro hh
          rw [hh] at hpred
          rw [hpred] at hredr
          exact Bool.noConfusion hredr
        cases hINVC p hp hpred with
        | inl h0 =>
          cases List.mem_cons.mp h0 with
          | inl h1 =>
            exact absurd (congrArg Prod.fst h1) hpv
          | inr h1 =>
            left
            exact h1
        | inr h0 =>
          right
          rw [hsoth p hpv hpr]
          exact h0
    · intro vr2 h2
      obtain ⟨hfv2, hfred2, _, _, _⟩ := hfacts vr2 (List.mem_cons_of_mem _ h2)
      have hne1 : vr2.1 ≠ v :=
        fun hh => ((List.pairwise_cons.mp hpw).1 vr2 h2) hh.symm
      have hne2 : vr2.1 ≠ r := by
        intro hh
        rw [hh] at hfred2
        rw [hfred2] at hredr
        exact Bool.noConfusion hredr
      rw [hsoth vr2.1 hne1 hne2]
      exact hINVD vr2 (List.mem_cons_of_mem _ h2)

/-- C2 (amended): for a fully solved store (empty problems) whose redirect
chains resolve in range, whose redirects do not point at the null variable 0,
whose roots do not masquerade as sentinels (rank `u32::MAX` with mark
`i32::MAX`), and whose pooled names fit `u16` slices, the round trip
deserialize∘serialize yields a store with the same number of variables in
which every variable resolves to the same descriptor, all five arenas come
back identical, and the exposed-vars list round-trips unchanged. -/
theorem c2_serialize_roundtrip (s : Subs) (exposed : List (Symbol × Var))
    (Hprob : s.problems = [])
    (Hch : ∀ i, i < s.len → ∃ r k, RedirectChain s.utable i r k ∧ k ≤ s.len ∧ r < s.len)
    (Hr0 : ∀ i, i < s.len → s.utable.isRedirect i = true → s.utable.rootOf i ≠ 0)
    (Hs : ∀ i, i < s.len → s.utable.isRedirect i = false →
      ¬((s.utable.probe i).rank = rankU32MAX ∧ (s.utable.probe i).mark = markI32MAX))
    (Hfn : ∀ n ∈ s.field_names, n.length < 65536)
    (Htn : ∀ tn ∈ s.tag_names, tagNameShort tn) :
    ∃ s2, deserializeSubs (serializeSubs s exposed) = some (s2, exposed)
      ∧ s2.len = s.len
      ∧ (∀ v, v < s.len → s2.getDesc v = s.getDesc v)
      ∧ s2.«variables» = s.«variables»
      ∧ s2.tag_names = s.tag_names
      ∧ s2.field_names = s.field_names
      ∧ s2.record_fields = s.record_fields
      ∧ s2.variable_slices = s.variable_slices
      ∧ s2.problems = s.problems := by
  have hgetD : ∀ k, k < s.len → (serializeUTable s.utable).getD k (sentinelDesc 0)
      = if s.utable.isRedirect k then sentinelDesc (s.utable.rootOf k)
        else s.utable.probe k :=
    fun k hk => serializeUTable_getD s.utable hk _
  have hok : ∀ k, k < (serializeUTable s.utable).length →
      ((serializeUTable s.utable).getD k (sentinelDesc 0)).rank = rankU32MAX →
      ((serializeUTable s.utable).getD k (sentinelDesc 0)).mark = markI32MAX →
      ((serializeUTable s.utable).getD k (sentinelDesc 0)).copy ≠ 0 := by
    intro k hk h1 h2
    rw [serializeUTable_length] at hk
    have hk2 : k < s.len := hk
    rw [hgetD k hk2] at h1 h2 ⊢
    by_cases hr : s.utable.isRedirect k = true
    · rw [if_pos hr] at h1 h2 ⊢
      exact Hr0 k hk2 hr
    · have hrf : s.utable.isRedirect k = false := Bool.eq_false_iff.mpr hr
      rw [if_neg hr] at h1 h2
      exact absurd ⟨h1, h2⟩ (Hs k hk2 hrf)
  obtain ⟨T1, hT1, hT1nodes⟩ := dutFirstPass_spec (serializeUTable s.utable)
    { nodes := [], log := [] } 0 hok
  have hT1len : T1.nodes.length = s.len := by
    rw [hT1nodes, List.nil_append, List.length_map, serializeUTable_length]
    rfl
  have hT1get : ∀ p, p < s.len → T1.getNode p
      = UFNode.root ((serializeUTable s.utable).getD p (sentinelDesc 0)) := by
    intro p hp
    rw [UnificationTable.getNode, hT1nodes, List.nil_append, List.getD_eq_getElem?_getD,
      List.getElem?_map, List.getD_eq_getElem?_getD]
    cases hE : (serializeUTable s.utable)[p]? with
    | none =>
      rw [List.getElem?_eq_none_iff, serializeUTable_length] at hE
      exact absurd hp (Nat.not_lt_of_le hE)
    | some dsc =>
      rfl
  have hpairsfacts : ∀ vr ∈ expectedPairs 0 (serializeUTable s.utable),
      vr.1 < s.len ∧ s.utable.isRedirect vr.1 = true ∧ vr.2 = s.utable.rootOf vr.1
        ∧ s.utable.isRoot vr.2 = true ∧ vr.2 < s.len := by
    intro vr hmem
    obtain ⟨k, hk, hsent, hvr⟩ := (expectedPairs_mem _ 0 vr).mp hmem
    rw [serializeUTable_length] at hk
    have hk2 : k < s.len := hk
    rw [hgetD k hk2] at hsent hvr
    by_cases hr : s.utable.isRedirect k = true
    · rw [if_pos hr] at hvr
      obtain ⟨rt, kk, hch, hkk, hrtlen⟩ := Hch k hk2
      have hro : s.utable.rootOf k = rt := rootAux_of_chain hch _ hkk
      subst hvr
      refine ⟨?_, ?_, ?_, ?_, ?_⟩
      · show 0 + k < s.len
        omega
      · show s.utable.isRedirect (0 + k) = true
        rw [Nat.zero_add]
        exact hr
      · show s.utable.rootOf k = s.utable.rootOf (0 + k)
        rw [Nat.zero_add]
      · show s.utable.isRoot (s.utable.rootOf k) = true
        rw [hro]
        exact chain_root_isRoot hch
      · show s.utable.rootOf k < s.len
        rw [hro]
        exact hrtlen
    · have hrf : s.utable.isRedirect k = false := Bool.eq_false_iff.mpr hr
      rw [if_neg hr] at hsent
      exact absurd hsent (Hs k hk2 hrf)
  have hcov : ∀ p, p < s.len → s.utable.isRedirect p = true →
      (p, s.utable.rootOf p) ∈ expectedPairs 0 (serializeUTable s.utable) := by
    intro p hp hpr
    refine (expectedPairs_mem _ 0 _).mpr ⟨p, ?_, ?_, ?_⟩
    · rw [serializeUTable_length]
      exact hp
    · rw [hgetD p hp, if_pos hpr]
      exact ⟨rfl, rfl⟩
    · rw [hgetD p hp, if_pos hpr]
      show (p, s.utable.rootOf p) = (0 + p, s.utable.rootOf p)
      rw [Nat.zero_add]
  have hinvB : ∀ q, q < s.len → s.utable.isRedirect q = false →
      ∃ k r2, k ≤ 1 ∧ r2 < s.len ∧ (r2 = q ∨ s.utable.isRedirect r2 = true)
        ∧ RedirectChain T1 q r2 k ∧ T1.getNode r2 = UFNode.root (s.utable.probe q) := by
    intro q hq hqr
    have hg : T1.getNode q = UFNode.root (s.utable.probe q) := by
      rw [hT1get q hq, hgetD q hq,
        if_neg (fun hh => by rw [hqr] at hh; exact Bool.noConfusion hh)]
    exact ⟨0, q, Nat.zero_le _, hq, Or.inl rfl,
      RedirectChain.root (by rw [UnificationTable.isRoot, hg]), hg⟩
  have hinvD : ∀ vr ∈ expectedPairs 0 (serializeUTable s.utable),
      T1.getNode vr.1 = UFNode.root (sentinelDesc vr.2) := by
    intro vr hmem
    obtain ⟨hv1, hred1, hdef1, _, _⟩ := hpairsfacts vr hmem
    rw [hT1get vr.1 hv1, hgetD vr.1 hv1, if_pos hred1, hdef1]
  obtain ⟨hfinlen, hfinB, hfinC⟩ := dutSecondPass_spec s Hs
    (expectedPairs 0 (serializeUTable s.utable)) T1 hT1len hpairsfacts
    (expectedPairs_pairwise _ 0) hinvB (fun p hp hpr => Or.inl (hcov p hp hpr)) hinvD
  have hdeser : deserializeUTable (serializeUTable s.utable)
      = some (dutSecondPass (expectedPairs 0 (serializeUTable s.utable)) T1) := by
    rw [deserializeUTable, hT1]
  simp only [deserializeSubs, serializeSubs]
  rw [hdeser]
  refine ⟨_, rfl, ?_, ?_, rfl, ?_, ?_, rfl, rfl, ?_⟩
  · exact hfinlen
  · intro v hv
    by_cases hvr : s.utable.isRedirect v = true
    · have hnode := hfinC v hv hvr
      have hroV : (dutSecondPass (expectedPairs 0 (serializeUTable s.utable)) T1).rootOf v
          = v := rootOf_root (by rw [UnificationTable.isRoot, hnode])
      show (dutSecondPass (expectedPairs 0 (serializeUTable s.utable)) T1).probe v
        = s.utable.probe v
      rw [UnificationTable.probe, hroV, hnode]
      obtain ⟨rt, kk, hch, hkk, _⟩ := Hch v hv
      have hro : s.utable.rootOf v = rt := rootAux_of_chain hch _ hkk
      show s.utable.probe (s.utable.rootOf v) = s.utable.probe v
      rw [hro]
      exact (probe_rootOf_eq hch hkk).symm
    · have hvrf : s.utable.isRedirect v = false := Bool.eq_false_iff.mpr hvr
      obtain ⟨k, r2, hk, hch2, hget2⟩ := hfinB v hv hvrf
      have hro2 : (dutSecondPass (expectedPairs 0 (serializeUTable s.utable)) T1).rootOf v
          = r2 := rootAux_of_chain hch2 _ (by
        show k ≤ (dutSecondPass (expectedPairs 0 (serializeUTable s.utable)) T1).nodes.length
        rw [hfinlen]
        omega)
      show (dutSecondPass (expectedPairs 0 (serializeUTable s.utable)) T1).probe v
        = s.utable.probe v
      rw [UnificationTable.probe, hro2, hget2]
  · exact tagNames_roundtrip s.tag_names [] Htn
  · exact fieldNames_roundtrip s.field_names [] Hfn
  · rw [Hprob]

/-- C2 counterexample: a fully solved two-variable store whose only redirect
points at variable 0 serializes that redirect as a sentinel whose `copy`
field is the null variable, so `copy.into_variable().unwrap()` panics during
deserialization: the round trip yields nothing at all. -/
theorem c2_counterexample :
    deserializeSubs (serializeSubs redirectToZeroStore []) = none
    ∧ redirectToZeroStore.problems = []
    ∧ (∀ i, i < redirectToZeroStore.len →
        redirectToZeroStore.utable.isRedirect i = false →
        ¬((redirectToZeroStore.utable.probe i).rank = rankU32MAX
          ∧ (redirectToZeroStore.utable.probe i).mark = markI32MAX)) := by
  refine ⟨by decide, rfl, by decide⟩

theorem c2_witness :
    deserializeSubs (serializeSubs redirectToOneStore [(5, 1)])
      = some (rtOneRes.1, [(5, 1)]) := by
  obtain ⟨s2, hdes, _⟩ := c2_serialize_roundtrip redirectToOneStore [(5, 1)] rfl
    (by
      intro i hi
      have hi3 : i < 3 := hi
      interval_cases i
      · exact ⟨0, 0, RedirectChain.root (by decide), by decide, by decide⟩
      · exact ⟨1, 0, RedirectChain.root (by decide), by decide, by decide⟩
      · exact ⟨1, 1, RedirectChain.step (by decide) (RedirectChain.root (by decide)),
          by decide, by decide⟩)
    (by
      intro i hi hred
      have hi3 : i < 3 := hi
      interval_cases i
      · exact absurd hred (by decide)
      · exact absurd hred (by decide)
      · decide)
    (by
      intro i hi hroot
      have hi3 : i < 3 := hi
      interval_cases i <;> decide)
    (by
      intro n hn
      rw [show redirectToOneStore.field_names = [[97]] from rfl, List.mem_singleton] at hn
      subst hn
      decide)
    (by
      intro tn htn
      rw [show redirectToOneStore.tag_names
        = [TagName.tag [67], TagName.closure 9] from rfl] at htn
      rcases List.mem_cons.mp htn with h | h
      · subst h
        show ([67] : Name).length < 65536
        decide
      · rw [List.mem_singleton] at h
        subst h
        trivial)
  have h2 : rtOneRes = (s2, [(5, 1)]) := by
    unfold rtOneRes
    rw [hdes]
    rfl
  rw [hdes, h2]

/-! ### C3: deep copy into another store (subs.rs:4002-4360).

The cleanup pass of `deep_copy_var_to` is analysed through a case analysis of
`Subs.set`: a write either leaves the store untouched (degenerate root) or
replaces exactly the descriptors of the written variable's root class. -/

theorem dcCleanup_step (s : Subs) (v : Var) (rest : List Var) :
    dcCleanup s (v :: rest)
      = dcCleanup (if (s.getDesc v).copy ≠ 0 then
          s.set v { s.getDesc v with rank := Rank.NONE, mark := Mark.NONE, copy := 0 }
        else s) rest := rfl

theorem getDesc_copy_zero_of_set {s : Subs} {v : Var} {d : Descriptor} (hd : d.copy = 0)
    {w : Var} (hw : (s.getDesc w).copy = 0) : ((s.set v d).getDesc w).copy = 0 := by
  rcases set_spec s v d with ⟨heq, _⟩ | ⟨hdesc, _⟩
  · rw [heq]; exact hw
  · rw [hdesc w]
    by_cases hr : s.utable.rootOf w = s.utable.rootOf v
    · rw [if_pos hr]; exact hd
    · rw [if_neg hr]; exact hw

theorem getContent_set_of_desc (s : Subs) (v : Var) (rk : Rank) (mk : Mark) (cp : Nat)
    (w : Var) :
    (s.set v { s.getDesc v with rank := rk, mark := mk, copy := cp }).getContent w
      = s.getContent w := by
  rcases set_spec s v { s.getDesc v with rank := rk, mark := mk, copy := cp } with
    ⟨heq, _⟩ | ⟨hdesc, hsame⟩
  · rw [heq]
  · show ((s.set v _).getDesc w).content = (s.getDesc w).content
    rw [hdesc w]
    by_cases hr : s.utable.rootOf w = s.utable.rootOf v
    · rw [if_pos hr]
      show (s.getDesc v).content = (s.getDesc w).content
      rw [hsame w hr]
    · rw [if_neg hr]

theorem dcCleanup_getContent : ∀ (vs : List Var) (s : Subs) (w : Var),
    (dcCleanup s vs).getContent w = s.getContent w := by
  intro vs
  induction vs with
  | nil => intro s w; rfl
  | cons v rest ih =>
    intro s w
    rw [dcCleanup_step]
    by_cases hc : (s.getDesc v).copy ≠ 0
    · rw [if_pos hc, ih, getContent_set_of_desc]
    · rw [if_neg hc, ih]

theorem dcCleanup_copy_zero_preserved : ∀ (vs : List Var) (s : Subs) (w : Var),
    (s.getDesc w).copy = 0 → ((dcCleanup s vs).getDesc w).copy = 0 := by
  intro vs
  induction vs with
  | nil => intro s w h; exact h
  | cons v rest ih =>
    intro s w h
    rw [dcCleanup_step]
    by_cases hc : (s.getDesc v).copy ≠ 0
    · rw [if_pos hc]
      exact ih _ _ (getDesc_copy_zero_of_set rfl h)
    · rw [if_neg hc]
      exact ih _ _ h

theorem set_desc_self_copy_zero {s : Subs} {v : Var} (hc : (s.getDesc v).copy ≠ 0)
    {d : Descriptor} (hd : d.copy = 0) : ((s.set v d).getDesc v).copy = 0 := by
  rcases set_spec s v d with ⟨_, hz⟩ | ⟨hdesc, _⟩
  · exact absurd hz hc
  · rw [hdesc v, if_pos rfl]
    exact hd

theorem dcCleanup_copy_zero : ∀ (vs : List Var) (s : Subs) (v : Var), v ∈ vs →
    ((dcCleanup s vs).getDesc v).copy = 0 := by
  intro vs
  induction vs with
  | nil => intro s v hv; cases hv
  | cons u rest ih =>
    intro s v hv
    rw [dcCleanup_step]
    rcases List.mem_cons.mp hv with heq | hmem
    · subst heq
      by_cases hc : (s.getDesc v).copy ≠ 0
      · rw [if_pos hc]
        exact dcCleanup_copy_zero_preserved _ _ _ (set_desc_self_copy_zero hc rfl)
      · rw [if_neg hc]
        exact dcCleanup_copy_zero_preserved _ _ _ (not_not.mp hc)
    · by_cases hc : (s.getDesc u).copy ≠ 0
      · rw [if_pos hc]; exact ih _ _ hmem
      · rw [if_neg hc]; exact ih _ _ hmem

theorem dcSrcCopies_refl (env : DCEnv) : dcSrcCopies env env := fun _ _ => rfl

theorem dcSrcCopies_of_source_eq {env env2 : DCEnv} (h : env2.source = env.source) :
    dcSrcCopies env env2 := fun w _ => by rw [h]

theorem dcSrcCopies_trans {e1 e2 e3 : DCEnv} (h12 : dcSrcCopies e1 e2)
    (h23 : dcSrcCopies e2 e3) : dcSrcCopies e1 e3 := by
  intro w hw
  have h1 := h12 w hw
  have h2 := h23 w (by rw [h1]; exact hw)
  rw [h2, h1]

theorem tgtExt_refl (t : Subs) : tgtExt t t :=
  ⟨Nat.le_refl _, fun _ _ => rfl, Nat.le_refl _, fun _ _ => rfl⟩

theorem tgtExt_trans {t1 t2 t3 : Subs} (h12 : tgtExt t1 t2) (h23 : tgtExt t2 t3) :
    tgtExt t1 t3 := by
  obtain ⟨l12, n12, f12, g12⟩ := h12
  obtain ⟨l23, n23, f23, g23⟩ := h23
  refine ⟨Nat.le_trans l12 l23, ?_, Nat.le_trans f12 f23, ?_⟩
  · intro i hi
    rw [n23 i (Nat.lt_of_lt_of_le hi l12), n12 i hi]
  · intro j hj
    rw [g23 j (Nat.lt_of_lt_of_le hj f12), g12 j hj]

theorem tgtExt_arenas {t t2 : Subs} (hu : t2.utable = t.utable)
    (hf : t2.field_names = t.field_names) : tgtExt t t2 := by
  refine ⟨Nat.le_of_eq (by rw [hu]), ?_, Nat.le_of_eq (by rw [hf]), ?_⟩
  · intro i _
    rw [hu]
  · intro j _
    rw [hf]

theorem tgtExt_fieldsApp {t t2 : Subs} (hu : t2.utable = t.utable)
    {l : List Name} (hf : t2.field_names = t.field_names ++ l) : tgtExt t t2 := by
  refine ⟨Nat.le_of_eq (by rw [hu]), ?_, ?_, ?_⟩
  · intro i _
    rw [hu]
  · rw [hf, List.length_append]
    exact Nat.le_add_right _ _
  · intro j hj
    rw [hf]
    exact getD_append_left _ _ _ _ hj

theorem tgtExt_newKey (t : Subs) (d : Descriptor) :
    tgtExt t { t with utable := t.utable.newKey d } := by
  refine ⟨?_, ?_, Nat.le_refl _, fun _ _ => rfl⟩
  · show t.utable.nodes.length ≤ (t.utable.newKey d).nodes.length
    rw [newKey_length]
    exact Nat.le_succ _
  · intro i hi
    show (t.utable.newKey d).getNode i = t.utable.getNode i
    exact getNode_newKey_other (Nat.ne_of_lt hi) d

theorem tgtExtExcept_of_ext {c : Var} {t t2 : Subs} (h : tgtExt t t2) :
    tgtExtExcept c t t2 :=
  ⟨h.1, fun i hi _ => h.2.1 i hi, h.2.2.1, h.2.2.2⟩

theorem tgtExt_comp_except {c : Var} {t1 t2 t3 : Subs} (h12 : tgtExt t1 t2)
    (h23 : tgtExtExcept c t2 t3) : tgtExtExcept c t1 t3 := by
  obtain ⟨l12, n12, f12, g12⟩ := h12
  obtain ⟨l23, n23, f23, g23⟩ := h23
  refine ⟨Nat.le_trans l12 l23, ?_, Nat.le_trans f12 f23, ?_⟩
  · intro i hi hne
    rw [n23 i (Nat.lt_of_lt_of_le hi l12) hne, n12 i hi]
  · intro j hj
    rw [g23 j (Nat.lt_of_lt_of_le hj f12), g12 j hj]

theorem tgtExt_of_except_ge {c : Var} {t t2 : Subs} (h : tgtExtExcept c t t2)
    (hge : t.utable.nodes.length ≤ c) : tgtExt t t2 :=
  ⟨h.1, fun i hi => h.2.1 i hi (Nat.ne_of_lt (Nat.lt_of_lt_of_le hi hge)), h.2.2.1,
    h.2.2.2⟩

theorem set_at_root {t : Subs} {c : Var} {d0 : Descriptor}
    (hg : t.utable.getNode c = UFNode.root d0) (hlt : c < t.utable.nodes.length)
    (d : Descriptor) :
    (t.set c d).getDesc c = d
    ∧ (t.set c d).utable.getNode c = UFNode.root d
    ∧ (∀ j, j ≠ c → (t.set c d).utable.getNode j = t.utable.getNode j)
    ∧ (t.set c d).utable.nodes.length = t.utable.nodes.length
    ∧ (t.set c d).field_names = t.field_names := by
  have hroot : t.utable.isRoot c = true := by rw [UnificationTable.isRoot, hg]
  have hro : t.utable.rootOf c = c := rootOf_root hroot
  obtain ⟨hsame, hother, hlen⟩ := updateRoot_getNode hg hlt d
  have hU : (t.set c d).utable = t.utable.updateRoot c d := by
    show t.utable.updateRoot (t.get_root_key c) d = t.utable.updateRoot c d
    rw [show t.get_root_key c = t.utable.rootOf c from rfl, hro]
  have hnode : (t.set c d).utable.getNode c = UFNode.root d := by
    rw [hU]
    exact hsame
  refine ⟨?_, hnode, ?_, ?_, rfl⟩
  · have hro2 : (t.set c d).utable.rootOf c = c := by
      rw [set_rootOf_all, hro]
    exact probe_of_root hro2 hnode
  · intro j hj
    rw [hU]
    exact hother j hj
  · rw [hU]
    exact hlen

theorem dcSetFinish {t0 tf : Subs} {cp : Var} (hext : tgtExt t0 tf)
    (hc : t0.utable.getNode cp = UFNode.root flex_var_descriptor)
    (hlt : cp < t0.utable.nodes.length) (d : Descriptor) :
    (tf.set cp d).getDesc cp = d ∧ tgtExtExcept cp t0 (tf.set cp d)
    ∧ (tf.set cp d).field_names = tf.field_names := by
  have hcF : tf.utable.getNode cp = UFNode.root flex_var_descriptor :=
    (hext.2.1 cp hlt).trans hc
  have hltF : cp < tf.utable.nodes.length := Nat.lt_of_lt_of_le hlt hext.1
  obtain ⟨hdesc, hnode, hoth, hlen, hfn⟩ := set_at_root hcF hltF d
  refine ⟨hdesc, ?_, hfn⟩
  exact tgtExt_comp_except hext ⟨Nat.le_of_eq hlen.symm, fun i _ hne => hoth i hne,
    Nat.le_of_eq (by rw [hfn]), fun j _ => by rw [hfn]⟩

theorem dcShape_src_fields {mr : Rank} {src src2 tgt : Subs} {cp : Var}
    (hf : src2.field_names = src.field_names) :
    ∀ {c : Content}, dcShape mr src2 tgt cp c → dcShape mr src tgt cp c := by
  intro c h
  cases c with
  | flexVar optName =>
    cases optName with
    | some ni =>
      obtain ⟨m, h1, h2⟩ := h
      exact ⟨m, h1, by rw [h2, hf]⟩
    | none => exact h
  | rigidVar ni =>
    obtain ⟨m, h1, h2⟩ := h
    exact ⟨m, h1, by rw [h2, hf]⟩
  | flexAbleVar optName ability =>
    cases optName with
    | some ni =>
      obtain ⟨m, h1, h2⟩ := h
      exact ⟨m, h1, by rw [h2, hf]⟩
    | none => exact h
  | rigidAbleVar ni ability =>
    obtain ⟨m, h1, h2⟩ := h
    exact ⟨m, h1, by rw [h2, hf]⟩
  | recursionVar structVar optName => exact h
  | error => exact h
  | «alias» symbol arguments realVar kind => exact h
  | rangedNumber typ vars => exact h
  | struct ft => exact h

theorem dcVarsLoop_ext {dc : DCEnv → Var → Option (Var × DCEnv)}
    (hdc : ∀ env v out, dc env v = some out →
      dcSrcCopies env out.2 ∧ tgtExt env.target out.2.target) :
    ∀ (n : Nat) (env : DCEnv) (ti si : Nat) (out : DCEnv),
      dcVarsLoop dc env ti si n = some out →
      dcSrcCopies env out ∧ tgtExt env.target out.target := by
  intro n
  induction n with
  | zero =>
    intro env ti si out h
    cases h
    exact ⟨dcSrcCopies_refl env, tgtExt_refl _⟩
  | succ m ih =>
    intro env ti si out h
    simp only [dcVarsLoop, Bind.bind] at h
    rw [Option.bind_eq_some] at h
    obtain ⟨x, hx, h2⟩ := h
    obtain ⟨copy_var, env1⟩ := x
    obtain ⟨hs1, ht1⟩ := hdc _ _ _ hx
    obtain ⟨hs2, ht2⟩ := ih _ _ _ _ h2
    exact ⟨dcSrcCopies_trans hs1 (dcSrcCopies_trans (dcSrcCopies_of_source_eq rfl) hs2),
      tgtExt_trans ht1 (tgtExt_trans (tgtExt_arenas rfl rfl) ht2)⟩

theorem dcTagsLoop_ext {dc : DCEnv → Var → Option (Var × DCEnv)}
    (hdc : ∀ env v out, dc env v = some out →
      dcSrcCopies env out.2 ∧ tgtExt env.target out.2.target) :
    ∀ (n : Nat) (env : DCEnv) (ti si : Nat) (out : DCEnv),
      dcTagsLoop dc env ti si n = some out →
      dcSrcCopies env out ∧ tgtExt env.target out.target := by
  intro n
  induction n with
  | zero =>
    intro env ti si out h
    cases h
    exact ⟨dcSrcCopies_refl env, tgtExt_refl _⟩
  | succ m ih =>
    intro env ti si out h
    simp only [dcTagsLoop, VariableSubsSlice.reserve_into_subs, Bind.bind] at h
    rw [Option.bind_eq_some] at h
    obtain ⟨env1, hx, h2⟩ := h
    obtain ⟨hsV, htV⟩ := dcVarsLoop_ext hdc _ _ _ _ _ hx
    obtain ⟨hs2, ht2⟩ := ih _ _ _ _ h2
    refine ⟨?_, ?_⟩
    · exact dcSrcCopies_trans (dcSrcCopies_of_source_eq rfl)
        (dcSrcCopies_trans hsV (dcSrcCopies_trans (dcSrcCopies_of_source_eq rfl) hs2))
    · exact tgtExt_trans (tgtExt_arenas rfl rfl)
        (tgtExt_trans htV (tgtExt_trans (tgtExt_arenas rfl rfl) ht2))

theorem dcCopyContent_ext {dc : DCEnv → Var → Option (Var × DCEnv)} {max_rank : Rank}
    (hdc : ∀ env v out, dc env v = some out →
      dcSrcCopies env out.2 ∧ tgtExt env.target out.2.target) :
    ∀ (c : Content) (env : DCEnv) (cp : Var) (out : Var × DCEnv),
      dcCopyContent dc max_rank env cp c = some out →
      env.target.utable.getNode cp = UFNode.root flex_var_descriptor →
      cp < env.target.utable.nodes.length →
      out.1 = cp ∧ dcSrcCopies env out.2 ∧ tgtExtExcept cp env.target out.2.target
      ∧ dcShape max_rank env.source out.2.target cp c := by
  intro c env cp out h hc hlt
  cases c with
  | struct ft =>
    cases ft with
    | apply symbol arguments =>
      simp only [dcCopyContent, VariableSubsSlice.reserve_into_subs, Bind.bind] at h
      rw [Option.bind_eq_some] at h
      obtain ⟨y, hy, h2⟩ := h
      rw [Option.bind_eq_some] at hy
      obtain ⟨env1, hx, hy2⟩ := hy
      obtain ⟨hsV, htV⟩ := dcVarsLoop_ext hdc _ _ _ _ _ hx
      cases hy2
      cases h2
      have hT : tgtExt env.target env1.target :=
        tgtExt_trans (tgtExt_arenas rfl rfl) htV
      obtain ⟨hdesc, hexc, hfn⟩ := dcSetFinish hT hc hlt
        (makeDCDescriptor max_rank (Content.struct (FlatType.apply symbol
          ⟨env.target.«variables».length, u16cast arguments.length⟩)))
      refine ⟨rfl, ?_, hexc, ?_⟩
      · exact dcSrcCopies_trans (dcSrcCopies_of_source_eq rfl)
          (dcSrcCopies_trans hsV (dcSrcCopies_of_source_eq rfl))
      · exact ⟨env.target.«variables».length, hdesc⟩
    | func arguments closureVar retVar =>
      simp only [dcCopyContent, VariableSubsSlice.reserve_into_subs, Bind.bind] at h
      rw [Option.bind_eq_some] at h
      obtain ⟨y, hy, h2⟩ := h
      rw [Option.bind_eq_some] at hy
      obtain ⟨x1, hx1, hy2⟩ := hy
      obtain ⟨new_ret, env1⟩ := x1
      rw [Option.bind_eq_some] at hy2
      obtain ⟨x2, hx2, hy3⟩ := hy2
      obtain ⟨new_closure, env2⟩ := x2
      rw [Option.bind_eq_some] at hy3
      obtain ⟨env3, hx3, hy4⟩ := hy3
      obtain ⟨hs1, ht1⟩ := hdc _ _ _ hx1
      obtain ⟨hs2, ht2⟩ := hdc _ _ _ hx2
      obtain ⟨hsV, htV⟩ := dcVarsLoop_ext hdc _ _ _ _ _ hx3
      cases hy4
      cases h2
      have hT : tgtExt env.target env3.target :=
        tgtExt_trans ht1 (tgtExt_trans ht2 (tgtExt_trans (tgtExt_arenas rfl rfl) htV))
      obtain ⟨hdesc, hexc, hfn⟩ := dcSetFinish hT hc hlt
        (makeDCDescriptor max_rank (Content.struct (FlatType.func
          ⟨env2.target.«variables».length, u16cast arguments.length⟩ new_closure new_ret)))
      refine ⟨rfl, ?_, hexc, ?_⟩
      · exact dcSrcCopies_trans hs1 (dcSrcCopies_trans hs2
          (dcSrcCopies_trans (dcSrcCopies_of_source_eq rfl)
            (dcSrcCopies_trans hsV (dcSrcCopies_of_source_eq rfl))))
      · exact ⟨env2.target.«variables».length, new_closure, new_ret, hdesc⟩
    | emptyRecord =>
      simp only [dcCopyContent, Bind.bind] at h
      rw [Option.bind_eq_some] at h
      obtain ⟨y, hy, h2⟩ := h
      cases hy
      cases h2
      obtain ⟨hdesc, hexc, hfn⟩ := dcSetFinish (tgtExt_refl env.target) hc hlt
        (makeDCDescriptor max_rank (Content.struct FlatType.emptyRecord))
      exact ⟨rfl, dcSrcCopies_of_source_eq rfl, hexc, hdesc⟩
    | emptyTagUnion =>
      simp only [dcCopyContent, Bind.bind] at h
      rw [Option.bind_eq_some] at h
      obtain ⟨y, hy, h2⟩ := h
      cases hy
      cases h2
      obtain ⟨hdesc, hexc, hfn⟩ := dcSetFinish (tgtExt_refl env.target) hc hlt
        (makeDCDescriptor max_rank (Content.struct FlatType.emptyTagUnion))
      exact ⟨rfl, dcSrcCopies_of_source_eq rfl, hexc, hdesc⟩
    | erroneous p =>
      simp only [dcCopyContent, Bind.bind] at h
      rw [Option.bind_eq_some] at h
      obtain ⟨y, hy, h2⟩ := h
      cases hy
      cases h2
      obtain ⟨hdesc, hexc, hfn⟩ := dcSetFinish (tgtExt_refl env.target) hc hlt
        (makeDCDescriptor max_rank (Content.struct (FlatType.erroneous p)))
      exact ⟨rfl, dcSrcCopies_of_source_eq rfl, hexc, hdesc⟩
    | record fields ext =>
      simp only [dcCopyContent, VariableSubsSlice.reserve_into_subs, Bind.bind] at h
      rw [Option.bind_eq_some] at h
      obtain ⟨y, hy, h2⟩ := h
      rw [Option.bind_eq_some] at hy
      obtain ⟨env1, hx1, hy2⟩ := hy
      rw [Option.bind_eq_some] at hy2
      obtain ⟨x2, hx2, hy3⟩ := hy2
      obtain ⟨new_ext, env3⟩ := x2
      obtain ⟨hsV, htV⟩ := dcVarsLoop_ext hdc _ _ _ _ _ hx1
      obtain ⟨hs2, ht2⟩ := hdc _ _ _ hx2
      cases hy3
      cases h2
      have hm1 : tgtExt env.target ({ env.target with «variables» := (env.target.«variables» ++ List.replicate fields.length 0) } : Subs) :=
        tgtExt_arenas rfl rfl
      have hm2 : tgtExt env1.target ({ env1.target with field_names := (env1.target.field_names ++ arenaSlice env1.source.field_names fields.field_names_start fields.length []), record_fields := (env1.target.record_fields ++ arenaSlice env1.source.record_fields fields.field_types_start fields.length RecordFieldKind.required) } : Subs) :=
        tgtExt_fieldsApp rfl rfl
      have hT : tgtExt env.target env3.target :=
        tgtExt_trans hm1 (tgtExt_trans htV (tgtExt_trans hm2 ht2))
      obtain ⟨hdesc, hexc, hfn⟩ := dcSetFinish hT hc hlt
        (makeDCDescriptor max_rank (Content.struct (FlatType.record
          { length := fields.length, field_names_start := env1.target.field_names.length,
            variables_start := env.target.«variables».length,
            field_types_start := env1.target.record_fields.length } new_ext)))
      refine ⟨rfl, ?_, hexc, ?_⟩
      · exact dcSrcCopies_trans (dcSrcCopies_of_source_eq rfl)
          (dcSrcCopies_trans hsV (dcSrcCopies_trans (dcSrcCopies_of_source_eq rfl)
            (dcSrcCopies_trans hs2 (dcSrcCopies_of_source_eq rfl))))
      · exact ⟨{ length := fields.length, field_names_start := env1.target.field_names.length, variables_start := env.target.«variables».length, field_types_start := env1.target.record_fields.length }, rfl, new_ext, hdesc⟩
    | tagUnion tags ext =>
      simp only [dcCopyContent, SubsSliceN.reserve_variable_slices, Bind.bind] at h
      rw [Option.bind_eq_some] at h
      obtain ⟨y, hy, h2⟩ := h
      rw [Option.bind_eq_some] at hy
      obtain ⟨x1, hx1, hy2⟩ := hy
      obtain ⟨new_ext, env1⟩ := x1
      rw [Option.bind_eq_some] at hy2
      obtain ⟨env2, hx2, hy3⟩ := hy2
      obtain ⟨hs1, ht1⟩ := hdc _ _ _ hx1
      obtain ⟨hsT, htT⟩ := dcTagsLoop_ext hdc _ _ _ _ _ hx2
      cases hy3
      cases h2
      have hm1 : tgtExt env1.target ({ env1.target with variable_slices := (env1.target.variable_slices ++ List.replicate tags.length ⟨0, 0⟩) } : Subs) :=
        tgtExt_arenas rfl rfl
      have hm2 : tgtExt env2.target ({ env2.target with tag_names := (env2.target.tag_names ++ arenaSlice env2.source.tag_names tags.tag_names_start tags.length (TagName.tag [])) } : Subs) :=
        tgtExt_arenas rfl rfl
      have hT : tgtExt env.target ({ env2.target with tag_names := (env2.target.tag_names ++ arenaSlice env2.source.tag_names tags.tag_names_start tags.length (TagName.tag [])) } : Subs) :=
        tgtExt_trans ht1 (tgtExt_trans hm1 (tgtExt_trans htT hm2))
      obtain ⟨hdesc, hexc, hfn⟩ := dcSetFinish hT hc hlt (makeDCDescriptor max_rank
        (Content.struct (FlatType.tagUnion (UnionTags.from_slices
          ⟨env2.target.tag_names.length, u16cast tags.length⟩
          ⟨env1.target.variable_slices.length, u16cast tags.length⟩) new_ext)))
      refine ⟨rfl, ?_, hexc, ?_⟩
      · exact dcSrcCopies_trans hs1 (dcSrcCopies_trans (dcSrcCopies_of_source_eq rfl)
          (dcSrcCopies_trans hsT (dcSrcCopies_of_source_eq rfl)))
      · refine ⟨UnionTags.from_slices ⟨env2.target.tag_names.length, u16cast tags.length⟩
          ⟨env1.target.variable_slices.length, u16cast tags.length⟩, ?_, new_ext, hdesc⟩
        show u16cast (u16cast tags.length) = u16cast tags.length
        exact u16cast_idem _
    | functionOrTagUnion tn symbol ext =>
      simp only [dcCopyContent, Bind.bind] at h
      rw [Option.bind_eq_some] at h
      obtain ⟨y, hy, h2⟩ := h
      rw [Option.bind_eq_some] at hy
      obtain ⟨x1, hx1, hy2⟩ := hy
      obtain ⟨new_ext, env2⟩ := x1
      obtain ⟨hs1, ht1⟩ := hdc _ _ _ hx1
      cases hy2
      cases h2
      have hm1 : tgtExt env.target ({ env.target with tag_names := (env.target.tag_names ++ [env.source.tag_names.getD tn (TagName.tag [])]) } : Subs) :=
        tgtExt_arenas rfl rfl
      have hT : tgtExt env.target env2.target := tgtExt_trans hm1 ht1
      obtain ⟨hdesc, hexc, hfn⟩ := dcSetFinish hT hc hlt
        (makeDCDescriptor max_rank (Content.struct (FlatType.functionOrTagUnion
          env.target.tag_names.length symbol new_ext)))
      refine ⟨rfl, ?_, hexc, ?_⟩
      · exact dcSrcCopies_trans (dcSrcCopies_of_source_eq rfl)
          (dcSrcCopies_trans hs1 (dcSrcCopies_of_source_eq rfl))
      · exact ⟨env.target.tag_names.length, new_ext, hdesc⟩
    | recursiveTagUnion recVar tags ext =>
      simp only [dcCopyContent, SubsSliceN.reserve_variable_slices, Bind.bind] at h
      rw [Option.bind_eq_some] at h
      obtain ⟨y, hy, h2⟩ := h
      rw [Option.bind_eq_some] at hy
      obtain ⟨env1, hx1, hy2⟩ := hy
      rw [Option.bind_eq_some] at hy2
      obtain ⟨x2, hx2, hy3⟩ := hy2
      obtain ⟨new_ext, env3⟩ := x2
      rw [Option.bind_eq_some] at hy3
      obtain ⟨x3, hx3, hy4⟩ := hy3
      obtain ⟨new_rec, env4⟩ := x3
      obtain ⟨hsT, htT⟩ := dcTagsLoop_ext hdc _ _ _ _ _ hx1
      obtain ⟨hs2, ht2⟩ := hdc _ _ _ hx2
      obtain ⟨hs3, ht3⟩ := hdc _ _ _ hx3
      cases hy4
      cases h2
      have hm1 : tgtExt env.target ({ env.target with variable_slices := (env.target.variable_slices ++ List.replicate tags.length ⟨0, 0⟩) } : Subs) :=
        tgtExt_arenas rfl rfl
      have hm2 : tgtExt env1.target ({ env1.target with tag_names := (env1.target.tag_names ++ arenaSlice env1.source.tag_names tags.tag_names_start tags.length (TagName.tag [])) } : Subs) :=
        tgtExt_arenas rfl rfl
      have hT : tgtExt env.target env4.target :=
        tgtExt_trans hm1 (tgtExt_trans htT (tgtExt_trans hm2 (tgtExt_trans ht2 ht3)))
      obtain ⟨hdesc, hexc, hfn⟩ := dcSetFinish hT hc hlt (makeDCDescriptor max_rank
        (Content.struct (FlatType.recursiveTagUnion new_rec (UnionTags.from_slices
          ⟨env1.target.tag_names.length, u16cast tags.length⟩
          ⟨env.target.variable_slices.length, u16cast tags.length⟩) new_ext)))
      refine ⟨rfl, ?_, hexc, ?_⟩
      · exact dcSrcCopies_trans (dcSrcCopies_of_source_eq rfl)
          (dcSrcCopies_trans hsT (dcSrcCopies_trans (dcSrcCopies_of_source_eq rfl)
            (dcSrcCopies_trans hs2 (dcSrcCopies_trans hs3
              (dcSrcCopies_of_source_eq rfl)))))
      · refine ⟨new_rec, UnionTags.from_slices
          ⟨env1.target.tag_names.length, u16cast tags.length⟩
          ⟨env.target.variable_slices.length, u16cast tags.length⟩, new_ext, ?_, hdesc⟩
        show u16cast (u16cast tags.length) = u16cast tags.length
        exact u16cast_idem _
  | flexVar optName =>
    cases optName with
    | some ni =>
      cases h
      have hc1 : ({ env.target with field_names := (env.target.field_names ++ [env.source.field_names.getD ni []]) } : Subs).utable.getNode cp = UFNode.root flex_var_descriptor := hc
      have hd1 : ({ env.target with field_names := (env.target.field_names ++ [env.source.field_names.getD ni []]) } : Subs).getDesc cp = flex_var_descriptor :=
        probe_of_root (rootOf_root (by rw [UnificationTable.isRoot, hc1])) hc1
      have hm1 : tgtExt env.target ({ env.target with field_names := (env.target.field_names ++ [env.source.field_names.getD ni []]) } : Subs) :=
        tgtExt_fieldsApp rfl rfl
      obtain ⟨hdesc, hexc, hfn⟩ := dcSetFinish hm1 hc hlt ({ ({ env.target with field_names := (env.target.field_names ++ [env.source.field_names.getD ni []]) } : Subs).getDesc cp with content := Content.flexVar (some env.target.field_names.length) })
      refine ⟨rfl, dcSrcCopies_of_source_eq rfl, hexc, ?_⟩
      refine ⟨env.target.field_names.length, hdesc.trans (by rw [hd1]), ?_⟩
      show (env.target.field_names ++ [env.source.field_names.getD ni []]).getD
          env.target.field_names.length [] = env.source.field_names.getD ni []
      exact getD_append_length _ _ _
    | none =>
      cases h
      refine ⟨rfl, dcSrcCopies_refl env, tgtExtExcept_of_ext (tgtExt_refl _), ?_⟩
      show env.target.getDesc cp = flex_var_descriptor
      exact probe_of_root (rootOf_root (by rw [UnificationTable.isRoot, hc])) hc
  | flexAbleVar optName ability =>
    cases optName with
    | some ni =>
      cases h
      have hc1 : ({ env.target with field_names := (env.target.field_names ++ [env.source.field_names.getD ni []]) } : Subs).utable.getNode cp = UFNode.root flex_var_descriptor := hc
      have hd1 : ({ env.target with field_names := (env.target.field_names ++ [env.source.field_names.getD ni []]) } : Subs).getDesc cp = flex_var_descriptor :=
        probe_of_root (rootOf_root (by rw [UnificationTable.isRoot, hc1])) hc1
      have hm1 : tgtExt env.target ({ env.target with field_names := (env.target.field_names ++ [env.source.field_names.getD ni []]) } : Subs) :=
        tgtExt_fieldsApp rfl rfl
      obtain ⟨hdesc, hexc, hfn⟩ := dcSetFinish hm1 hc hlt ({ ({ env.target with field_names := (env.target.field_names ++ [env.source.field_names.getD ni []]) } : Subs).getDesc cp with content := Content.flexAbleVar (some env.target.field_names.length) ability })
      refine ⟨rfl, dcSrcCopies_of_source_eq rfl, hexc, ?_⟩
      refine ⟨env.target.field_names.length, hdesc.trans (by rw [hd1]), ?_⟩
      show (env.target.field_names ++ [env.source.field_names.getD ni []]).getD
          env.target.field_names.length [] = env.source.field_names.getD ni []
      exact getD_append_length _ _ _
    | none =>
      cases h
      have hd0 : env.target.getDesc cp = flex_var_descriptor :=
        probe_of_root (rootOf_root (by rw [UnificationTable.isRoot, hc])) hc
      obtain ⟨hdesc, hexc, hfn⟩ := dcSetFinish (tgtExt_refl env.target) hc hlt
        ({ env.target.getDesc cp with content := Content.flexAbleVar none ability })
      refine ⟨rfl, dcSrcCopies_of_source_eq rfl, hexc, ?_⟩
      exact hdesc.trans (by rw [hd0])
  | error =>
    cases h
    refine ⟨rfl, dcSrcCopies_refl env, tgtExtExcept_of_ext (tgtExt_refl _), ?_⟩
    show env.target.getDesc cp = flex_var_descriptor
    exact probe_of_root (rootOf_root (by rw [UnificationTable.isRoot, hc])) hc
  | rigidVar ni =>
    cases h
    have hm1 : tgtExt env.target ({ env.target with field_names := (env.target.field_names ++ [env.source.field_names.getD ni []]) } : Subs) :=
      tgtExt_fieldsApp rfl rfl
    obtain ⟨hdesc, hexc, hfn⟩ := dcSetFinish hm1 hc hlt
      (makeDCDescriptor max_rank (Content.flexVar (some env.target.field_names.length)))
    refine ⟨rfl, dcSrcCopies_of_source_eq rfl, hexc, ?_⟩
    refine ⟨env.target.field_names.length, hdesc, ?_⟩
    show (env.target.field_names ++ [env.source.field_names.getD ni []]).getD
        env.target.field_names.length [] = env.source.field_names.getD ni []
    exact getD_append_length _ _ _
  | rigidAbleVar ni ability =>
    cases h
    have hm1 : tgtExt env.target ({ env.target with field_names := (env.target.field_names ++ [env.source.field_names.getD ni []]) } : Subs) :=
      tgtExt_fieldsApp rfl rfl
    obtain ⟨hdesc, hexc, hfn⟩ := dcSetFinish hm1 hc hlt
      (makeDCDescriptor max_rank (Content.flexAbleVar
        (some env.target.field_names.length) ability))
    refine ⟨rfl, dcSrcCopies_of_source_eq rfl, hexc, ?_⟩
    refine ⟨env.target.field_names.length, hdesc, ?_⟩
    show (env.target.field_names ++ [env.source.field_names.getD ni []]).getD
        env.target.field_names.length [] = env.source.field_names.getD ni []
    exact getD_append_length _ _ _
  | recursionVar structVar optName =>
    simp only [dcCopyContent, Bind.bind] at h
    rw [Option.bind_eq_some] at h
    obtain ⟨x, hx, h2⟩ := h
    obtain ⟨new_structure, env1⟩ := x
    obtain ⟨hs1, ht1⟩ := hdc _ _ _ hx
    cases h2
    obtain ⟨hdesc, hexc, hfn⟩ := dcSetFinish ht1 hc hlt
      (makeDCDescriptor max_rank (Content.recursionVar new_structure optName))
    exact ⟨rfl, dcSrcCopies_trans hs1 (dcSrcCopies_of_source_eq rfl), hexc,
      ⟨new_structure, hdesc⟩⟩
  | «alias» symbol arguments realVar kind =>
    simp only [dcCopyContent, VariableSubsSlice.reserve_into_subs, Bind.bind] at h
    rw [Option.bind_eq_some] at h
    obtain ⟨env1, hx1, h2⟩ := h
    rw [Option.bind_eq_some] at h2
    obtain ⟨y, hy, h3⟩ := h2
    obtain ⟨new_real, env2⟩ := y
    obtain ⟨hsV, htV⟩ := dcVarsLoop_ext hdc _ _ _ _ _ hx1
    obtain ⟨hs2, ht2⟩ := hdc _ _ _ hy
    cases h3
    have hm1 : tgtExt env.target ({ env.target with «variables» := (env.target.«variables» ++ List.replicate arguments.all_variables_len 0) } : Subs) :=
      tgtExt_arenas rfl rfl
    have hT : tgtExt env.target env2.target :=
      tgtExt_trans hm1 (tgtExt_trans htV ht2)
    obtain ⟨hdesc, hexc, hfn⟩ := dcSetFinish hT hc hlt
      (makeDCDescriptor max_rank (Content.«alias» symbol
        { arguments with variables_start := env.target.«variables».length } new_real kind))
    exact ⟨rfl, dcSrcCopies_trans (dcSrcCopies_of_source_eq rfl)
        (dcSrcCopies_trans hsV (dcSrcCopies_trans hs2 (dcSrcCopies_of_source_eq rfl))),
      hexc, ⟨env.target.«variables».length, new_real, hdesc⟩⟩
  | rangedNumber typ vars =>
    simp only [dcCopyContent, VariableSubsSlice.reserve_into_subs, Bind.bind] at h
    rw [Option.bind_eq_some] at h
    obtain ⟨x, hx, h2⟩ := h
    obtain ⟨new_typ, env1⟩ := x
    rw [Option.bind_eq_some] at h2
    obtain ⟨env2, hy, h3⟩ := h2
    obtain ⟨hs1, ht1⟩ := hdc _ _ _ hx
    obtain ⟨hsV, htV⟩ := dcVarsLoop_ext hdc _ _ _ _ _ hy
    cases h3
    have hm1 : tgtExt env1.target ({ env1.target with «variables» := (env1.target.«variables» ++ List.replicate vars.length 0) } : Subs) :=
      tgtExt_arenas rfl rfl
    have hT : tgtExt env.target env2.target :=
      tgtExt_trans ht1 (tgtExt_trans hm1 htV)
    obtain ⟨hdesc, hexc, hfn⟩ := dcSetFinish hT hc hlt
      (makeDCDescriptor max_rank (Content.rangedNumber new_typ
        ⟨env1.target.«variables».length, u16cast vars.length⟩))
    exact ⟨rfl, dcSrcCopies_trans hs1 (dcSrcCopies_trans (dcSrcCopies_of_source_eq rfl)
        (dcSrcCopies_trans hsV (dcSrcCopies_of_source_eq rfl))), hexc,
      ⟨env1.target.«variables».length, new_typ, hdesc⟩⟩

theorem deepCopyVarToHelp_ext :
    ∀ (fuel : Nat) (mr : Rank) (env : DCEnv) (var : Var) (out : Var × DCEnv),
      deepCopyVarToHelp fuel mr env var = some out →
      dcSrcCopies env out.2 ∧ tgtExt env.target out.2.target := by
  intro fuel
  induction fuel with
  | zero =>
    intro mr env var out h
    exact absurd h (by simp [deepCopyVarToHelp])
  | succ f ih =>
    intro mr env var out h
    have hdc : ∀ env1 v o, deepCopyVarToHelp f mr env1 v = some o →
        dcSrcCopies env1 o.2 ∧ tgtExt env1.target o.2.target :=
      fun env1 v o ho => ih mr env1 v o ho
    simp only [deepCopyVarToHelp, Subs.fresh_unnamed_flex_var, Subs.fresh] at h
    by_cases hcp : (env.source.getDesc var).copy ≠ 0
    · rw [if_pos hcp] at h
      cases h
      exact ⟨dcSrcCopies_refl env, tgtExt_refl _⟩
    · rw [if_neg hcp] at h
      have h0 : (env.source.getDesc var).copy = 0 := not_not.mp hcp
      obtain ⟨_, hosrc, hoexc, _⟩ := dcCopyContent_ext hdc _ _ _ _ h
        (getNode_newKey_last env.target.utable (Descriptor.fromContent unnamed_flex_var))
        (by show env.target.utable.len <
              (env.target.utable.newKey (Descriptor.fromContent unnamed_flex_var)).nodes.length
            rw [newKey_length]
            exact Nat.lt_succ_self _)
      refine ⟨?_, ?_⟩
      · refine dcSrcCopies_trans ?_ hosrc
        intro w hw
        show ((env.source.set var { env.source.getDesc var with mark := Mark.NONE, copy := env.target.utable.len }).getDesc w).copy = (env.source.getDesc w).copy
        rw [set_getDesc_of_copy_ne h0 _ hw]
      · refine tgtExt_of_except_ge (tgtExt_comp_except
          (tgtExt_newKey env.target (Descriptor.fromContent unnamed_flex_var)) hoexc) ?_
        exact Nat.le_refl env.target.utable.len

/-- C3: `deep_copy_var_to` copies `var`'s content into the target
constructor-for-constructor at the pass rank, downgrades rigid variables to
flex variables carrying the same pooled name, preserves sharing through the
source `copy` scratch fields, and finally resets every visited copy field to
`None` without changing any source content.  For every successful run of
`deep_copy_var_to_help`: on a cache miss the returned copy is the target's
next fresh key and its installed descriptor has the copied shape (`dcShape`);
on a cache hit the cached copy is returned and the stores are untouched; and
(for a resolvable source variable and a nonzero copy, as in the source, where
`OptVariable::NONE` is variable `0`) the source's copy field afterwards holds
the returned copy, so any later copy of any variable of the same equivalence
class returns the same target variable without touching the stores.  The
cleanup conjunct is universal over stores and visited lists.  In the
`a -> a` sharing scenario the copied function's argument slot and its result
are the same target variable `1`, and the rigid `a` becomes `FlexVar` with
the pooled name `"a"`.  The isomorphism part of the claim fails for `Error`
contents (see the counterexample), which deep-copy to plain unnamed flex
variables. -/
theorem c3_deep_copy_var_to (s : Subs) (vs : List Var) (v w : Var) (hv : v ∈ vs)
    (fuel : Nat) (mr : Rank) (env : DCEnv) (var c : Var) (env2 : DCEnv)
    (hrun : deepCopyVarToHelp (fuel + 1) mr env var = some (c, env2)) :
    (((dcCleanup s vs).getDesc v).copy = 0
      ∧ (dcCleanup s vs).getContent w = s.getContent w)
    ∧ ((env.source.getDesc var).copy = 0 →
        c = env.target.len
        ∧ dcShape mr env.source env2.target c (env.source.getContent var))
    ∧ ((env.source.getDesc var).copy ≠ 0 →
        c = (env.source.getDesc var).copy ∧ env2 = env)
    ∧ (resolves env.source var → c ≠ 0 →
        (env2.source.getDesc var).copy = c
        ∧ ∀ fuel2 u, env2.source.get_root_key u = env2.source.get_root_key var →
            deepCopyVarToHelp (fuel2 + 1) mr env2 u = some (c, env2))
    ∧ (deep_copy_var_to 3 dcShareStore emptySubs 0 = some dcShareRes
      ∧ dcShareRes.2.2.getContent 0 = Content.struct (FlatType.func ⟨0, 1⟩ 2 1)
      ∧ dcShareRes.2.2.«variables».getD 0 0 = 1
      ∧ dcShareRes.2.2.getContent 1 = Content.flexVar (some 0)
      ∧ dcShareRes.2.2.field_names.getD 0 [] = [97]
      ∧ dcShareStore.getContent 1 = Content.rigidVar 0
      ∧ dcShareStore.field_names.getD 0 [] = [97]
      ∧ (∀ u, u < 3 → ((dcShareRes.2.1).getDesc u).copy = 0)) := by
  have hdc : ∀ env1 v1 o, deepCopyVarToHelp fuel mr env1 v1 = some o →
      dcSrcCopies env1 o.2 ∧ tgtExt env1.target o.2.target :=
    fun env1 v1 o ho => deepCopyVarToHelp_ext fuel mr env1 v1 o ho
  simp only [deepCopyVarToHelp, Subs.fresh_unnamed_flex_var, Subs.fresh] at hrun
  refine ⟨⟨dcCleanup_copy_zero vs s v hv, dcCleanup_getContent vs s w⟩, ?_⟩
  by_cases hcp : (env.source.getDesc var).copy ≠ 0
  · rw [if_pos hcp] at hrun
    have hinj := Option.some.inj hrun
    have h1 : (env.source.getDesc var).copy = c := congrArg Prod.fst hinj
    have h2 : env = env2 := congrArg Prod.snd hinj
    subst h2
    refine ⟨fun h0 => absurd h0 hcp, fun _ => ⟨h1.symm, rfl⟩, fun _ hcne => ⟨h1, ?_⟩,
      by decide⟩
    intro fuel2 u hu
    have hdu : env.source.getDesc u = env.source.getDesc var := getDesc_congr hu rfl
    simp only [deepCopyVarToHelp, Subs.fresh_unnamed_flex_var, Subs.fresh]
    rw [hdu, h1, if_pos hcne]
  · rw [if_neg hcp] at hrun
    have h0 : (env.source.getDesc var).copy = 0 := not_not.mp hcp
    obtain ⟨ho1, hosrc, hoexc, hoshape⟩ := dcCopyContent_ext hdc _ _ _ _ hrun
      (getNode_newKey_last env.target.utable (Descriptor.fromContent unnamed_flex_var))
      (by show env.target.utable.len <
            (env.target.utable.newKey (Descriptor.fromContent unnamed_flex_var)).nodes.length
          rw [newKey_length]
          exact Nat.lt_succ_self _)
    have hco : c = env.target.utable.len := ho1
    refine ⟨fun _ => ⟨hco, ?_⟩, fun hcc => absurd hcc hcp, fun hres hcne => ?_, by decide⟩
    · rw [hco]
      exact dcShape_src_fields rfl hoshape
    · have hsets := set_spec_resolves hres ({ env.source.getDesc var with mark := Mark.NONE, copy := env.target.utable.len } : Descriptor)
      have hread : ((env.source.set var { env.source.getDesc var with mark := Mark.NONE, copy := env.target.utable.len }).getDesc var).copy = env.target.utable.len := by
        rw [hsets.1 var, if_pos rfl]
      have hlen_ne : env.target.utable.len ≠ 0 := by
        rw [← hco]
        exact hcne
      have hw1 : ((env.source.set var { env.source.getDesc var with mark := Mark.NONE, copy := env.target.utable.len }).getDesc var).copy ≠ 0 := by
        rw [hread]
        exact hlen_ne
      have hpres : (env2.source.getDesc var).copy
          = ((env.source.set var { env.source.getDesc var with mark := Mark.NONE, copy := env.target.utable.len }).getDesc var).copy := hosrc var hw1
      rw [hread] at hpres
      have hfinal : (env2.source.getDesc var).copy = c := by
        rw [hpres]
        exact hco.symm
      refine ⟨hfinal, ?_⟩
      intro fuel2 u hu
      have hdu : env2.source.getDesc u = env2.source.getDesc var := getDesc_congr hu rfl
      simp only [deepCopyVarToHelp, Subs.fresh_unnamed_flex_var, Subs.fresh]
      rw [hdu, hfinal, if_pos hcne]

theorem c3_witness :
    ((dcCleanup oneFlexStore [(0 : Var)]).getDesc 0).copy = 0
    ∧ (c3ScenRes.2.source.getDesc 0).copy = 1 :=
  ⟨(c3_deep_copy_var_to oneFlexStore [0] 0 0 (by decide) 0 Rank.toplevel c3ScenEnv 0 1
      c3ScenRes.2 (by decide)).1.1,
   ((c3_deep_copy_var_to oneFlexStore [0] 0 0 (by decide) 0 Rank.toplevel c3ScenEnv 0 1
      c3ScenRes.2 (by decide)).2.2.2.1 ⟨by decide, by decide⟩ (by decide)).1⟩

/-- C3 counterexample: the source variable has `Content::Error`, but its
deep copy in the target is a plain unnamed flex variable (`FlexVar(None)`),
so the copied graph is not isomorphic to the source graph. -/
theorem c3_counterexample :
    deep_copy_var_to 1 dcErrorStore emptySubs 0 = some dcErrorRes
    ∧ dcErrorStore.getContent 0 = Content.error
    ∧ dcErrorRes.2.2.getContent dcErrorRes.1 = Content.flexVar none := by
  decide

end RocSubs
